import Mathlib

/-!
Verification of the mhtml2html converter suite.

Text is embedded as `List Char` (one entry per UTF-16-style code unit of the
JavaScript strings handled by the program; all characters involved lie in the
basic plane) and byte buffers as `List Nat` with values below 256.  Each
definition is a direct translation of the corresponding JavaScript function
from the repository sources (`converter-suite.js`, `mhtml2md-grok.js` and the
unnamed node scripts); definitions marked `Modelled from the spec:` stand for
behaviour the repository does not implement itself.
-/

set_option maxHeartbeats 1600000
set_option maxRecDepth 8192

namespace Mhtml

/-- Character class `[0-9A-Fa-f]` used by `qpDecodeToBytes`. -/
def isHexDigit (c : Char) : Bool :=
  ('0' ≤ c && c ≤ '9') || ('A' ≤ c && c ≤ 'F') || ('a' ≤ c && c ≤ 'f')

/-- Value of a hex digit, as computed by `parseInt(.., 16)` on two hex digits. -/
def hexDigitVal (c : Char) : Nat :=
  if '0' ≤ c ∧ c ≤ '9' then c.toNat - '0'.toNat
  else if 'A' ≤ c ∧ c ≤ 'F' then c.toNat - 'A'.toNat + 10
  else c.toNat - 'a'.toNat + 10

/-- `text.replace(/=\r?\n/g, "")` from `qpDecodeToBytes`
(converter-suite.js line 122): removal of quoted-printable soft line breaks. -/
def stripSoftBreaks : List Char → List Char
  | '=' :: '\r' :: '\n' :: rest => stripSoftBreaks rest
  | '=' :: '\n' :: rest => stripSoftBreaks rest
  | c :: rest => c :: stripSoftBreaks rest
  | [] => []

/-- The left-to-right scan of `qpDecodeToBytes` (converter-suite.js lines
123-133): `=` followed by two hex digits decodes to that byte, any other
character contributes its low 8 bits (`charCodeAt(i) & 0xff`). -/
def qpScanBytes : List Char → List Nat
  | [] => []
  | '=' :: h1 :: h2 :: rest =>
      if isHexDigit h1 && isHexDigit h2 then
        (16 * hexDigitVal h1 + hexDigitVal h2) :: qpScanBytes rest
      else
        61 :: qpScanBytes (h1 :: h2 :: rest)
  | c :: rest => (c.toNat % 256) :: qpScanBytes rest

/-- `qpDecodeToBytes` (converter-suite.js lines 121-134). -/
def qpDecodeToBytes (text : List Char) : List Nat :=
  qpScanBytes (stripSoftBreaks text)

/-- The sixteen upper-case hex digit characters. -/
def hexDigits : List Char :=
  ['0', '1', '2', '3', '4', '5', '6', '7', '8', '9', 'A', 'B', 'C', 'D', 'E', 'F']

/-- Hex digit character for a value below 16. -/
def hexDigitOf (n : Nat) : Char := hexDigits.getD n '0'

/-- Modelled from the spec: the repository ships no quoted-printable encoder,
only the decoder `qpDecodeToBytes`; spec section 8 and the glossary describe
encoding as "representing non-printable/high bytes as `=XX` hex escapes and
soft line wraps as a trailing `=`".  A printable byte other than `=` is kept
literal, anything else becomes an `=XX` escape. -/
def qpEncodeByte (b : Nat) : List Char :=
  if 33 ≤ b ∧ b ≤ 126 ∧ b ≠ 61 then [Char.ofNat b]
  else ['=', hexDigitOf (b / 16), hexDigitOf (b % 16)]

/-- Modelled from the spec: quoted-printable encoding loop inserting a soft
line break (a trailing `=` before the line break) whenever the current line
would exceed 76 characters. -/
def qpEncodeGo : Nat → List Nat → List Char
  | _, [] => []
  | col, b :: bs =>
      let atom := qpEncodeByte b
      if 75 < col + atom.length then
        '=' :: '\n' :: (atom ++ qpEncodeGo atom.length bs)
      else
        atom ++ qpEncodeGo (col + atom.length) bs

/-- Modelled from the spec: quoted-printable encoding of a byte sequence. -/
def qpEncode (bs : List Nat) : List Char := qpEncodeGo 0 bs

/-- Concatenation of the per-byte atoms of the encoder, with no soft breaks. -/
def qpAtoms : List Nat → List Char
  | [] => []
  | b :: bs => qpEncodeByte b ++ qpAtoms bs

/-- Decidable bundle of facts about the atom a single byte encodes to, strong
enough to push it through soft-break stripping and the decode scan. -/
def qpAtomGood (b : Nat) : Prop :=
  match qpEncodeByte b with
  | [c] => c ≠ '=' ∧ c.toNat % 256 = b
  | [e, h1, h2] =>
      e = '=' ∧ h1 ≠ '\r' ∧ h1 ≠ '\n' ∧ h1 ≠ '=' ∧ h2 ≠ '=' ∧
      isHexDigit h1 = true ∧ isHexDigit h2 = true ∧
      16 * hexDigitVal h1 + hexDigitVal h2 = b
  | _ => False

instance (b : Nat) : Decidable (qpAtomGood b) := by
  unfold qpAtomGood
  split <;> infer_instance

theorem qpAtomGood_of_lt (b : Nat) (hb : b < 256) : qpAtomGood b := by
  revert b
  decide

theorem stripSoftBreaks_cons_ne (c : Char) (rest : List Char) (hc : c ≠ '=') :
    stripSoftBreaks (c :: rest) = c :: stripSoftBreaks rest := by
  rcases rest with _ | ⟨c2, rest2⟩
  · simp [stripSoftBreaks, hc]
  · rcases rest2 with _ | ⟨c3, rest3⟩ <;> simp [stripSoftBreaks, hc]

theorem qpScanBytes_cons_ne (c : Char) (rest : List Char) (hc : c ≠ '=') :
    qpScanBytes (c :: rest) = (c.toNat % 256) :: qpScanBytes rest := by
  rcases rest with _ | ⟨c2, rest2⟩
  · simp [qpScanBytes, hc]
  · rcases rest2 with _ | ⟨c3, rest3⟩ <;> simp [qpScanBytes, hc]

theorem stripSoftBreaks_atom (b : Nat) (hb : qpAtomGood b) (x : List Char) :
    stripSoftBreaks (qpEncodeByte b ++ x) = qpEncodeByte b ++ stripSoftBreaks x := by
  unfold qpAtomGood at hb
  split at hb
  next c heq =>
    rw [heq]
    simpa using stripSoftBreaks_cons_ne c x hb.1
  next e h1 h2 heq =>
    obtain ⟨he, hr, hn, h1e, h2e, _, _, _⟩ := hb
    subst he
    rw [heq]
    have step1 : stripSoftBreaks ('=' :: h1 :: h2 :: x) =
        '=' :: stripSoftBreaks (h1 :: h2 :: x) := by
      simp [stripSoftBreaks, hr, hn]
    simp only [List.cons_append, List.nil_append, step1,
      stripSoftBreaks_cons_ne h1 _ h1e, stripSoftBreaks_cons_ne h2 _ h2e]
  next => exact absurd hb not_false

theorem qpScanBytes_atom (b : Nat) (hb : qpAtomGood b) (x : List Char) :
    qpScanBytes (qpEncodeByte b ++ x) = b :: qpScanBytes x := by
  unfold qpAtomGood at hb
  split at hb
  next c heq =>
    rw [heq]
    have := qpScanBytes_cons_ne c x hb.1
    simpa [hb.2] using this
  next e h1 h2 heq =>
    obtain ⟨he, _, _, _, _, hx1, hx2, hval⟩ := hb
    subst he
    rw [heq]
    simp [qpScanBytes, hx1, hx2, hval]
  next => exact absurd hb not_false

theorem stripSoftBreaks_qpEncodeGo (bs : List Nat) (hbs : ∀ b ∈ bs, qpAtomGood b) :
    ∀ col, stripSoftBreaks (qpEncodeGo col bs) = qpAtoms bs := by
  induction bs with
  | nil => intro col; simp [qpEncodeGo, qpAtoms, stripSoftBreaks]
  | cons b bs ih =>
    intro col
    have hb : qpAtomGood b := hbs b (List.mem_cons_self b bs)
    have hrest : ∀ y ∈ bs, qpAtomGood y := fun y hy => hbs y (List.mem_cons_of_mem b hy)
    by_cases hcol : 75 < col + (qpEncodeByte b).length
    · simp only [qpEncodeGo, if_pos hcol]
      have : stripSoftBreaks ('=' :: '\n' :: (qpEncodeByte b ++ qpEncodeGo (qpEncodeByte b).length bs)) =
          stripSoftBreaks (qpEncodeByte b ++ qpEncodeGo (qpEncodeByte b).length bs) := by
        simp [stripSoftBreaks]
      rw [this, stripSoftBreaks_atom b hb, ih hrest, qpAtoms]
    · simp only [qpEncodeGo, if_neg hcol]
      rw [stripSoftBreaks_atom b hb, ih hrest, qpAtoms]

theorem qpScanBytes_qpAtoms (bs : List Nat) (hbs : ∀ b ∈ bs, qpAtomGood b) :
    qpScanBytes (qpAtoms bs) = bs := by
  induction bs with
  | nil => simp [qpAtoms, qpScanBytes]
  | cons b bs ih =>
    have hb : qpAtomGood b := hbs b (List.mem_cons_self b bs)
    have hrest : ∀ y ∈ bs, qpAtomGood y := fun y hy => hbs y (List.mem_cons_of_mem b hy)
    rw [qpAtoms, qpScanBytes_atom b hb, ih hrest]

/-- C4: quoted-printable round trip.  For every byte sequence (all values
0-255), encoding it as quoted-printable (literal printable characters, `=XX`
hex escapes, soft line breaks) and then decoding with the program's
`qpDecodeToBytes` — which first removes soft line breaks and then maps `=HH`
to that byte and any other character to its low 8 bits — reproduces the
original bytes. -/
theorem qp_encode_decode_roundtrip (bs : List Nat) (hbs : ∀ b ∈ bs, b < 256) :
    qpDecodeToBytes (qpEncode bs) = bs := by
  have hgood : ∀ b ∈ bs, qpAtomGood b := fun b hb => qpAtomGood_of_lt b (hbs b hb)
  unfold qpDecodeToBytes qpEncode
  rw [stripSoftBreaks_qpEncodeGo bs hgood 0, qpScanBytes_qpAtoms bs hgood]

/-- Concrete witness for C4: the round trip at a list hitting low, printable,
`=` and high byte values. -/
theorem qp_encode_decode_roundtrip_witness :
    (∀ b ∈ [0, 10, 13, 32, 61, 65, 127, 128, 255], b < 256) ∧
      qpDecodeToBytes (qpEncode [0, 10, 13, 32, 61, 65, 127, 128, 255]) =
        [0, 10, 13, 32, 61, 65, 127, 128, 255] :=
  ⟨by decide, qp_encode_decode_roundtrip [0, 10, 13, 32, 61, 65, 127, 128, 255] (by decide)⟩

/-- Boolean prefix test on character lists. -/
def isPre : List Char → List Char → Bool
  | [], _ => true
  | _ :: _, [] => false
  | p :: ps, c :: cs => p == c && isPre ps cs

/-- Boolean substring occurrence test on character lists. -/
def hasSub (pat : List Char) : List Char → Bool
  | [] => isPre pat []
  | c :: rest => isPre pat (c :: rest) || hasSub pat rest

/-- `outerHTML.replace(/\*\*/g, "")` from `convertMhtmlToHtml`
(converter-suite.js line 419): global left-to-right removal of
non-overlapping `**` pairs. -/
def replaceStars : List Char → List Char
  | '*' :: '*' :: rest => replaceStars rest
  | c :: rest => c :: replaceStars rest
  | [] => []

/-- The characters of the string `"<!DOCTYPE html>\n"` prepended to the
serialized document at converter-suite.js line 419. -/
def doctypePrefix : List Char :=
  ['<', '!', 'D', 'O', 'C', 'T', 'Y', 'P', 'E', ' ', 'h', 't', 'm', 'l', '>', '\n']

/-- The final serialization step of `convertMhtmlToHtml` (converter-suite.js
line 419): the doctype line followed by the serialized document with every
`**` pair removed. -/
def finalizeHtml (serialized : List Char) : List Char :=
  doctypePrefix ++ replaceStars serialized

theorem replaceStars_cons_ne (c : Char) (rest : List Char) (hc : c ≠ '*') :
    replaceStars (c :: rest) = c :: replaceStars rest := by
  rcases rest with _ | ⟨c2, rest2⟩ <;> simp [replaceStars, hc]

theorem hasSub_cons_ne_head (a : Char) (pat : List Char) (c : Char) (rest : List Char)
    (hac : a ≠ c) : hasSub (a :: pat) (c :: rest) = hasSub (a :: pat) rest := by
  have hp : isPre (a :: pat) (c :: rest) = false := by
    simp [isPre, hac]
  simp [hasSub, hp]

theorem replaceStars_no_double_star (s : List Char) :
    hasSub ['*', '*'] (replaceStars s) = false := by
  generalize hn : s.length = n
  induction n using Nat.strong_induction_on generalizing s with
  | _ n ih =>
    rcases s with _ | ⟨c, rest⟩
    · simp [replaceStars, hasSub, isPre]
    · by_cases hc : c = '*'
      · subst hc
        rcases rest with _ | ⟨d, rest2⟩
        · have : replaceStars ['*'] = ['*'] := by simp [replaceStars]
          rw [this]
          decide
        · by_cases hd : d = '*'
          · subst hd
            have hstep : replaceStars ('*' :: '*' :: rest2) = replaceStars rest2 := by
              simp [replaceStars]
            rw [hstep]
            exact ih rest2.length (by simp [← hn]; omega) rest2 rfl
          · have hstep : replaceStars ('*' :: d :: rest2) = '*' :: replaceStars (d :: rest2) := by
              simp [replaceStars, hd]
            rw [hstep, replaceStars_cons_ne d rest2 hd]
            have htail : hasSub ['*', '*'] (d :: replaceStars rest2) = false := by
              rw [← replaceStars_cons_ne d rest2 hd]
              exact ih (d :: rest2).length (by simp [← hn]) (d :: rest2) rfl
            have hfirst : isPre ['*', '*'] ('*' :: d :: replaceStars rest2) = false := by
              simp [isPre, Ne.symm hd]
            simp [hasSub, hfirst, htail]
            simpa [hasSub] using htail
      · rw [replaceStars_cons_ne c rest hc]
        have htail : hasSub ['*', '*'] (replaceStars rest) = false :=
          ih rest.length (by simp [← hn]) rest rfl
        rw [hasSub_cons_ne_head '*' ['*'] c (replaceStars rest) (Ne.symm hc)]
        exact htail

/-- C9: the serialized output of the HTML-sanitize conversion contains no
occurrence of the two-character sequence `**` anywhere: the final global
replace of `**` with the empty string leaves no adjacent pair of asterisks,
and the prepended doctype line contains none either. -/
theorem finalizeHtml_no_double_star (serialized : List Char) :
    hasSub ['*', '*'] (finalizeHtml serialized) = false := by
  simp only [finalizeHtml, doctypePrefix, List.cons_append, List.nil_append]
  rw [hasSub_cons_ne_head _ _ _ _ (by decide), hasSub_cons_ne_head _ _ _ _ (by decide),
    hasSub_cons_ne_head _ _ _ _ (by decide), hasSub_cons_ne_head _ _ _ _ (by decide),
    hasSub_cons_ne_head _ _ _ _ (by decide), hasSub_cons_ne_head _ _ _ _ (by decide),
    hasSub_cons_ne_head _ _ _ _ (by decide), hasSub_cons_ne_head _ _ _ _ (by decide),
    hasSub_cons_ne_head _ _ _ _ (by decide), hasSub_cons_ne_head _ _ _ _ (by decide),
    hasSub_cons_ne_head _ _ _ _ (by decide), hasSub_cons_ne_head _ _ _ _ (by decide),
    hasSub_cons_ne_head _ _ _ _ (by decide), hasSub_cons_ne_head _ _ _ _ (by decide),
    hasSub_cons_ne_head _ _ _ _ (by decide), hasSub_cons_ne_head _ _ _ _ (by decide)]
  exact replaceStars_no_double_star serialized

/-- The fixed charset fallback list of `decodeBytes`
(converter-suite.js line 168). -/
def charsetFallbacks : List String :=
  ["utf-8", "cp949", "euc-kr", "windows-1252", "latin1"]

/-- The candidate charset list built by `decodeBytes` (converter-suite.js
lines 164-172): the explicit hint first (when present), then each entry of
the fixed fallback list that is not already present. -/
def buildTries (charsetHint : Option String) : List String :=
  charsetFallbacks.foldl (fun acc c => if c ∈ acc then acc else acc ++ [c])
    (match charsetHint with | some h => [h] | none => [])

/-- The try loop of `decodeBytes` (converter-suite.js lines 173-178):
return the first decoder attempt that succeeds, else the fallback. -/
def decodeBytesGo (dec : String → List Nat → Option (List Char))
    (fb : List Nat → List Char) (bytes : List Nat) : List String → List Char
  | [] => fb bytes
  | cs :: rest =>
      match dec cs bytes with
      | some r => r
      | none => decodeBytesGo dec fb bytes rest

/-- `decodeBytes` (converter-suite.js lines 163-179).  The platform
`TextDecoder` is abstracted as `dec` (`none` models a throwing constructor or
strict decode), and the final `new TextDecoder("utf-8", non-fatal)` decode —
which never throws — as the total function `fb`. -/
def decodeBytes (dec : String → List Nat → Option (List Char))
    (fb : List Nat → List Char) (bytes : List Nat) (charsetHint : Option String) : List Char :=
  decodeBytesGo dec fb bytes (buildTries charsetHint)

theorem decodeBytesGo_findSome (dec : String → List Nat → Option (List Char))
    (fb : List Nat → List Char) (bytes : List Nat) (tries : List String) :
    decodeBytesGo dec fb bytes tries =
      (tries.findSome? (fun cs => dec cs bytes)).getD (fb bytes) := by
  induction tries with
  | nil => simp [decodeBytesGo]
  | cons cs rest ih =>
    rw [decodeBytesGo, List.findSome?_cons]
    rcases dec cs bytes with _ | r
    · simpa using ih
    · simp

/-- C5: charset decoding is total and follows a first-success fallback chain.
`decodeBytes` is a total function (it always returns a string, so the
`UnsupportedCharset` failure is never surfaced); its result is that of the
first candidate decoder that succeeds, the candidates being the explicit hint
followed by utf-8, cp949, euc-kr, windows-1252, latin1 (each skipped when
already listed), and when every candidate fails the non-strict UTF-8 fallback
`fb` supplies the result. -/
theorem decodeBytes_fallback_chain (dec : String → List Nat → Option (List Char))
    (fb : List Nat → List Char) (bytes : List Nat) :
    (∀ charsetHint, decodeBytes dec fb bytes charsetHint =
        ((buildTries charsetHint).findSome? (fun cs => dec cs bytes)).getD (fb bytes)) ∧
      buildTries none = charsetFallbacks ∧
      (∀ h, buildTries (some h) = h :: charsetFallbacks.filter (fun c => c ≠ h)) := by
  refine ⟨fun charsetHint => decodeBytesGo_findSome dec fb bytes _, by decide, fun h => ?_⟩
  show charsetFallbacks.foldl (fun acc c => if c ∈ acc then acc else acc ++ [c]) [h] =
      h :: charsetFallbacks.filter (fun c => c ≠ h)
  by_cases h1 : "utf-8" = h <;> by_cases h2 : "cp949" = h <;>
    by_cases h3 : "euc-kr" = h <;> by_cases h4 : "windows-1252" = h <;>
    by_cases h5 : "latin1" = h <;>
    simp_all [charsetFallbacks, List.foldl, List.filter]

/-- Split a character list at each `'\n'` (JavaScript `split("\n")`). -/
def splitLF : List Char → List (List Char)
  | [] => [[]]
  | '\n' :: rest => [] :: splitLF rest
  | c :: rest =>
      match splitLF rest with
      | [] => [[c]]
      | l :: ls => (c :: l) :: ls

/-- Split at each match of `/\r?\n/` (JavaScript `split(/\r?\n/)` in
`parseQaText`, converter-suite.js line 886). -/
def splitRN : List Char → List (List Char)
  | [] => [[]]
  | '\r' :: '\n' :: rest => [] :: splitRN rest
  | '\n' :: rest => [] :: splitRN rest
  | c :: rest =>
      match splitRN rest with
      | [] => [[c]]
      | l :: ls => (c :: l) :: ls

/-- JavaScript `lines.join("\n")`. -/
def joinNL : List (List Char) → List Char
  | [] => []
  | [l] => l
  | l :: ls => l ++ '\n' :: joinNL ls

theorem splitLF_ne_nil (s : List Char) : splitLF s ≠ [] := by
  induction s with
  | nil => simp [splitLF]
  | cons c rest ih =>
    by_cases hc : c = '\n'
    · subst hc; simp [splitLF]
    · rcases h : splitLF rest with _ | ⟨l, ls⟩
      · exact absurd h ih
      · simp [splitLF, hc, h]

theorem splitLF_cons_ne (c : Char) (rest : List Char) (hc : c ≠ '\n') :
    splitLF (c :: rest) =
      (c :: (splitLF rest).headI) :: (splitLF rest).tail := by
  rcases h : splitLF rest with _ | ⟨l, ls⟩
  · exact absurd h (splitLF_ne_nil rest)
  · simp [splitLF, hc, h]

theorem splitLF_append_newline (a b : List Char) :
    splitLF (a ++ '\n' :: b) = splitLF a ++ splitLF b := by
  induction a with
  | nil => simp [splitLF]
  | cons c a2 ih =>
    by_cases hc : c = '\n'
    · subst hc
      simp only [List.cons_append]
      rw [show splitLF ('\n' :: (a2 ++ '\n' :: b)) = [] :: splitLF (a2 ++ '\n' :: b) from rfl,
        show splitLF ('\n' :: a2) = [] :: splitLF a2 from rfl, ih]
      simp
    · simp only [List.cons_append]
      rw [splitLF_cons_ne c _ hc, splitLF_cons_ne c _ hc, ih]
      rcases h : splitLF a2 with _ | ⟨l, ls⟩
      · exact absurd h (splitLF_ne_nil a2)
      · simp

theorem splitLF_single (l : List Char) (hl : '\n' ∉ l) : splitLF l = [l] := by
  induction l with
  | nil => simp [splitLF]
  | cons c rest ih =>
    have hc : c ≠ '\n' := fun h => hl (by simp [h])
    rw [splitLF_cons_ne c rest hc, ih (fun h => hl (List.mem_cons_of_mem c h))]
    simp

theorem joinNL_cons_of_ne (l : List Char) (ls : List (List Char)) (h : ls ≠ []) :
    joinNL (l :: ls) = l ++ '\n' :: joinNL ls := by
  rcases ls with _ | ⟨l2, ls2⟩
  · exact absurd rfl h
  · rfl

theorem joinNL_append (A B : List (List Char)) (hA : A ≠ []) (hB : B ≠ []) :
    joinNL (A ++ B) = joinNL A ++ '\n' :: joinNL B := by
  induction A with
  | nil => exact absurd rfl hA
  | cons l A2 ih =>
    rcases A2 with _ | ⟨l2, A3⟩
    · rw [List.singleton_append, joinNL_cons_of_ne l B hB]
      rfl
    · rw [List.cons_append, joinNL_cons_of_ne l (l2 :: A3 ++ B) (by simp),
        joinNL_cons_of_ne l (l2 :: A3) (by simp), ih (by simp)]
      simp

theorem joinNL_splitLF (s : List Char) : joinNL (splitLF s) = s := by
  induction s with
  | nil => rfl
  | cons c rest ih =>
    by_cases hc : c = '\n'
    · subst hc
      rw [show splitLF ('\n' :: rest) = [] :: splitLF rest from rfl,
        joinNL_cons_of_ne [] (splitLF rest) (splitLF_ne_nil rest), ih]
      simp
    · rw [splitLF_cons_ne c rest hc]
      rcases h : splitLF rest with _ | ⟨l, ls⟩
      · exact absurd h (splitLF_ne_nil rest)
      · rw [h] at ih
        rcases ls with _ | ⟨l2, ls2⟩
        · simpa [joinNL] using congrArg (c :: ·) ih
        · simp only [List.headI, List.tail]
          rw [joinNL_cons_of_ne (c :: l) (l2 :: ls2) (by simp)]
          rw [joinNL_cons_of_ne l (l2 :: ls2) (by simp)] at ih
          simpa using congrArg (c :: ·) ih

theorem splitRN_eq_splitLF (s : List Char) (hs : '\r' ∉ s) : splitRN s = splitLF s := by
  generalize hn : s.length = n
  induction n using Nat.strong_induction_on generalizing s with
  | _ n ih =>
    rcases s with _ | ⟨c, rest⟩
    · rfl
    · have hc : c ≠ '\r' := fun h => hs (by simp [h])
      by_cases hnl : c = '\n'
      · subst hnl
        have : splitRN ('\n' :: rest) = [] :: splitRN rest := by
          rcases rest with _ | ⟨d, r2⟩ <;> rfl
        rw [this, show splitLF ('\n' :: rest) = [] :: splitLF rest from rfl,
          ih rest.length (by simp [← hn]) rest (fun h => hs (List.mem_cons_of_mem _ h)) rfl]
      · have hrn : splitRN (c :: rest) =
            match splitRN rest with
            | [] => [[c]]
            | l :: ls => (c :: l) :: ls := by
          rcases rest with _ | ⟨d, r2⟩
          · simp [splitRN, hc, hnl]
          · by_cases hd : d = '\n' <;> simp [splitRN, hc, hnl, hd]
        rw [hrn, ih rest.length (by simp [← hn]) rest (fun h => hs (List.mem_cons_of_mem _ h)) rfl,
          splitLF_cons_ne c rest hnl]
        rcases h : splitLF rest with _ | ⟨l, ls⟩
        · exact absurd h (splitLF_ne_nil rest)
        · simp

/-- JavaScript `.replace(/\n+$/g, "")`: strip trailing newlines. -/
def stripTrailNL (s : List Char) : List Char :=
  (s.reverse.dropWhile (fun c => c = '\n')).reverse

theorem stripTrailNL_append_newline (s : List Char) :
    stripTrailNL (s ++ ['\n']) = stripTrailNL s := by
  simp [stripTrailNL, List.dropWhile]

theorem stripTrailNL_of_getLast (s : List Char) (hs : s.getLast? ≠ some '\n') :
    stripTrailNL s = s := by
  rcases h : s.reverse with _ | ⟨c, t⟩
  · have : s = [] := by simpa using congrArg List.reverse h
    simp [this, stripTrailNL]
  · have hc : c ≠ '\n' := by
      intro hceq
      apply hs
      rw [← List.head?_reverse, h, hceq]
      rfl
    have hdw : s.reverse.dropWhile (fun x => x = '\n') = c :: t := by
      rw [h, List.dropWhile_cons]
      simp [hc]
    rw [stripTrailNL, hdw, ← h, List.reverse_reverse]

/-- JavaScript whitespace (the character class trimmed by `String.trim`). -/
def isJsWhitespace (c : Char) : Bool :=
  c = ' ' || c = '\t' || c = '\n' || c = '\r' || c = '\x0b' || c = '\x0c' ||
  c = ' ' || c = '﻿' || c = ' ' ||
  (' ' ≤ c && c ≤ ' ') || c = ' ' || c = ' ' ||
  c = ' ' || c = ' ' || c = '　'

/-- JavaScript `String.trim()`. -/
def jsTrim (s : List Char) : List Char :=
  ((s.dropWhile isJsWhitespace).reverse.dropWhile isJsWhitespace).reverse

/-- Decimal digit characters of a number, fuel-based accumulator form (the
fuel argument only bounds the digit count, it never runs out when it starts
at least at the number itself plus one). -/
def natToCharsCore : Nat → Nat → List Char → List Char
  | 0, _, acc => acc
  | fuel + 1, n, acc =>
      if n < 10 then hexDigitOf (n % 10) :: acc
      else natToCharsCore fuel (n / 10) (hexDigitOf (n % 10) :: acc)

/-- Decimal rendering of a natural number, as JavaScript template
interpolation of a number produces. -/
def natToChars (n : Nat) : List Char := natToCharsCore (n + 1) n []

/-- The `질문:` marker line. -/
def qLabel : List Char := ['질', '문', ':']

/-- The `답변:` marker line. -/
def aLabel : List Char := ['답', '변', ':']

/-- The turn delimiter line `[Turn i+1]` written by `convertMhtmlToQaTxt`
(converter-suite.js line 529) for 0-based pair index `i`. -/
def turnHeader (i : Nat) : List Char :=
  ['[', 'T', 'u', 'r', 'n', ' '] ++ natToChars (i + 1) ++ [']']

/-- The seven lines pushed per pair by `convertMhtmlToQaTxt`
(converter-suite.js lines 529-535). -/
def qaTurnLines (i : Nat) (p : List Char × List Char) : List (List Char) :=
  [turnHeader i, qLabel, p.1, [], aLabel, p.2, []]

/-- All lines pushed by the formatting loop of `convertMhtmlToQaTxt`. -/
def qaLinesAux : Nat → List (List Char × List Char) → List (List Char)
  | _, [] => []
  | i, p :: ps => qaTurnLines i p ++ qaLinesAux (i + 1) ps

/-- The text assembled by `convertMhtmlToQaTxt` (converter-suite.js line
537): `lines.join("\n") + "\n"`. -/
def formatQaTxt (pairs : List (List Char × List Char)) : List Char :=
  joinNL (qaLinesAux 0 pairs) ++ ['\n']

/-- `line.startsWith("[Turn ") && line.endsWith("]")` from `parseQaText`
(converter-suite.js line 888). -/
def isTurnLine (l : List Char) : Bool :=
  isPre ['[', 'T', 'u', 'r', 'n', ' '] l &&
    (match l.getLast? with
     | some c => c = ']'
     | none => false)

/-- The three-valued `state` variable of `parseQaText`
(`null` / `"question"` / `"answer"`). -/
inductive QaSection
  | awaiting
  | question
  | answer
deriving DecidableEq

/-- The `flush` helper of `parseQaText` (converter-suite.js lines 875-884):
push the pair (with trailing newlines stripped) unless both accumulators are
empty. -/
def qaFlush (qls als : List (List Char)) (acc : List (List Char × List Char)) :
    List (List Char × List Char) :=
  if qls = [] ∧ als = [] then acc
  else acc ++ [(stripTrailNL (joinNL qls), stripTrailNL (joinNL als))]

/-- The line loop of `parseQaText` (converter-suite.js lines 886-907). -/
def parseQaLoop : QaSection → List (List Char) → List (List Char) →
    List (List Char × List Char) → List (List Char) → List (List Char × List Char)
  | _, qls, als, acc, [] => qaFlush qls als acc
  | st, qls, als, acc, l :: rest =>
      if isTurnLine l then parseQaLoop .awaiting [] [] (qaFlush qls als acc) rest
      else if jsTrim l = qLabel then parseQaLoop .question qls als acc rest
      else if jsTrim l = aLabel then parseQaLoop .answer qls als acc rest
      else
        match st with
        | .question => parseQaLoop .question (qls ++ [l]) als acc rest
        | .answer => parseQaLoop .answer qls (als ++ [l]) acc rest
        | .awaiting => parseQaLoop .awaiting qls als acc rest

/-- `parseQaText` (converter-suite.js lines 869-909). -/
def parseQaText (text : List Char) : List (List Char × List Char) :=
  parseQaLoop .awaiting [] [] [] (splitRN text)

/-- A line is ordinary when the parser accumulates it rather than treating it
as a delimiter: not turn-delimiter-shaped, and not trimming to one of the two
section markers. -/
def ordinaryLine (l : List Char) : Prop :=
  isTurnLine l = false ∧ jsTrim l ≠ qLabel ∧ jsTrim l ≠ aLabel

instance (l : List Char) : Decidable (ordinaryLine l) := by
  unfold ordinaryLine
  infer_instance

/-- Hypotheses of the round-trip claim on one side of a pair: every line is
ordinary (no turn-delimiter-shaped line). -/
def noDelimLines (s : List Char) : Prop := ∀ l ∈ splitLF s, ordinaryLine l

instance (s : List Char) : Decidable (noDelimLines s) := by
  unfold noDelimLines
  infer_instance

/-- Extra hypotheses forced by the counterexample: no carriage return and no
trailing line feed. -/
def qaRoundTripSafe (s : List Char) : Prop :=
  noDelimLines s ∧ '\r' ∉ s ∧ s.getLast? ≠ some '\n'

instance (s : List Char) : Decidable (qaRoundTripSafe s) := by
  unfold qaRoundTripSafe
  infer_instance

theorem natToCharsCore_forall (P : Char → Prop) (hP : ∀ d, d < 10 → P (hexDigitOf d)) :
    ∀ fuel n acc, (∀ c ∈ acc, P c) → ∀ c ∈ natToCharsCore fuel n acc, P c := by
  intro fuel
  induction fuel with
  | zero =>
    intro n acc hacc c hc
    exact hacc c (by simpa [natToCharsCore] using hc)
  | succ f ih =>
    intro n acc hacc c hc
    rw [natToCharsCore] at hc
    by_cases hn : n < 10
    · rw [if_pos hn] at hc
      rcases List.mem_cons.mp hc with hx1 | hx2
      · rw [hx1]
        exact hP _ (Nat.mod_lt _ (by omega))
      · exact hacc c hx2
    · rw [if_neg hn] at hc
      refine ih (n / 10) _ ?_ c hc
      intro x hx
      rcases List.mem_cons.mp hx with hx1 | hx2
      · rw [hx1]
        exact hP _ (Nat.mod_lt _ (by omega))
      · exact hacc x hx2

theorem natToChars_forall (P : Char → Prop) (hP : ∀ d, d < 10 → P (hexDigitOf d))
    (n : Nat) : ∀ c ∈ natToChars n, P c := by
  intro c hc
  exact natToCharsCore_forall P hP (n + 1) n [] (by simp) c hc

theorem turnHeader_char_facts (i : Nat) :
    ∀ c ∈ turnHeader i, c ≠ '\n' ∧ c ≠ '\r' := by
  intro c hc
  rw [turnHeader] at hc
  rcases List.mem_append.mp hc with h1 | h2
  · rcases List.mem_append.mp h1 with h3 | h4
    · fin_cases h3 <;> exact ⟨by decide, by decide⟩
    · exact natToChars_forall (fun c => c ≠ '\n' ∧ c ≠ '\r') (by decide) (i + 1) c h4
  · have : c = ']' := by simpa using h2
    rw [this]
    exact ⟨by decide, by decide⟩

theorem isPre_append_self (p x : List Char) : isPre p (p ++ x) = true := by
  induction p with
  | nil => rfl
  | cons c ps ih => simp [isPre, ih]

theorem isTurnLine_turnHeader (i : Nat) : isTurnLine (turnHeader i) = true := by
  rw [isTurnLine, turnHeader]
  have h1 : isPre ['[', 'T', 'u', 'r', 'n', ' ']
      (['[', 'T', 'u', 'r', 'n', ' '] ++ (natToChars (i + 1) ++ [']'])) = true := by
    exact isPre_append_self _ _
  have h2 : ((['[', 'T', 'u', 'r', 'n', ' '] ++ natToChars (i + 1)) ++ [']']).getLast? =
      some ']' := List.getLast?_concat _
  rw [List.append_assoc] at h2
  rw [List.append_assoc, h1, h2]
  rfl

theorem no_newline_turnHeader (i : Nat) : '\n' ∉ turnHeader i := by
  intro h
  exact (turnHeader_char_facts i '\n' h).1 rfl

theorem no_cr_turnHeader (i : Nat) : '\r' ∉ turnHeader i := by
  intro h
  exact (turnHeader_char_facts i '\r' h).2 rfl

theorem parseQaLoop_turn (st : QaSection) (qls als : List (List Char))
    (acc : List (List Char × List Char)) (l : List Char) (rest : List (List Char))
    (hl : isTurnLine l = true) :
    parseQaLoop st qls als acc (l :: rest) =
      parseQaLoop .awaiting [] [] (qaFlush qls als acc) rest := by
  simp [parseQaLoop, hl]

theorem parseQaLoop_qLabel (st : QaSection) (qls als : List (List Char))
    (acc : List (List Char × List Char)) (l : List Char) (rest : List (List Char))
    (hl : isTurnLine l = false) (ht : jsTrim l = qLabel) :
    parseQaLoop st qls als acc (l :: rest) =
      parseQaLoop .question qls als acc rest := by
  simp [parseQaLoop, hl, ht]

theorem parseQaLoop_aLabel (st : QaSection) (qls als : List (List Char))
    (acc : List (List Char × List Char)) (l : List Char) (rest : List (List Char))
    (hl : isTurnLine l = false) (_hq : jsTrim l ≠ qLabel) (ht : jsTrim l = aLabel) :
    parseQaLoop st qls als acc (l :: rest) =
      parseQaLoop .answer qls als acc rest := by
  simp [parseQaLoop, hl, ht]
  exact fun h => absurd h (by decide)

theorem parseQaLoop_accum_question (ls : List (List Char))
    (hls : ∀ l ∈ ls, ordinaryLine l) :
    ∀ qls als acc rest, parseQaLoop .question qls als acc (ls ++ rest) =
      parseQaLoop .question (qls ++ ls) als acc rest := by
  induction ls with
  | nil => intro qls als acc rest; simp
  | cons l ls2 ih =>
    intro qls als acc rest
    obtain ⟨h1, h2, h3⟩ := hls l (List.mem_cons_self l ls2)
    rw [List.cons_append]
    have step : parseQaLoop .question qls als acc (l :: (ls2 ++ rest)) =
        parseQaLoop .question (qls ++ [l]) als acc (ls2 ++ rest) := by
      simp [parseQaLoop, h1, h2, h3]
    rw [step, ih (fun l hl => hls l (List.mem_cons_of_mem _ hl)), List.append_assoc]
    rfl

theorem parseQaLoop_accum_answer (ls : List (List Char))
    (hls : ∀ l ∈ ls, ordinaryLine l) :
    ∀ qls als acc rest, parseQaLoop .answer qls als acc (ls ++ rest) =
      parseQaLoop .answer qls (als ++ ls) acc rest := by
  induction ls with
  | nil => intro qls als acc rest; simp
  | cons l ls2 ih =>
    intro qls als acc rest
    obtain ⟨h1, h2, h3⟩ := hls l (List.mem_cons_self l ls2)
    rw [List.cons_append]
    have step : parseQaLoop .answer qls als acc (l :: (ls2 ++ rest)) =
        parseQaLoop .answer qls (als ++ [l]) acc (ls2 ++ rest) := by
      simp [parseQaLoop, h1, h2, h3]
    rw [step, ih (fun l hl => hls l (List.mem_cons_of_mem _ hl)), List.append_assoc]
    rfl

/-- The lines one formatted pair contributes, as the parser sees them after
line splitting. -/
def qaBlockLines (i : Nat) (p : List Char × List Char) : List (List Char) :=
  [turnHeader i, qLabel] ++ splitLF p.1 ++ [[]] ++ [aLabel] ++ splitLF p.2 ++ [[]]

/-- Line lists of all formatted pairs from index `i` on. -/
def qaBlocksLines : Nat → List (List Char × List Char) → List (List Char)
  | _, [] => []
  | i, p :: ps => qaBlockLines i p ++ qaBlocksLines (i + 1) ps

theorem parseQaLoop_block (i : Nat) (p : List Char × List Char)
    (hq : noDelimLines p.1) (ha : noDelimLines p.2) (st : QaSection)
    (qls als : List (List Char)) (acc : List (List Char × List Char))
    (rest : List (List Char)) :
    parseQaLoop st qls als acc (qaBlockLines i p ++ rest) =
      parseQaLoop .answer (splitLF p.1 ++ [[]]) (splitLF p.2 ++ [[]])
        (qaFlush qls als acc) rest := by
  have hq1 : ∀ l ∈ splitLF p.1 ++ [[]], ordinaryLine l := by
    intro l hl
    rcases List.mem_append.mp hl with h | h
    · exact hq l h
    · have : l = [] := by simpa using h
      rw [this]; decide
  have ha1 : ∀ l ∈ splitLF p.2 ++ [[]], ordinaryLine l := by
    intro l hl
    rcases List.mem_append.mp hl with h | h
    · exact ha l h
    · have : l = [] := by simpa using h
      rw [this]; decide
  rw [qaBlockLines]
  rw [show ([turnHeader i, qLabel] ++ splitLF p.1 ++ [[]] ++ [aLabel] ++ splitLF p.2 ++ [[]])
        ++ rest =
      turnHeader i :: (qLabel :: ((splitLF p.1 ++ [[]]) ++
        (aLabel :: ((splitLF p.2 ++ [[]]) ++ rest)))) by simp]
  rw [parseQaLoop_turn _ _ _ _ _ _ (isTurnLine_turnHeader i)]
  rw [parseQaLoop_qLabel _ _ _ _ _ _ (by decide) (by decide)]
  rw [parseQaLoop_accum_question _ hq1]
  rw [parseQaLoop_aLabel _ _ _ _ _ _ (by decide) (by decide) (by decide)]
  rw [parseQaLoop_accum_answer _ ha1]
  simp

theorem joinNL_blanks (A : List (List Char)) (hA : A ≠ []) :
    joinNL (A ++ [[]]) = joinNL A ++ ['\n'] := by
  rw [joinNL_append A [[]] hA (by simp)]
  rfl

theorem stripTrailNL_join_blank (q : List Char) :
    stripTrailNL (joinNL (splitLF q ++ [[]])) = stripTrailNL q := by
  rw [joinNL_blanks _ (splitLF_ne_nil q), joinNL_splitLF, stripTrailNL_append_newline]

theorem stripTrailNL_join_blank2 (q : List Char) :
    stripTrailNL (joinNL ((splitLF q ++ [[]]) ++ [[]])) = stripTrailNL q := by
  rw [joinNL_blanks _ (by simp), stripTrailNL_append_newline, stripTrailNL_join_blank]

theorem qaFlush_block (q a : List Char) (als : List (List Char))
    (acc : List (List Char × List Char))
    (hqa : q.getLast? ≠ some '\n') (haa : a.getLast? ≠ some '\n')
    (hals : stripTrailNL (joinNL als) = stripTrailNL a) :
    qaFlush (splitLF q ++ [[]]) als acc = acc ++ [(q, a)] := by
  rw [qaFlush, if_neg (by simp), stripTrailNL_join_blank, hals,
    stripTrailNL_of_getLast q hqa, stripTrailNL_of_getLast a haa]

theorem parseQaLoop_blocks (ps : List (List Char × List Char))
    (hps : ∀ p ∈ ps, qaRoundTripSafe p.1 ∧ qaRoundTripSafe p.2) (hne : ps ≠ []) :
    ∀ i st qls als acc,
      parseQaLoop st qls als acc (qaBlocksLines i ps ++ [[]]) =
        qaFlush qls als acc ++ ps := by
  induction ps with
  | nil => exact absurd rfl hne
  | cons p ps2 ih =>
    intro i st qls als acc
    obtain ⟨⟨hq1, _, hq3⟩, ⟨ha1, _, ha3⟩⟩ := hps p (List.mem_cons_self p ps2)
    rw [qaBlocksLines, List.append_assoc,
      parseQaLoop_block i p hq1 ha1 st qls als acc _]
    rcases hps2 : ps2 with _ | ⟨p2, ps3⟩
    · rw [show qaBlocksLines (i + 1) [] ++ [([] : List Char)] = [[]] ++ [] by rfl,
        parseQaLoop_accum_answer [[]] (by intro l hl; simp at hl; rw [hl]; decide)]
      show qaFlush (splitLF p.1 ++ [[]]) ((splitLF p.2 ++ [[]]) ++ [[]]) (qaFlush qls als acc) =
        qaFlush qls als acc ++ [p]
      exact qaFlush_block p.1 p.2 _ _ hq3 ha3 (stripTrailNL_join_blank2 p.2)
    · rw [← hps2]
      have hps2ne : ps2 ≠ [] := by rw [hps2]; simp
      rw [ih (fun x hx => hps x (List.mem_cons_of_mem p hx)) hps2ne (i + 1) .answer _ _ _]
      rw [qaFlush_block p.1 p.2 _ _ hq3 ha3 (stripTrailNL_join_blank p.2)]
      simp

theorem splitLF_joinNL_qaLines (ps : List (List Char × List Char)) (hne : ps ≠ []) :
    ∀ i, splitLF (joinNL (qaLinesAux i ps)) = qaBlocksLines i ps := by
  induction ps with
  | nil => exact absurd rfl hne
  | cons p ps2 ih =>
    intro i
    have hblock : splitLF (joinNL (qaTurnLines i p)) = qaBlockLines i p := by
      rw [qaTurnLines]
      rw [show joinNL [turnHeader i, qLabel, p.1, [], aLabel, p.2, []] =
          turnHeader i ++ '\n' :: (qLabel ++ '\n' :: (p.1 ++ '\n' :: ([] ++ '\n' ::
            (aLabel ++ '\n' :: (p.2 ++ '\n' :: []))))) by simp [joinNL]]
      rw [splitLF_append_newline, splitLF_append_newline, splitLF_append_newline,
        splitLF_append_newline, splitLF_append_newline, splitLF_append_newline]
      rw [splitLF_single _ (no_newline_turnHeader i), splitLF_single qLabel (by decide),
        splitLF_single aLabel (by decide)]
      simp [qaBlockLines, splitLF]
    rcases hps2 : ps2 with _ | ⟨p2, ps3⟩
    · rw [qaLinesAux, qaBlocksLines]
      simp only [qaLinesAux, qaBlocksLines, List.append_nil]
      exact hblock
    · rw [← hps2]
      have hps2ne : ps2 ≠ [] := by rw [hps2]; simp
      have haux : qaLinesAux (i + 1) ps2 ≠ [] := by
        rw [hps2, qaLinesAux]
        simp [qaTurnLines]
      rw [qaLinesAux, qaBlocksLines,
        joinNL_append _ _ (by simp [qaTurnLines]) haux,
        splitLF_append_newline, hblock, ih hps2ne (i + 1)]

theorem mem_joinNL (c : Char) (L : List (List Char)) (hc : c ∈ joinNL L) :
    c = '\n' ∨ ∃ l ∈ L, c ∈ l := by
  induction L with
  | nil => simp [joinNL] at hc
  | cons l ls ih =>
    rcases ls with _ | ⟨l2, ls2⟩
    · exact Or.inr ⟨l, by simp, hc⟩
    · rw [joinNL_cons_of_ne l _ (by simp)] at hc
      rcases List.mem_append.mp hc with h | h
      · exact Or.inr ⟨l, by simp, h⟩
      · rcases List.mem_cons.mp h with h2 | h3
        · exact Or.inl h2
        · rcases ih h3 with h4 | ⟨l4, hl4, hc4⟩
          · exact Or.inl h4
          · exact Or.inr ⟨l4, List.mem_cons_of_mem _ hl4, hc4⟩

theorem no_cr_qaLines (ps : List (List Char × List Char))
    (hps : ∀ p ∈ ps, '\r' ∉ p.1 ∧ '\r' ∉ p.2) :
    ∀ i, ∀ l ∈ qaLinesAux i ps, '\r' ∉ l := by
  induction ps with
  | nil => intro i l hl; simp [qaLinesAux] at hl
  | cons p ps2 ih =>
    intro i l hl
    rw [qaLinesAux] at hl
    rcases List.mem_append.mp hl with h | h
    · rw [qaTurnLines] at h
      obtain ⟨h1, h2⟩ := hps p (List.mem_cons_self p ps2)
      fin_cases h
      · exact no_cr_turnHeader i
      · decide
      · exact h1
      · simp
      · decide
      · exact h2
      · simp
    · exact ih (fun x hx => hps x (List.mem_cons_of_mem p hx)) (i + 1) l h

theorem no_cr_formatQaTxt (ps : List (List Char × List Char))
    (hps : ∀ p ∈ ps, '\r' ∉ p.1 ∧ '\r' ∉ p.2) : '\r' ∉ formatQaTxt ps := by
  intro hmem
  rw [formatQaTxt] at hmem
  rcases List.mem_append.mp hmem with h | h
  · rcases mem_joinNL _ _ h with h1 | ⟨l, hl, hc⟩
    · exact absurd h1 (by decide)
    · exact no_cr_qaLines ps hps 0 l hl hc
  · simp at h

/-- C1 counterexample: the round trip is not the identity on every pair
sequence free of turn-delimiter-shaped lines — a question with a trailing
line feed (which contains no delimiter-shaped line) comes back with the
trailing line feed stripped. -/
theorem parse_format_not_inverse :
    noDelimLines ['a', '\n'] ∧ noDelimLines ['b'] ∧
      parseQaText (formatQaTxt [(['a', '\n'], ['b'])]) = [(['a'], ['b'])] ∧
      parseQaText (formatQaTxt [(['a', '\n'], ['b'])]) ≠ [(['a', '\n'], ['b'])] := by
  refine ⟨by decide, by decide, by decide, by decide⟩

/-- C1 (amended): for any non-empty sequence of (question, answer) pairs in
which no question or answer contains a turn-delimiter-shaped line (a line
starting with `[Turn ` and ending with `]`, or a line trimming to exactly
`질문:` or `답변:`), contains a carriage return, or ends with a line feed,
parsing the text produced by the qa-text formatter yields exactly the
original sequence of pairs. -/
theorem parse_format_roundtrip (pairs : List (List Char × List Char))
    (hne : pairs ≠ [])
    (hsafe : ∀ p ∈ pairs, qaRoundTripSafe p.1 ∧ qaRoundTripSafe p.2) :
    parseQaText (formatQaTxt pairs) = pairs := by
  rw [parseQaText]
  rw [splitRN_eq_splitLF _ (no_cr_formatQaTxt pairs
    (fun p hp => ⟨(hsafe p hp).1.2.1, (hsafe p hp).2.2.1⟩))]
  rw [formatQaTxt, show (['\n'] : List Char) = '\n' :: [] from rfl,
    splitLF_append_newline, splitLF_joinNL_qaLines pairs hne 0]
  rw [show splitLF [] = [[]] from rfl]
  rw [parseQaLoop_blocks pairs hsafe hne 0 .awaiting [] [] []]
  rfl

/-- Witness for the amended C1 at a concrete two-turn transcript. -/
theorem parse_format_roundtrip_witness :
    (([(['h', 'i'], ['y', 'o']), (['a'], ['b', '\n', 'c'])] :
        List (List Char × List Char)) ≠ [] ∧
      ∀ p ∈ ([(['h', 'i'], ['y', 'o']), (['a'], ['b', '\n', 'c'])] :
          List (List Char × List Char)), qaRoundTripSafe p.1 ∧ qaRoundTripSafe p.2) ∧
    parseQaText (formatQaTxt [(['h', 'i'], ['y', 'o']), (['a'], ['b', '\n', 'c'])]) =
      [(['h', 'i'], ['y', 'o']), (['a'], ['b', '\n', 'c'])] :=
  ⟨⟨by decide, by decide⟩,
    parse_format_roundtrip [(['h', 'i'], ['y', 'o']), (['a'], ['b', '\n', 'c'])]
      (by decide) (by decide)⟩

/-- `text.replace(/ /g, " ")` from `normalizeText`
(mhtml2md-grok.js line 75). -/
def nbspToSpace (s : List Char) : List Char :=
  s.map (fun c => if c = ' ' then ' ' else c)

/-- `text.replace(/\s+/g, " ")`: collapse every whitespace run to one space.
The flag records whether the previous character was inside a run. -/
def collapseWsGo : Bool → List Char → List Char
  | _, [] => []
  | prevWs, c :: rest =>
      if isJsWhitespace c then
        if prevWs then collapseWsGo true rest
        else ' ' :: collapseWsGo true rest
      else c :: collapseWsGo false rest

/-- `normalizeText` (mhtml2md-grok.js lines 74-76). -/
def normalizeText (s : List Char) : List Char :=
  jsTrim (collapseWsGo false (nbspToSpace s))

/-- `.replace(/\|/g, "\\|")` (mhtml2md-grok.js line 87). -/
def escapePipes : List Char → List Char
  | [] => []
  | '|' :: rest => '\\' :: '|' :: escapePipes rest
  | c :: rest => c :: escapePipes rest

/-- The text one table cell contributes:
`normalizeText($(td).text()).replace(/\|/g, "\\|")`. -/
def renderCell (s : List Char) : List Char := escapePipes (normalizeText s)

/-- Row collection of `tableToMarkdown` (mhtml2md-grok.js lines 79-92): one
row per `tr`, each cell rendered, rows with no cells skipped. -/
def tableRows (trs : List (List (List Char))) : List (List (List Char)) :=
  (trs.map (fun r => r.map renderCell)).filter (fun r => r ≠ [])

/-- `Math.max(...rows.map(r => r.length))` over a row list, as a fold. -/
def maxW (rows : List (List (List Char))) : Nat :=
  rows.foldl (fun m r => max m r.length) 0

/-- `[...r, ...new Array(width - r.length).fill("")]`
(mhtml2md-grok.js line 98). -/
def padRow (w : Nat) (r : List (List Char)) : List (List Char) :=
  r ++ List.replicate (w - r.length) []

/-- `cells.join(" | ")`. -/
def joinSepBar : List (List Char) → List Char
  | [] => []
  | [c] => c
  | c :: cs => c ++ ' ' :: '|' :: ' ' :: joinSepBar cs

/-- One rendered table line: ``| cell | cell |``. -/
def mkRow (cs : List (List Char)) : List Char :=
  '|' :: ' ' :: (joinSepBar cs ++ [' ', '|'])

/-- The `---` separator cell. -/
def sepCell : List Char := ['-', '-', '-']

/-- `tableToMarkdown` (mhtml2md-grok.js lines 78-106; the table branch of
`glmNodeToMd`, converter-suite.js lines 632-657, builds the same shape): the
input is the per-`tr` list of raw cell texts. -/
def tableToMarkdown (trs : List (List (List Char))) : List Char :=
  match tableRows trs with
  | [] => []
  | r0 :: rest =>
      let width := maxW (r0 :: rest)
      joinNL (mkRow (padRow width r0) ::
          mkRow (List.replicate width sepCell) ::
          (rest.map (padRow width)).map mkRow) ++ ['\n', '\n']

theorem no_newline_collapseWs (b : Bool) (s : List Char) :
    '\n' ∉ collapseWsGo b s := by
  induction s generalizing b with
  | nil => simp [collapseWsGo]
  | cons c rest ih =>
    intro hmem
    rw [collapseWsGo] at hmem
    by_cases hws : isJsWhitespace c
    · rw [if_pos hws] at hmem
      rcases b with _ | _
      · rw [if_neg (by simp)] at hmem
        rcases List.mem_cons.mp hmem with h1 | h2
        · exact absurd h1 (by decide)
        · exact ih true h2
      · rw [if_pos (by simp)] at hmem
        exact ih true hmem
    · rw [if_neg hws] at hmem
      rcases List.mem_cons.mp hmem with h1 | h2
      · rw [← h1] at hws
        exact hws (by decide)
      · exact ih false h2

theorem mem_of_mem_jsTrim (c : Char) (s : List Char) (hc : c ∈ jsTrim s) : c ∈ s := by
  rw [jsTrim] at hc
  rw [List.mem_reverse] at hc
  have h1 := (List.dropWhile_sublist isJsWhitespace).subset hc
  rw [List.mem_reverse] at h1
  exact (List.dropWhile_sublist isJsWhitespace).subset h1

theorem no_newline_escapePipes (s : List Char) (hs : '\n' ∉ s) :
    '\n' ∉ escapePipes s := by
  induction s with
  | nil => simp [escapePipes]
  | cons c rest ih =>
    intro hmem
    have hrest : '\n' ∉ rest := fun h => hs (List.mem_cons_of_mem c h)
    by_cases hc : c = '|'
    · subst hc
      rw [escapePipes] at hmem
      rcases List.mem_cons.mp hmem with h1 | h2
      · exact absurd h1 (by decide)
      · rcases List.mem_cons.mp h2 with h3 | h4
        · exact absurd h3 (by decide)
        · exact ih hrest h4
    · rw [show escapePipes (c :: rest) = c :: escapePipes rest by
          rcases rest with _ | ⟨d, r2⟩ <;> simp [escapePipes, hc]] at hmem
      rcases List.mem_cons.mp hmem with h1 | h2
      · exact hs (by rw [h1]; exact List.mem_cons_self c rest)
      · exact ih hrest h2

theorem no_newline_renderCell (s : List Char) : '\n' ∉ renderCell s := by
  refine no_newline_escapePipes _ (fun h => ?_)
  exact no_newline_collapseWs false (nbspToSpace s) (mem_of_mem_jsTrim _ _ h)

theorem no_newline_joinSepBar (cs : List (List Char))
    (hcs : ∀ c ∈ cs, '\n' ∉ c) : '\n' ∉ joinSepBar cs := by
  induction cs with
  | nil => simp [joinSepBar]
  | cons c cs2 ih =>
    rcases cs2 with _ | ⟨c2, cs3⟩
    · exact hcs c (by simp)
    · intro hmem
      rw [show joinSepBar (c :: c2 :: cs3) = c ++ ' ' :: '|' :: ' ' :: joinSepBar (c2 :: cs3)
          from rfl] at hmem
      rcases List.mem_append.mp hmem with h1 | h2
      · exact hcs c (by simp) h1
      · rcases List.mem_cons.mp h2 with h3 | h4
        · exact absurd h3 (by decide)
        · rcases List.mem_cons.mp h4 with h5 | h6
          · exact absurd h5 (by decide)
          · rcases List.mem_cons.mp h6 with h7 | h8
            · exact absurd h7 (by decide)
            · exact ih (fun x hx => hcs x (List.mem_cons_of_mem c hx)) h8

theorem no_newline_mkRow (cs : List (List Char)) (hcs : ∀ c ∈ cs, '\n' ∉ c) :
    '\n' ∉ mkRow cs := by
  intro hmem
  rw [mkRow] at hmem
  rcases List.mem_cons.mp hmem with h1 | h2
  · exact absurd h1 (by decide)
  · rcases List.mem_cons.mp h2 with h3 | h4
    · exact absurd h3 (by decide)
    · rcases List.mem_append.mp h4 with h5 | h6
      · exact no_newline_joinSepBar cs hcs h5
      · rcases List.mem_cons.mp h6 with h7 | h8
        · exact absurd h7 (by decide)
        · simp at h8

theorem splitLF_joinNL_of_no_newline (lines : List (List Char)) (hne : lines ≠ [])
    (hnl : ∀ l ∈ lines, '\n' ∉ l) : splitLF (joinNL lines) = lines := by
  induction lines with
  | nil => exact absurd rfl hne
  | cons l ls ih =>
    rcases ls with _ | ⟨l2, ls2⟩
    · exact splitLF_single l (hnl l (by simp))
    · rw [joinNL_cons_of_ne l (l2 :: ls2) (by simp), splitLF_append_newline,
        splitLF_single l (hnl l (by simp)),
        ih (by simp) (fun x hx => hnl x (List.mem_cons_of_mem l hx))]
      rfl

theorem le_maxW_aux (rows : List (List (List Char))) :
    ∀ init, init ≤ rows.foldl (fun m r => max m r.length) init ∧
      ∀ r ∈ rows, r.length ≤ rows.foldl (fun m r => max m r.length) init := by
  induction rows with
  | nil => intro init; exact ⟨Nat.le_refl _, by simp⟩
  | cons r0 rest ih =>
    intro init
    constructor
    · calc init ≤ max init r0.length := Nat.le_max_left _ _
        _ ≤ _ := (ih (max init r0.length)).1
    · intro r hr
      rcases List.mem_cons.mp hr with h1 | h2
      · subst h1
        calc r.length ≤ max init r.length := Nat.le_max_right _ _
          _ ≤ _ := (ih (max init r.length)).1
      · exact (ih (max init r0.length)).2 r h2

theorem length_padRow (w : Nat) (r : List (List Char)) (hr : r.length ≤ w) :
    (padRow w r).length = w := by
  rw [padRow, List.length_append, List.length_replicate]
  omega

/-- C7: table rendering shape.  For any non-empty table whose rows each
contain at least one cell, the rendered GitHub-flavored Markdown table ends
in a blank line and otherwise consists of exactly (number of rows) + 1 lines
— header, `---` separator, data rows — and every line is a `|`-delimited row
with exactly the widest row's number of cells (cells being whitespace-
collapsed, pipe-escaped texts or padding). -/
theorem tableToMarkdown_shape (trs : List (List (List Char))) (h1 : trs ≠ [])
    (h2 : ∀ r ∈ trs, r ≠ []) :
    ∃ lines : List (List Char),
      splitLF (tableToMarkdown trs) = lines ++ [[], []] ∧
      lines.length = trs.length + 1 ∧
      ∀ l ∈ lines, ∃ cs, l = mkRow cs ∧ cs.length = maxW (tableRows trs) := by
  have hrows : tableRows trs = trs.map (fun r => r.map renderCell) := by
    rw [tableRows, List.filter_eq_self]
    intro a ha
    rcases List.mem_map.mp ha with ⟨r, hr, hmap⟩
    have : r ≠ [] := h2 r hr
    simpa [← hmap] using this
  rcases hr0 : tableRows trs with _ | ⟨r0, rest⟩
  · rw [hrows] at hr0
    rcases trs with _ | ⟨t, ts⟩
    · exact absurd rfl h1
    · simp at hr0
  · have hlen : (r0 :: rest).length = trs.length := by
      rw [← hr0, hrows, List.length_map]
    have hbound : ∀ r ∈ r0 :: rest, r.length ≤ maxW (r0 :: rest) :=
      (le_maxW_aux (r0 :: rest) 0).2
    refine ⟨mkRow (padRow (maxW (r0 :: rest)) r0) ::
        mkRow (List.replicate (maxW (r0 :: rest)) sepCell) ::
        (rest.map (padRow (maxW (r0 :: rest)))).map mkRow, ?_, ?_, ?_⟩
    · have hunfold : tableToMarkdown trs =
          (joinNL (mkRow (padRow (maxW (r0 :: rest)) r0) ::
            mkRow (List.replicate (maxW (r0 :: rest)) sepCell) ::
            (rest.map (padRow (maxW (r0 :: rest)))).map mkRow) ++
            '\n' :: []) ++ '\n' :: [] := by
        rw [tableToMarkdown, hr0]
        simp
      rw [hunfold, splitLF_append_newline, splitLF_append_newline]
      have hnl : ∀ l ∈ mkRow (padRow (maxW (r0 :: rest)) r0) ::
          mkRow (List.replicate (maxW (r0 :: rest)) sepCell) ::
          (rest.map (padRow (maxW (r0 :: rest)))).map mkRow, '\n' ∉ l := by
        intro l hl
        have hcells : ∀ cs : List (List Char),
            (∀ c ∈ cs, '\n' ∉ c) → '\n' ∉ mkRow cs := no_newline_mkRow
        have hcellOk : ∀ r, r ∈ r0 :: rest → ∀ c ∈ padRow (maxW (r0 :: rest)) r, '\n' ∉ c := by
          intro r hr c hc
          rcases List.mem_append.mp hc with hx | hx
          · have hr2 : r ∈ tableRows trs := by rw [hr0]; exact hr
            rw [hrows] at hr2
            rcases List.mem_map.mp hr2 with ⟨tr, _, htr⟩
            rw [← htr] at hx
            rcases List.mem_map.mp hx with ⟨cell, _, hcell⟩
            rw [← hcell]
            exact no_newline_renderCell cell
          · have : c = [] := by
              have := List.eq_of_mem_replicate hx
              exact this
            rw [this]
            simp
        rcases List.mem_cons.mp hl with hx | hx
        · rw [hx]
          exact hcells _ (hcellOk r0 (by simp))
        · rcases List.mem_cons.mp hx with hy | hy
          · rw [hy]
            refine hcells _ ?_
            intro c hc
            have : c = sepCell := List.eq_of_mem_replicate hc
            rw [this]
            decide
          · rcases List.mem_map.mp hy with ⟨pr, hpr, hmk⟩
            rcases List.mem_map.mp hpr with ⟨r, hr, hpad⟩
            rw [← hmk, ← hpad]
            exact hcells _ (hcellOk r (List.mem_cons_of_mem r0 hr))
      rw [splitLF_joinNL_of_no_newline _ (by simp) hnl]
      simp [splitLF]
    · simp only [List.length_cons] at hlen
      simp only [List.length_cons, List.length_map]
      omega
    · intro l hl
      rcases List.mem_cons.mp hl with hx | hx
      · exact ⟨padRow (maxW (r0 :: rest)) r0, hx,
          length_padRow _ _ (hbound r0 (by simp))⟩
      · rcases List.mem_cons.mp hx with hy | hy
        · exact ⟨List.replicate (maxW (r0 :: rest)) sepCell, hy, List.length_replicate _ _⟩
        · rcases List.mem_map.mp hy with ⟨pr, hpr, hmk⟩
          rcases List.mem_map.mp hpr with ⟨r, hr, hpad⟩
          exact ⟨pr, hmk.symm, by
            rw [← hpad]
            exact length_padRow _ _ (hbound r (List.mem_cons_of_mem r0 hr))⟩

/-- Witness for C7 at a concrete jagged two-row table. -/
theorem tableToMarkdown_shape_witness :
    (([[['a'], ['b', '|', 'c']], [['d']]] : List (List (List Char))) ≠ [] ∧
      ∀ r ∈ ([[['a'], ['b', '|', 'c']], [['d']]] : List (List (List Char))), r ≠ []) ∧
    ∃ lines : List (List Char),
      splitLF (tableToMarkdown [[['a'], ['b', '|', 'c']], [['d']]]) = lines ++ [[], []] ∧
      lines.length = 2 + 1 ∧
      ∀ l ∈ lines, ∃ cs, l = mkRow cs ∧
        cs.length = maxW (tableRows [[['a'], ['b', '|', 'c']], [['d']]]) :=
  ⟨⟨by decide, by decide⟩,
    tableToMarkdown_shape [[['a'], ['b', '|', 'c']], [['d']]] (by decide) (by decide)⟩

/-- The characters `cid:`. -/
def cidPrefix : List Char := ['c', 'i', 'd', ':']

/-- `.replace(/^<|>$/g, "")`: strip one leading `<` and one trailing `>`. -/
def stripAngles (s : List Char) : List Char :=
  let s1 := match s with
    | '<' :: rest => rest
    | _ => s
  match s1.getLast? with
  | some '>' => s1.dropLast
  | _ => s1

/-- `normalizeCid` (converter-suite.js lines 82-85). -/
def normalizeCid (value : List Char) : List Char :=
  let cid := if isPre cidPrefix value then value.drop 4 else value
  stripAngles (jsTrim cid)

/-- A MIME part as consumed by the content-id resolver: the two headers the
resolver reads, the bare content type and the decoded bytes. -/
structure PartC where
  contentId : List Char
  contentLocation : List Char
  contentType : List Char
  bytes : List Nat
deriving DecidableEq

/-- JavaScript `Map.set`: replace an existing binding, else append. -/
def mapSet (m : List (List Char × PartC)) (k : List Char) (v : PartC) :
    List (List Char × PartC) :=
  if m.any (fun e => e.1 = k) then m.map (fun e => if e.1 = k then (k, v) else e)
  else m ++ [(k, v)]

/-- JavaScript `Map.get` over the association list built by `mapSet`. -/
def mapGet (m : List (List Char × PartC)) (k : List Char) : Option PartC :=
  (m.find? (fun e => e.1 = k)).map (fun e => e.2)

/-- `buildCidMap` (converter-suite.js lines 256-269): register each part
under its normalized content-id, and under its content-location when that
starts with `cid:`. -/
def buildCidMap (parts : List PartC) : List (List Char × PartC) :=
  parts.foldl (fun m part =>
    let cId := jsTrim part.contentId
    let cLoc := jsTrim part.contentLocation
    let m1 := if cId ≠ [] then mapSet m (normalizeCid cId) part else m
    if isPre cidPrefix cLoc then mapSet m1 (normalizeCid cLoc) part else m1) []

/-- The base64 alphabet. -/
def b64Alphabet : List Char :=
  ['A', 'B', 'C', 'D', 'E', 'F', 'G', 'H', 'I', 'J', 'K', 'L', 'M',
   'N', 'O', 'P', 'Q', 'R', 'S', 'T', 'U', 'V', 'W', 'X', 'Y', 'Z',
   'a', 'b', 'c', 'd', 'e', 'f', 'g', 'h', 'i', 'j', 'k', 'l', 'm',
   'n', 'o', 'p', 'q', 'r', 's', 't', 'u', 'v', 'w', 'x', 'y', 'z',
   '0', '1', '2', '3', '4', '5', '6', '7', '8', '9', '+', '/']

/-- Base64 digit for a value below 64. -/
def b64Char (n : Nat) : Char := b64Alphabet.getD n 'A'

/-- `bytesToBase64` (converter-suite.js lines 154-161, a `btoa` of the
byte-per-character string): standard base64 with `=` padding. -/
def bytesToBase64 : List Nat → List Char
  | [] => []
  | [b1] => [b64Char (b1 / 4), b64Char (b1 % 4 * 16), '=', '=']
  | [b1, b2] => [b64Char (b1 / 4), b64Char (b1 % 4 * 16 + b2 / 16), b64Char (b2 % 16 * 4), '=']
  | b1 :: b2 :: b3 :: rest =>
      b64Char (b1 / 4) :: b64Char (b1 % 4 * 16 + b2 / 16) ::
        b64Char (b2 % 16 * 4 + b3 / 64) :: b64Char (b3 % 64) :: bytesToBase64 rest

/-- The string `data:`. -/
def dataColon : List Char := ['d', 'a', 't', 'a', ':']

/-- The string `;base64,`. -/
def base64Comma : List Char := [';', 'b', 'a', 's', 'e', '6', '4', ',']

/-- The default MIME type `application/octet-stream`. -/
def octetStream : List Char :=
  ['a', 'p', 'p', 'l', 'i', 'c', 'a', 't', 'i', 'o', 'n', '/',
   'o', 'c', 't', 'e', 't', '-', 's', 't', 'r', 'e', 'a', 'm']

/-- `toDataUri` (converter-suite.js lines 275-277). -/
def toDataUri (p : PartC) : List Char :=
  dataColon ++ (if p.contentType = [] then octetStream else p.contentType) ++
    base64Comma ++ bytesToBase64 p.bytes

/-- The body of the attribute loop of `convertMhtmlToHtml` (converter-suite.js
lines 340-348): a `cid:` value resolving in the map becomes the part's data
URI, anything else is left alone. -/
def rewriteAttrValue (cidMap : List (List Char × PartC)) (v : List Char) : List Char :=
  if isPre cidPrefix v then
    match mapGet cidMap (normalizeCid v) with
    | some part => toDataUri part
    | none => v
  else v

/-- The three attribute names rewritten (converter-suite.js line 338). -/
def cidAttrNames : List (List Char) :=
  [['s', 'r', 'c'], ['h', 'r', 'e', 'f'], ['p', 'o', 's', 't', 'e', 'r']]

/-- The attribute rewriting pass of `convertMhtmlToHtml` (converter-suite.js
lines 338-349) on one element, modelled as its attribute list. -/
def rewriteCidAttrs (cidMap : List (List Char × PartC))
    (attrs : List (List Char × List Char)) : List (List Char × List Char) :=
  attrs.map (fun a => if a.1 ∈ cidAttrNames then (a.1, rewriteAttrValue cidMap a.2) else a)

/-- C6: content-id reference rewriting.  In the HTML-sanitize path, an
element attribute among src, href, poster whose value begins with `cid:` and
whose normalized key resolves in the CID map is replaced by that part's data
URI of the exact form `data:<mime>;base64,<payload>`; an attribute whose key
does not resolve, or a non-listed attribute, is left unchanged. -/
theorem cid_reference_rewriting (cidMap : List (List Char × PartC))
    (attrs : List (List Char × List Char)) (n v : List Char)
    (hmem : (n, v) ∈ attrs) :
    (∀ part, n ∈ cidAttrNames → isPre cidPrefix v = true →
      mapGet cidMap (normalizeCid v) = some part →
      (n, dataColon ++ (if part.contentType = [] then octetStream else part.contentType) ++
        base64Comma ++ bytesToBase64 part.bytes) ∈ rewriteCidAttrs cidMap attrs) ∧
    (n ∈ cidAttrNames → isPre cidPrefix v = true →
      mapGet cidMap (normalizeCid v) = none →
      (n, v) ∈ rewriteCidAttrs cidMap attrs) ∧
    (n ∉ cidAttrNames → (n, v) ∈ rewriteCidAttrs cidMap attrs) := by
  refine ⟨?_, ?_, ?_⟩
  · intro part hn hv hget
    refine List.mem_map.mpr ⟨(n, v), hmem, ?_⟩
    simp only [hn, if_pos]
    rw [rewriteAttrValue, if_pos hv, hget]
    rfl
  · intro hn hv hget
    refine List.mem_map.mpr ⟨(n, v), hmem, ?_⟩
    simp only [hn, if_pos]
    rw [rewriteAttrValue, if_pos hv, hget]
  · intro hn
    refine List.mem_map.mpr ⟨(n, v), hmem, ?_⟩
    simp [hn]

/-- The scenario part: a PNG image registered under content-id `<img1>`. -/
def pngPart : PartC :=
  { contentId := ['<', 'i', 'm', 'g', '1', '>'],
    contentLocation := [],
    contentType := ['i', 'm', 'a', 'g', 'e', '/', 'p', 'n', 'g'],
    bytes := [137, 80, 78, 71, 13, 10, 26, 10] }

/-- Witness for C6: the spec scenario — a `cid:img1` src attribute with a
matching `image/png` part becomes `data:image/png;base64,<payload>` (here the
PNG signature bytes, whose base64 payload is `iVBORw0KGgo=`). -/
theorem cid_reference_rewriting_witness :
    ((['s', 'r', 'c'], ['c', 'i', 'd', ':', 'i', 'm', 'g', '1']) ∈
        ([(['s', 'r', 'c'], ['c', 'i', 'd', ':', 'i', 'm', 'g', '1'])] :
          List (List Char × List Char)) ∧
      ['s', 'r', 'c'] ∈ cidAttrNames ∧
      isPre cidPrefix ['c', 'i', 'd', ':', 'i', 'm', 'g', '1'] = true ∧
      mapGet (buildCidMap [pngPart])
        (normalizeCid ['c', 'i', 'd', ':', 'i', 'm', 'g', '1']) = some pngPart) ∧
    (['s', 'r', 'c'],
        dataColon ++ (if pngPart.contentType = [] then octetStream else pngPart.contentType) ++
          base64Comma ++ bytesToBase64 pngPart.bytes) ∈
      rewriteCidAttrs (buildCidMap [pngPart])
        [(['s', 'r', 'c'], ['c', 'i', 'd', ':', 'i', 'm', 'g', '1'])] :=
  ⟨⟨by decide, by decide, by decide, by decide⟩,
    (cid_reference_rewriting (buildCidMap [pngPart])
        [(['s', 'r', 'c'], ['c', 'i', 'd', ':', 'i', 'm', 'g', '1'])]
        ['s', 'r', 'c'] ['c', 'i', 'd', ':', 'i', 'm', 'g', '1'] (by decide)).1
      pngPart (by decide) (by decide) (by decide)⟩

/-- `text.replace(/\r\n/g, "\n").replace(/\r/g, "\n")` (converter-suite.js
line 691): normalize all line-break styles to `\n`. -/
def normNewlines : List Char → List Char
  | [] => []
  | '\r' :: '\n' :: rest => '\n' :: normNewlines rest
  | '\r' :: rest => '\n' :: normNewlines rest
  | c :: rest => c :: normNewlines rest

/-- `out.replace(/[ \t]+\n/g, "\n")` (converter-suite.js line 692): delete
spaces and tabs that stand immediately before a line feed. -/
def stripTrailWs : List Char → List Char
  | [] => []
  | c :: rest =>
      let r := stripTrailWs rest
      if (c = ' ' ∨ c = '\t') ∧ r.head? = some '\n' then r else c :: r

/-- `out.replace(/\n{3,}/g, "\n\n")`: keep at most two line feeds of every
run.  The counter is the number of line feeds of the current run already
emitted (saturating at 2). -/
def collapseNL3Go : Nat → List Char → List Char
  | _, [] => []
  | count, '\n' :: rest =>
      if count < 2 then '\n' :: collapseNL3Go (count + 1) rest
      else collapseNL3Go count rest
  | _, c :: rest => c :: collapseNL3Go 0 rest

/-- `out.replace(/\n{3,}/g, "\n\n")` (converter-suite.js lines 693 and 716). -/
def collapseNL3 (s : List Char) : List Char := collapseNL3Go 0 s

/-- The characters of `sources`. -/
def sourcesChars : List Char := ['s', 'o', 'u', 'r', 'c', 'e', 's']

/-- The characters of `thought process`. -/
def thoughtChars : List Char :=
  ['t', 'h', 'o', 'u', 'g', 'h', 't', ' ', 'p', 'r', 'o', 'c', 'e', 's', 's']

/-- `/^\d{1,3}$/.test(s)`. -/
def isDigits1to3 (s : List Char) : Bool :=
  decide (1 ≤ s.length) && decide (s.length ≤ 3) &&
    s.all (fun c => '0' ≤ c && c ≤ '9')

/-- Character class `[A-Za-z]`. -/
def isAsciiAlpha (c : Char) : Bool :=
  ('A' ≤ c && c ≤ 'Z') || ('a' ≤ c && c ≤ 'z')

/-- Character class `[A-Za-z0-9-]` of the domain-token regex. -/
def isDomChar (c : Char) : Bool :=
  isAsciiAlpha c || ('0' ≤ c && c ≤ '9') || c = '-'

/-- Word characters for the regex `\b` boundary: `[A-Za-z0-9_]`. -/
def isWordChar (c : Char) : Bool :=
  isAsciiAlpha c || ('0' ≤ c && c ≤ '9') || c = '_'

/-- Split a character list at each `'.'`. -/
def splitDot : List Char → List (List Char)
  | [] => [[]]
  | '.' :: rest => [] :: splitDot rest
  | c :: rest =>
      match splitDot rest with
      | [] => [[c]]
      | l :: ls => (c :: l) :: ls

/-- `/^(?:[A-Za-z0-9-]+\.)+[A-Za-z]{2,}$/.test(s)` (converter-suite.js line
708).  Because `.` belongs to neither character class, the anchored regex
holds exactly when the `.`-separated segments are: at least one non-empty
`[A-Za-z0-9-]+` segment followed by a final all-letter segment of length at
least two. -/
def wholeDomain (s : List Char) : Bool :=
  let segs := splitDot s
  decide (2 ≤ segs.length) &&
    segs.dropLast.all (fun seg => decide (seg ≠ []) && seg.all isDomChar) &&
    (match segs.getLast? with
     | some last => decide (2 ≤ last.length) && last.all isAsciiAlpha
     | none => false)

/-- The per-line pass of `cleanGlmMarkdown` (converter-suite.js lines
696-712): blank lines survive as empty lines, boilerplate phrases, 1-3 digit
lines and whole-line domain-shaped tokens are dropped, anything else is kept
trimmed. -/
def cleanLineFilter (line : List Char) : Option (List Char) :=
  let s := jsTrim line
  if s = [] then some []
  else if s.map Char.toLower = sourcesChars ∨ s.map Char.toLower = thoughtChars then none
  else if isDigits1to3 s then none
  else if wholeDomain s then none
  else some s

/-- The tail `[A-Za-z]{2,}\b(?!\))` of the domain-token regex at the current
position: the maximal letter run must have length at least two, and the
following character (if any) must be neither a word character (`\b`) nor `)`
(the lookahead); a shorter letter run can never satisfy `\b`. -/
def domTail (s : List Char) : Option Nat :=
  let run := s.takeWhile isAsciiAlpha
  if 2 ≤ run.length then
    match (s.drop run.length).head? with
    | none => some run.length
    | some c => if ¬isWordChar c ∧ c ≠ ')' then some run.length else none
  else none

/-- One `[A-Za-z0-9-]+\.` group: the maximal class run must be non-empty and
immediately followed by `.`. -/
def domGroup (s : List Char) : Option Nat :=
  let run := s.takeWhile isDomChar
  if 1 ≤ run.length ∧ (s.drop run.length).head? = some '.' then some (run.length + 1)
  else none

/-- Greedy `(?:[A-Za-z0-9-]+\.)*[A-Za-z]{2,}\b(?!\))`: try one more group
first, fall back to the tail at the current position (regex backtracking on
the group count).  The fuel only bounds recursion depth. -/
def domMore : Nat → List Char → Option Nat
  | 0, _ => none
  | fuel + 1, s =>
      match domGroup s with
      | some g =>
          match domMore fuel (s.drop g) with
          | some n => some (g + n)
          | none => domTail s
      | none => domTail s

/-- Length of the match of the core domain-token pattern
`(?:[A-Za-z0-9-]+\.)+[A-Za-z]{2,}\b(?!\))` at the start of `s`. -/
def domCore (s : List Char) : Option Nat :=
  match domGroup s with
  | some g => (domMore s.length (s.drop g)).map (fun n => g + n)
  | none => none

/-- `\b` at the match start combined with the `(?<!\()` lookbehind: exactly
one side of the boundary is a word character, and the previous character is
not `(`. -/
def domStartOk (prev : Option Char) (c : Char) : Bool :=
  ((match prev with | none => false | some p => isWordChar p) != isWordChar c) &&
    (match prev with | none => true | some p => decide (p ≠ '('))

/-- `out.replace(/(?<!\()\b(?:[A-Za-z0-9-]+\.)+[A-Za-z]{2,}\b(?!\))/g, "")`
(converter-suite.js line 714): left-to-right scan deleting every guarded
domain-shaped token.  `prev` is the character before the current position in
the original string; the fuel starts at the string length and dominates the
number of scan steps. -/
def replaceDomGo : Nat → Option Char → List Char → List Char
  | 0, _, s => s
  | fuel + 1, prev, s =>
      match s with
      | [] => []
      | c :: rest =>
          if domStartOk prev c then
            match domCore (c :: rest) with
            | some n =>
                replaceDomGo fuel (some ((c :: rest).getD (n - 1) 'a')) ((c :: rest).drop n)
            | none => c :: replaceDomGo fuel (some c) rest
          else c :: replaceDomGo fuel (some c) rest

/-- The mid-line domain-token removal pass. -/
def replaceDom (s : List Char) : List Char := replaceDomGo s.length none s

/-- Space or tab. -/
def isSpTab (c : Char) : Bool := c = ' ' || c = '\t'

/-- `out.replace(/[ \t]{2,}/g, " ")`: a run of two or more spaces/tabs
becomes one space, a single space or tab stays as it is.  The flag records
being inside an already-replaced run. -/
def collapseSpGo : Bool → List Char → List Char
  | _, [] => []
  | true, c :: rest =>
      if isSpTab c then collapseSpGo true rest
      else c :: collapseSpGo false rest
  | false, c :: rest =>
      if isSpTab c then
        match rest with
        | d :: _ =>
            if isSpTab d then ' ' :: collapseSpGo true rest
            else c :: collapseSpGo false rest
        | [] => [c]
      else c :: collapseSpGo false rest

/-- `out.replace(/[ \t]{2,}/g, " ")` (converter-suite.js line 715). -/
def collapseSp (s : List Char) : List Char := collapseSpGo false s

/-- `cleanGlmMarkdown` (converter-suite.js lines 690-718; `cleanMarkdown` of
the glm node script is the same function except that it suffixes a final
newline). -/
def cleanGlmMarkdown (text : List Char) : List Char :=
  let out1 := collapseNL3 (stripTrailWs (normNewlines text))
  let kept := (splitLF out1).filterMap cleanLineFilter
  let out2 := joinNL kept
  let out3 := collapseSp (replaceDom out2)
  jsTrim (collapseNL3 out3)

/-- C2 counterexample: `cleanGlmMarkdown` is not idempotent.  On
`thought  process` (two spaces) the first pass keeps the line — it is not the
boilerplate phrase `thought process` — and only then collapses the double
space, producing exactly the boilerplate phrase, which the second pass
drops entirely. -/
theorem cleanGlmMarkdown_not_idempotent :
    cleanGlmMarkdown ['t', 'h', 'o', 'u', 'g', 'h', 't', ' ', ' ',
        'p', 'r', 'o', 'c', 'e', 's', 's'] = thoughtChars ∧
      cleanGlmMarkdown (cleanGlmMarkdown ['t', 'h', 'o', 'u', 'g', 'h', 't', ' ', ' ',
        'p', 'r', 'o', 'c', 'e', 's', 's']) = [] ∧
      cleanGlmMarkdown (cleanGlmMarkdown ['t', 'h', 'o', 'u', 'g', 'h', 't', ' ', ' ',
          'p', 'r', 'o', 'c', 'e', 's', 's']) ≠
        cleanGlmMarkdown ['t', 'h', 'o', 'u', 'g', 'h', 't', ' ', ' ',
          'p', 'r', 'o', 'c', 'e', 's', 's'] := by
  refine ⟨by decide, by decide, by decide⟩

theorem isPre_iff (pat s : List Char) : isPre pat s = true ↔ ∃ v, s = pat ++ v := by
  induction pat generalizing s with
  | nil => simp [isPre]
  | cons p ps ih =>
    rcases s with _ | ⟨c, cs⟩
    · simp [isPre]
    · rw [show isPre (p :: ps) (c :: cs) = (p == c && isPre ps cs) from rfl]
      constructor
      · intro h
        have h1 : p = c := by
          have := (Bool.and_eq_true _ _).mp h
          exact eq_of_beq this.1
        obtain ⟨v, hv⟩ := (ih cs).mp ((Bool.and_eq_true _ _).mp h).2
        exact ⟨v, by rw [hv, h1]; rfl⟩
      · rintro ⟨v, hv⟩
        have h1 : c = p ∧ cs = ps ++ v := by
          constructor
          · exact (List.cons_eq_cons.mp hv).1
          · exact (List.cons_eq_cons.mp hv).2
        rw [Bool.and_eq_true]
        exact ⟨by rw [h1.1]; exact beq_self_eq_true p, (ih cs).mpr ⟨v, h1.2⟩⟩

theorem hasSub_iff (pat s : List Char) :
    hasSub pat s = true ↔ ∃ u v, s = u ++ pat ++ v := by
  induction s with
  | nil =>
    rw [show hasSub pat [] = isPre pat [] from rfl, isPre_iff]
    constructor
    · rintro ⟨v, hv⟩
      exact ⟨[], v, hv⟩
    · rintro ⟨u, v, hv⟩
      have h3 : u = [] ∧ pat = [] ∧ v = [] := by simpa using hv
      exact ⟨v, by rw [h3.2.1, h3.2.2]; rfl⟩
  | cons c rest ih =>
    rw [show hasSub pat (c :: rest) = (isPre pat (c :: rest) || hasSub pat rest) from rfl,
      Bool.or_eq_true, isPre_iff, ih]
    constructor
    · rintro (⟨v, hv⟩ | ⟨u, v, hv⟩)
      · exact ⟨[], v, hv⟩
      · exact ⟨c :: u, v, by rw [hv]; rfl⟩
    · rintro ⟨u, v, hv⟩
      rcases u with _ | ⟨u0, u2⟩
      · exact Or.inl ⟨v, by simpa using hv⟩
      · refine Or.inr ⟨u2, v, ?_⟩
        have := List.cons_eq_cons.mp hv
        exact this.2

theorem hasSub_false_iff (pat s : List Char) :
    hasSub pat s = false ↔ ¬∃ u v, s = u ++ pat ++ v := by
  rw [← hasSub_iff]
  constructor
  · intro h hc
    rw [h] at hc
    exact Bool.false_ne_true hc
  · intro h
    rcases hb : hasSub pat s with _ | _
    · rfl
    · exact absurd hb h

theorem hasSub_of_infix (pat s t : List Char) (hst : ∃ a b, t = a ++ s ++ b)
    (h : hasSub pat s = true) : hasSub pat t = true := by
  obtain ⟨a, b, hab⟩ := hst
  obtain ⟨u, v, huv⟩ := (hasSub_iff pat s).mp h
  refine (hasSub_iff pat t).mpr ⟨a ++ u, v ++ b, ?_⟩
  rw [hab, huv]
  simp

theorem hasSub_false_of_infix (pat s t : List Char) (hst : ∃ a b, t = a ++ s ++ b)
    (h : hasSub pat t = false) : hasSub pat s = false := by
  rcases hb : hasSub pat s with _ | _
  · rfl
  · rw [ hasSub_of_infix pat s t hst hb] at h
    exact absurd h (by decide)

theorem hasSub_cons_of (pat : List Char) (c : Char) (rest : List Char)
    (h : hasSub pat rest = true) : hasSub pat (c :: rest) = true := by
  rw [show hasSub pat (c :: rest) = (isPre pat (c :: rest) || hasSub pat rest) from rfl, h]
  simp

theorem hasSub_cons_false (pat : List Char) (c : Char) (rest : List Char)
    (h : hasSub pat (c :: rest) = false) : hasSub pat rest = false := by
  rcases hb : hasSub pat rest with _ | _
  · rfl
  · rw [hasSub_cons_of pat c rest hb] at h
    exact absurd h (by decide)

theorem mem_of_hasSub (pat s : List Char) (h : hasSub pat s = true) :
    ∀ c ∈ pat, c ∈ s := by
  obtain ⟨u, v, huv⟩ := (hasSub_iff pat s).mp h
  intro c hc
  rw [huv]
  simp [hc]

theorem hasSub_pair_append (a b : Char) (l m : List Char) :
    hasSub [a, b] (l ++ m) = true ↔
      hasSub [a, b] l = true ∨ hasSub [a, b] m = true ∨
        (l.getLast? = some a ∧ m.head? = some b) := by
  induction l with
  | nil =>
    simp only [List.nil_append, List.getLast?_nil]
    constructor
    · intro h; exact Or.inr (Or.inl h)
    · rintro (h | h | ⟨h, _⟩)
      · rw [show hasSub [a, b] [] = isPre [a, b] [] from rfl] at h
        exact absurd h (by simp [isPre])
      · exact h
      · exact absurd h (by simp)
  | cons c l2 ih =>
    rcases l2 with _ | ⟨c2, l3⟩
    · simp only [List.singleton_append]
      rw [show hasSub [a, b] (c :: m) = (isPre [a, b] (c :: m) || hasSub [a, b] m) from rfl]
      constructor
      · intro h
        rcases Bool.or_eq_true _ _ |>.mp h with h1 | h2
        · rcases m with _ | ⟨d, m2⟩
          · exact absurd h1 (by simp [isPre])
          · have := (isPre_iff [a, b] (c :: d :: m2)).mp h1
            obtain ⟨v, hv⟩ := this
            have hc : c = a := (List.cons_eq_cons.mp hv).1
            have hd : d = b := (List.cons_eq_cons.mp ((List.cons_eq_cons.mp hv).2)).1
            exact Or.inr (Or.inr ⟨by simp [hc], by simp [hd]⟩)
        · exact Or.inr (Or.inl h2)
      · rintro (h | h | ⟨h1, h2⟩)
        · rw [show hasSub [a, b] [c] = (isPre [a, b] [c] || hasSub [a, b] []) from rfl] at h
          exact absurd h (by simp [isPre, hasSub])
        · simp [h]
        · have hc : c = a := by simpa using h1
          rcases m with _ | ⟨d, m2⟩
          · exact absurd h2 (by simp)
          · have hd : d = b := by simpa using h2
            refine (Bool.or_eq_true _ _).mpr (Or.inl ((isPre_iff _ _).mpr ⟨m2, ?_⟩))
            rw [hc, hd]
            rfl
    · rw [show (c :: c2 :: l3) ++ m = c :: ((c2 :: l3) ++ m) from rfl,
        show hasSub [a, b] (c :: ((c2 :: l3) ++ m)) =
          (isPre [a, b] (c :: ((c2 :: l3) ++ m)) || hasSub [a, b] ((c2 :: l3) ++ m)) from rfl,
        show hasSub [a, b] (c :: c2 :: l3) =
          (isPre [a, b] (c :: c2 :: l3) || hasSub [a, b] (c2 :: l3)) from rfl]
      have hpre : isPre [a, b] (c :: ((c2 :: l3) ++ m)) = isPre [a, b] (c :: c2 :: l3) := by
        show (a == c && (b == c2 && true)) = (a == c && (b == c2 && true))
        rfl
      have hlast : (c :: c2 :: l3).getLast? = (c2 :: l3).getLast? := by
        rfl
      rw [hpre, hlast]
      rw [Bool.or_eq_true, Bool.or_eq_true]
      constructor
      · rintro (h1 | h2)
        · exact Or.inl (Or.inl h1)
        · rcases ih.mp h2 with h3 | h4 | h5
          · exact Or.inl (Or.inr h3)
          · exact Or.inr (Or.inl h4)
          · exact Or.inr (Or.inr h5)
      · rintro ((h1 | h2) | h3 | h4)
        · exact Or.inl h1
        · exact Or.inr (ih.mpr (Or.inl h2))
        · exact Or.inr (ih.mpr (Or.inr (Or.inl h3)))
        · exact Or.inr (ih.mpr (Or.inr (Or.inr h4)))

theorem normNewlines_cons_ne (c : Char) (rest : List Char) (hc : c ≠ '\r') :
    normNewlines (c :: rest) = c :: normNewlines rest := by
  rcases rest with _ | ⟨d, r2⟩
  · simp [normNewlines, hc]
  · by_cases hd : d = '\n' <;> simp [normNewlines, hc, hd]

theorem normNewlines_id (s : List Char) (hs : '\r' ∉ s) : normNewlines s = s := by
  induction s with
  | nil => rfl
  | cons c rest ih =>
    rw [normNewlines_cons_ne c rest (fun h => hs (by simp [h])),
      ih (fun h => hs (List.mem_cons_of_mem c h))]

theorem stripTrailWs_id (s : List Char)
    (h1 : hasSub [' ', '\n'] s = false) (h2 : hasSub ['\t', '\n'] s = false) :
    stripTrailWs s = s := by
  induction s with
  | nil => rfl
  | cons c rest ih =>
    have hr : stripTrailWs rest = rest :=
      ih (hasSub_cons_false _ c rest h1) (hasSub_cons_false _ c rest h2)
    rw [stripTrailWs]
    simp only [hr]
    rw [if_neg]
    rintro ⟨hc, hh⟩
    rcases rest with _ | ⟨d, r2⟩
    · exact absurd hh (by simp)
    · have hd : d = '\n' := by simpa using hh
      subst hd
      rcases hc with hc | hc <;> subst hc
      · rw [show hasSub [' ', '\n'] (' ' :: '\n' :: r2) =
            (isPre [' ', '\n'] (' ' :: '\n' :: r2) || hasSub [' ', '\n'] ('\n' :: r2))
            from rfl] at h1
        simp [isPre] at h1
      · rw [show hasSub ['\t', '\n'] ('\t' :: '\n' :: r2) =
            (isPre ['\t', '\n'] ('\t' :: '\n' :: r2) || hasSub ['\t', '\n'] ('\n' :: r2))
            from rfl] at h2
        simp [isPre] at h2

theorem collapseNL3Go_id (s : List Char) :
    ∀ count, count ≤ 2 → hasSub ['\n', '\n', '\n'] s = false →
      (count = 1 → isPre ['\n', '\n'] s = false) →
      (count = 2 → s.head? ≠ some '\n') →
      collapseNL3Go count s = s := by
  induction s with
  | nil => intro count _ _ _ _; rfl
  | cons c rest ih =>
    intro count hcle hnnn hc1 hc2
    by_cases hc : c = '\n'
    · subst hc
      have hcount : count < 2 := by
        rcases Nat.lt_or_ge count 2 with h | h
        · exact h
        · have h2 : count = 2 := by omega
          exact absurd (rfl : ('\n' :: rest).head? = some '\n') (hc2 h2)
      rw [show collapseNL3Go count ('\n' :: rest) =
          if count < 2 then '\n' :: collapseNL3Go (count + 1) rest
          else collapseNL3Go count rest from rfl, if_pos hcount]
      have hrest : collapseNL3Go (count + 1) rest = rest := by
        refine ih (count + 1) (by omega) (hasSub_cons_false _ _ _ hnnn) ?_ ?_
        · intro h1
          have hzero : count = 0 := by omega
          subst hzero
          rcases hp : isPre ['\n', '\n'] rest with _ | _
          · rfl
          · obtain ⟨v, hv⟩ := (isPre_iff _ _).mp hp
            rw [show hasSub ['\n', '\n', '\n'] ('\n' :: rest) =
                (isPre ['\n', '\n', '\n'] ('\n' :: rest) ||
                  hasSub ['\n', '\n', '\n'] rest) from rfl] at hnnn
            rw [hv] at hnnn
            simp [isPre] at hnnn
        · intro h2
          have hone : count = 1 := by omega
          subst hone
          intro hh
          rcases rest with _ | ⟨d, r2⟩
          · exact absurd hh (by simp)
          · have : d = '\n' := by simpa using hh
            subst this
            have := hc1 rfl
            simp [isPre] at this
      rw [hrest]
    · rw [show collapseNL3Go count (c :: rest) = c :: collapseNL3Go 0 rest by
        rcases count with _ | n <;> simp [collapseNL3Go, hc]]
      rw [ih 0 (by omega) (hasSub_cons_false _ _ _ hnnn) (by omega) (by omega)]

theorem collapseNL3_id (s : List Char) (h : hasSub ['\n', '\n', '\n'] s = false) :
    collapseNL3 s = s :=
  collapseNL3Go_id s 0 (by omega) h (by omega) (by omega)

theorem head?_eq_some_mem (l : List Char) (c : Char) (h : l.head? = some c) : c ∈ l := by
  rcases l with _ | ⟨d, ds⟩
  · exact absurd h (by simp)
  · have hd : d = c := by simpa using h
    rw [← hd]
    exact List.mem_cons_self _ _

theorem domGroup_none_of_no_dot (s : List Char) (h : '.' ∉ s) : domGroup s = none := by
  rw [domGroup, if_neg]
  rintro ⟨_, hdot⟩
  exact h (List.drop_subset _ s (head?_eq_some_mem _ _ hdot))

theorem domCore_none_of_no_dot (s : List Char) (h : '.' ∉ s) : domCore s = none := by
  rw [domCore, domGroup_none_of_no_dot s h]

theorem replaceDomGo_id (fuel : Nat) :
    ∀ prev s, '.' ∉ s → replaceDomGo fuel prev s = s := by
  induction fuel with
  | zero => intro prev s _; rfl
  | succ f ih =>
    intro prev s hs
    rcases s with _ | ⟨c, rest⟩
    · rfl
    · have hrest : '.' ∉ rest := fun h => hs (List.mem_cons_of_mem c h)
      rw [show replaceDomGo (f + 1) prev (c :: rest) =
          if domStartOk prev c then
            match domCore (c :: rest) with
            | some n =>
                replaceDomGo f (some ((c :: rest).getD (n - 1) 'a')) ((c :: rest).drop n)
            | none => c :: replaceDomGo f (some c) rest
          else c :: replaceDomGo f (some c) rest from rfl]
      by_cases hok : domStartOk prev c = true
      · rw [if_pos hok, domCore_none_of_no_dot (c :: rest) hs, ih (some c) rest hrest]
      · rw [if_neg hok, ih (some c) rest hrest]

theorem replaceDom_id (s : List Char) (h : '.' ∉ s) : replaceDom s = s :=
  replaceDomGo_id s.length none s h

theorem collapseSpGo_id (s : List Char) (h1 : '\t' ∉ s)
    (h2 : hasSub [' ', ' '] s = false) : collapseSpGo false s = s := by
  induction s with
  | nil => rfl
  | cons c rest ih =>
    have hrest := ih (fun h => h1 (List.mem_cons_of_mem c h)) (hasSub_cons_false _ c rest h2)
    by_cases hsp : isSpTab c = true
    · have hc : c = ' ' := by
        have hor : c = ' ' ∨ c = '\t' := by simpa [isSpTab] using hsp
        rcases hor with h | h
        · exact h
        · exact absurd (by simp [h] : '\t' ∈ c :: rest) h1
      subst hc
      rcases rest with _ | ⟨d, r2⟩
      · rfl
      · have hd : isSpTab d = false := by
          rcases hb : isSpTab d with _ | _
          · rfl
          · have hor : d = ' ' ∨ d = '\t' := by simpa [isSpTab] using hb
            rcases hor with h | h
            · subst h
              rw [show hasSub [' ', ' '] (' ' :: ' ' :: r2) =
                  (isPre [' ', ' '] (' ' :: ' ' :: r2) || hasSub [' ', ' '] (' ' :: r2))
                  from rfl] at h2
              simp [isPre] at h2
            · exact absurd (by simp [h] : '\t' ∈ ' ' :: d :: r2) h1
        rw [show collapseSpGo false (' ' :: d :: r2) =
            if isSpTab ' ' then
              (if isSpTab d then ' ' :: collapseSpGo true (d :: r2)
               else ' ' :: collapseSpGo false (d :: r2))
            else ' ' :: collapseSpGo false (d :: r2) from rfl]
        rw [if_pos (by decide), if_neg (by simp [hd]), hrest]
    · rw [show collapseSpGo false (c :: rest) = c :: collapseSpGo false rest by
        rcases rest with _ | ⟨d, r2⟩ <;> simp [collapseSpGo, hsp]]
      rw [hrest]

theorem collapseSp_id (s : List Char) (h1 : '\t' ∉ s)
    (h2 : hasSub [' ', ' '] s = false) : collapseSp s = s :=
  collapseSpGo_id s h1 h2

theorem dropWhile_head_not (p : Char → Bool) (l : List Char) (c : Char)
    (h : (l.dropWhile p).head? = some c) : p c = false := by
  induction l with
  | nil => exact absurd h (by simp)
  | cons d ds ih =>
    rw [List.dropWhile_cons] at h
    by_cases hd : p d = true
    · rw [if_pos hd] at h
      exact ih h
    · rw [if_neg hd] at h
      have : d = c := by simpa using h
      rw [← this]
      exact Bool.eq_false_iff.mpr hd

theorem dropWhile_eq_self_of_head (p : Char → Bool) (l : List Char)
    (h : ∀ c, l.head? = some c → p c = false) : l.dropWhile p = l := by
  rcases l with _ | ⟨d, ds⟩
  · rfl
  · rw [List.dropWhile_cons, if_neg]
    rw [h d rfl]
    exact Bool.false_ne_true

theorem dropWhile_getLast (p : Char → Bool) (l : List Char)
    (h : l.dropWhile p ≠ []) : (l.dropWhile p).getLast? = l.getLast? := by
  induction l with
  | nil => rfl
  | cons d ds ih =>
    rw [List.dropWhile_cons]
    by_cases hd : p d = true
    · rw [if_pos hd]
      rw [List.dropWhile_cons, if_pos hd] at h
      rw [ih h]
      rcases ds with _ | ⟨e, es⟩
      · exact absurd rfl h
      · rw [List.getLast?_cons_cons]
    · rw [if_neg hd]

theorem getLast?_reverse_eq (l : List Char) : l.reverse.getLast? = l.head? := by
  have := List.head?_reverse (l := l.reverse)
  rw [List.reverse_reverse] at this
  exact this.symm

theorem jsTrim_head_not_ws (s : List Char) (c : Char)
    (h : (jsTrim s).head? = some c) : isJsWhitespace c = false := by
  rw [jsTrim, List.head?_reverse] at h
  have hne : (s.dropWhile isJsWhitespace).reverse.dropWhile isJsWhitespace ≠ [] := by
    intro hnil
    rw [hnil] at h
    exact absurd h (by simp)
  rw [dropWhile_getLast _ _ hne, getLast?_reverse_eq] at h
  exact dropWhile_head_not _ _ _ h

theorem jsTrim_getLast_not_ws (s : List Char) (c : Char)
    (h : (jsTrim s).getLast? = some c) : isJsWhitespace c = false := by
  rw [jsTrim, getLast?_reverse_eq] at h
  exact dropWhile_head_not _ _ _ h

theorem jsTrim_eq_self (s : List Char)
    (h1 : ∀ c, s.head? = some c → isJsWhitespace c = false)
    (h2 : ∀ c, s.getLast? = some c → isJsWhitespace c = false) : jsTrim s = s := by
  rw [jsTrim, dropWhile_eq_self_of_head _ _ h1, dropWhile_eq_self_of_head, List.reverse_reverse]
  intro c hc
  rw [List.head?_reverse] at hc
  exact h2 c hc

theorem jsTrim_idem (s : List Char) : jsTrim (jsTrim s) = jsTrim s :=
  jsTrim_eq_self _ (jsTrim_head_not_ws s) (jsTrim_getLast_not_ws s)

theorem jsTrim_infix (s : List Char) : ∃ a b, s = a ++ jsTrim s ++ b := by
  refine ⟨s.takeWhile isJsWhitespace,
    ((s.dropWhile isJsWhitespace).reverse.takeWhile isJsWhitespace).reverse, ?_⟩
  rw [jsTrim]
  have h1 : s = s.takeWhile isJsWhitespace ++ s.dropWhile isJsWhitespace :=
    (List.takeWhile_append_dropWhile _ _).symm
  have h2 : (s.dropWhile isJsWhitespace).reverse =
      (s.dropWhile isJsWhitespace).reverse.takeWhile isJsWhitespace ++
        (s.dropWhile isJsWhitespace).reverse.dropWhile isJsWhitespace :=
    (List.takeWhile_append_dropWhile _ _).symm
  have h3 : s.dropWhile isJsWhitespace =
      ((s.dropWhile isJsWhitespace).reverse.dropWhile isJsWhitespace).reverse ++
        ((s.dropWhile isJsWhitespace).reverse.takeWhile isJsWhitespace).reverse := by
    have := congrArg List.reverse h2
    rw [List.reverse_reverse, List.reverse_append] at this
    exact this
  rw [List.append_assoc, ← h3]
  exact h1

theorem collapseNL3Go_nl_lt (count : Nat) (rest : List Char) (h : count < 2) :
    collapseNL3Go count ('\n' :: rest) = '\n' :: collapseNL3Go (count + 1) rest := by
  rw [show collapseNL3Go count ('\n' :: rest) =
      if count < 2 then '\n' :: collapseNL3Go (count + 1) rest
      else collapseNL3Go count rest from rfl, if_pos h]

theorem collapseNL3Go_nl_ge (count : Nat) (rest : List Char) (h : ¬count < 2) :
    collapseNL3Go count ('\n' :: rest) = collapseNL3Go count rest := by
  rw [show collapseNL3Go count ('\n' :: rest) =
      if count < 2 then '\n' :: collapseNL3Go (count + 1) rest
      else collapseNL3Go count rest from rfl, if_neg h]

theorem collapseNL3Go_cons_ne (count : Nat) (c : Char) (rest : List Char) (hc : c ≠ '\n') :
    collapseNL3Go count (c :: rest) = c :: collapseNL3Go 0 rest := by
  rcases count with _ | n <;> simp [collapseNL3Go, hc]

theorem collapseNL3Go_head_le1 (count : Nat) (s : List Char) (h : count ≤ 1) :
    (collapseNL3Go count s).head? = s.head? := by
  rcases s with _ | ⟨c, rest⟩
  · rfl
  · by_cases hc : c = '\n'
    · subst hc
      rw [collapseNL3Go_nl_lt count rest (by omega)]
      rfl
    · rw [collapseNL3Go_cons_ne count c rest hc]
      rfl

theorem collapseNL3Go_nil_iff (s : List Char) : collapseNL3Go 0 s = [] ↔ s = [] := by
  rcases s with _ | ⟨c, rest⟩
  · simp [collapseNL3Go]
  · by_cases hc : c = '\n'
    · subst hc
      rw [collapseNL3Go_nl_lt 0 rest (by omega)]
      simp
    · rw [collapseNL3Go_cons_ne 0 c rest hc]
      simp

theorem cons_getLast_ne_none (l : List Char) : ∀ x, (x :: l).getLast? ≠ none := by
  induction l with
  | nil => intro x; simp
  | cons y ys ih =>
    intro x
    rw [List.getLast?_cons_cons]
    exact ih y

theorem collapseNL3Go_first_non_nl (r : List Char) :
    ∀ count b, (collapseNL3Go count r).head? = some b → b ≠ '\n' →
      ∃ u t, r = u ++ b :: t ∧ ∀ c ∈ u, c = '\n' := by
  induction r with
  | nil =>
    intro count b h _
    exact absurd h (by simp [collapseNL3Go])
  | cons c rest ih =>
    intro count b h hb
    by_cases hc : c = '\n'
    · subst hc
      by_cases hcnt : count < 2
      · rw [collapseNL3Go_nl_lt count rest hcnt] at h
        have : b = '\n' := by
          have := h
          simp at this
          exact this.symm
        exact absurd this hb
      · rw [collapseNL3Go_nl_ge count rest hcnt] at h
        obtain ⟨u, t, hr, hu⟩ := ih count b h hb
        refine ⟨'\n' :: u, t, by rw [hr]; rfl, ?_⟩
        intro x hx
        rcases List.mem_cons.mp hx with h1 | h2
        · exact h1
        · exact hu x h2
    · rw [collapseNL3Go_cons_ne count c rest hc] at h
      have hcb : c = b := by simpa using h
      exact ⟨[], rest, by rw [hcb]; rfl, by simp⟩

theorem collapseNL3Go_pair_fst (a b : Char) (ha : a ≠ '\n') (s : List Char) :
    ∀ count, hasSub [a, b] (collapseNL3Go count s) = true → hasSub [a, b] s = true := by
  induction s with
  | nil => intro count h; exact absurd h (by simp [collapseNL3Go, hasSub, isPre])
  | cons c rest ih =>
    intro count h
    by_cases hc : c = '\n'
    · subst hc
      by_cases hcnt : count < 2
      · rw [collapseNL3Go_nl_lt count rest hcnt] at h
        rw [show hasSub [a, b] ('\n' :: collapseNL3Go (count + 1) rest) =
            (isPre [a, b] ('\n' :: collapseNL3Go (count + 1) rest) ||
              hasSub [a, b] (collapseNL3Go (count + 1) rest)) from rfl] at h
        rcases Bool.or_eq_true _ _ |>.mp h with h1 | h2
        · obtain ⟨v, hv⟩ := (isPre_iff _ _).mp h1
          exact absurd ((List.cons_eq_cons.mp hv).1.symm) ha
        · exact hasSub_cons_of _ _ _ (ih (count + 1) h2)
      · rw [collapseNL3Go_nl_ge count rest hcnt] at h
        exact hasSub_cons_of _ _ _ (ih count h)
    · rw [collapseNL3Go_cons_ne count c rest hc] at h
      rw [show hasSub [a, b] (c :: collapseNL3Go 0 rest) =
          (isPre [a, b] (c :: collapseNL3Go 0 rest) ||
            hasSub [a, b] (collapseNL3Go 0 rest)) from rfl] at h
      rcases Bool.or_eq_true _ _ |>.mp h with h1 | h2
      · obtain ⟨v, hv⟩ := (isPre_iff _ _).mp h1
        have hca : c = a := (List.cons_eq_cons.mp hv).1
        have hhead : (collapseNL3Go 0 rest).head? = some b := by
          have h2 := (List.cons_eq_cons.mp hv).2
          rw [h2]
          rfl
        rw [collapseNL3Go_head_le1 0 rest (by omega)] at hhead
        rcases rest with _ | ⟨d, r2⟩
        · exact absurd hhead (by simp)
        · have hd : d = b := by simpa using hhead
          refine (hasSub_iff _ _).mpr ⟨[], r2, ?_⟩
          rw [hca, hd]
          rfl
      · exact hasSub_cons_of _ _ _ (ih 0 h2)

theorem collapseNL3Go_pair_snd (a b : Char) (hb : b ≠ '\n') (s : List Char) :
    ∀ count, hasSub [a, b] (collapseNL3Go count s) = true → hasSub [a, b] s = true := by
  induction s with
  | nil => intro count h; exact absurd h (by simp [collapseNL3Go, hasSub, isPre])
  | cons c rest ih =>
    intro count h
    by_cases hc : c = '\n'
    · subst hc
      by_cases hcnt : count < 2
      · rw [collapseNL3Go_nl_lt count rest hcnt] at h
        rw [show hasSub [a, b] ('\n' :: collapseNL3Go (count + 1) rest) =
            (isPre [a, b] ('\n' :: collapseNL3Go (count + 1) rest) ||
              hasSub [a, b] (collapseNL3Go (count + 1) rest)) from rfl] at h
        rcases Bool.or_eq_true _ _ |>.mp h with h1 | h2
        · obtain ⟨v, hv⟩ := (isPre_iff _ _).mp h1
          have hna : '\n' = a := (List.cons_eq_cons.mp hv).1
          have hhead : (collapseNL3Go (count + 1) rest).head? = some b := by
            have hvv := (List.cons_eq_cons.mp hv).2
            rw [hvv]
            rfl
          obtain ⟨u, t, hr, hu⟩ := collapseNL3Go_first_non_nl rest (count + 1) b hhead hb
          rcases hue : u with _ | ⟨u0, u2⟩
          · rw [hue] at hr
            refine (hasSub_iff _ _).mpr ⟨[], t, ?_⟩
            rw [hr, ← hna]
            rfl
          · obtain ⟨u3, x, hux⟩ := List.eq_nil_or_concat u |>.resolve_left (by rw [hue]; simp)
            have hx : x = '\n' := hu x (by rw [hux]; simp)
            refine (hasSub_iff _ _).mpr ⟨'\n' :: u3, t, ?_⟩
            rw [hr, hux, hx, ← hna]
            simp
        · exact hasSub_cons_of _ _ _ (ih (count + 1) h2)
      · rw [collapseNL3Go_nl_ge count rest hcnt] at h
        exact hasSub_cons_of _ _ _ (ih count h)
    · rw [collapseNL3Go_cons_ne count c rest hc] at h
      rw [show hasSub [a, b] (c :: collapseNL3Go 0 rest) =
          (isPre [a, b] (c :: collapseNL3Go 0 rest) ||
            hasSub [a, b] (collapseNL3Go 0 rest)) from rfl] at h
      rcases Bool.or_eq_true _ _ |>.mp h with h1 | h2
      · obtain ⟨v, hv⟩ := (isPre_iff _ _).mp h1
        have hca : c = a := (List.cons_eq_cons.mp hv).1
        have hhead : (collapseNL3Go 0 rest).head? = some b := by
          have h2 := (List.cons_eq_cons.mp hv).2
          rw [h2]
          rfl
        rw [collapseNL3Go_head_le1 0 rest (by omega)] at hhead
        rcases rest with _ | ⟨d, r2⟩
        · exact absurd hhead (by simp)
        · have hd : d = b := by simpa using hhead
          refine (hasSub_iff _ _).mpr ⟨[], r2, ?_⟩
          rw [hca, hd]
          rfl
      · exact hasSub_cons_of _ _ _ (ih 0 h2)

theorem collapseNL3Go_chars (s : List Char) :
    ∀ count c, c ∈ collapseNL3Go count s → c ∈ s := by
  induction s with
  | nil => intro count c h; exact absurd h (by simp [collapseNL3Go])
  | cons d rest ih =>
    intro count c h
    by_cases hd : d = '\n'
    · subst hd
      by_cases hcnt : count < 2
      · rw [collapseNL3Go_nl_lt count rest hcnt] at h
        rcases List.mem_cons.mp h with h1 | h2
        · rw [h1]; exact List.mem_cons_self _ _
        · exact List.mem_cons_of_mem _ (ih (count + 1) c h2)
      · rw [collapseNL3Go_nl_ge count rest hcnt] at h
        exact List.mem_cons_of_mem _ (ih count c h)
    · rw [collapseNL3Go_cons_ne count d rest hd] at h
      rcases List.mem_cons.mp h with h1 | h2
      · rw [h1]; exact List.mem_cons_self _ _
      · exact List.mem_cons_of_mem _ (ih 0 c h2)

theorem collapseNL3Go_getLast (s : List Char) :
    ∀ count, (collapseNL3Go count s).getLast? = none ∨
      (collapseNL3Go count s).getLast? = s.getLast? ∨
      (collapseNL3Go count s).getLast? = some '\n' := by
  induction s with
  | nil => intro count; exact Or.inl rfl
  | cons c rest ih =>
    intro count
    by_cases hc : c = '\n'
    · subst hc
      by_cases hcnt : count < 2
      · rw [collapseNL3Go_nl_lt count rest hcnt]
        rcases hrec : collapseNL3Go (count + 1) rest with _ | ⟨e, es⟩
        · exact Or.inr (Or.inr rfl)
        · rw [List.getLast?_cons_cons]
          rcases ih (count + 1) with h1 | h2 | h3
          · rw [hrec] at h1
            exact absurd h1 (cons_getLast_ne_none es e)
          · rw [hrec] at h2
            rcases rest with _ | ⟨f, fs⟩
            · simp [collapseNL3Go] at hrec
            · rw [List.getLast?_cons_cons]
              exact Or.inr (Or.inl h2)
          · rw [hrec] at h3
            exact Or.inr (Or.inr h3)
      · rw [collapseNL3Go_nl_ge count rest hcnt]
        rcases ih count with h1 | h2 | h3
        · exact Or.inl h1
        · rcases rest with _ | ⟨f, fs⟩
          · exact Or.inl (by simp [collapseNL3Go])
          · rw [List.getLast?_cons_cons]
            exact Or.inr (Or.inl h2)
        · exact Or.inr (Or.inr h3)
    · rw [collapseNL3Go_cons_ne count c rest hc]
      rcases hrec : collapseNL3Go 0 rest with _ | ⟨e, es⟩
      · have : rest = [] := (collapseNL3Go_nil_iff rest).mp hrec
        subst this
        exact Or.inr (Or.inl rfl)
      · rw [List.getLast?_cons_cons]
        rcases ih 0 with h1 | h2 | h3
        · rw [hrec] at h1
          exact absurd h1 (cons_getLast_ne_none es e)
        · rw [hrec] at h2
          rcases rest with _ | ⟨f, fs⟩
          · simp [collapseNL3Go] at hrec
          · rw [List.getLast?_cons_cons]
            exact Or.inr (Or.inl h2)
        · rw [hrec] at h3
          exact Or.inr (Or.inr h3)

theorem collapseNL3Go_no_triple (s : List Char) :
    ∀ count, hasSub ['\n', '\n', '\n'] (collapseNL3Go count s) = false ∧
      (count = 1 → isPre ['\n', '\n'] (collapseNL3Go count s) = false) ∧
      (count = 2 → (collapseNL3Go count s).head? ≠ some '\n') := by
  induction s with
  | nil =>
    intro count
    exact ⟨by simp [collapseNL3Go, hasSub, isPre], fun _ => by simp [collapseNL3Go, isPre],
      fun _ => by simp [collapseNL3Go]⟩
  | cons c rest ih =>
    intro count
    by_cases hc : c = '\n'
    · subst hc
      by_cases hcnt : count < 2
      · rw [collapseNL3Go_nl_lt count rest hcnt]
        obtain ⟨ha, hb, hcsucc⟩ := ih (count + 1)
        refine ⟨?_, ?_, ?_⟩
        · rw [show hasSub ['\n', '\n', '\n'] ('\n' :: collapseNL3Go (count + 1) rest) =
            (isPre ['\n', '\n', '\n'] ('\n' :: collapseNL3Go (count + 1) rest) ||
              hasSub ['\n', '\n', '\n'] (collapseNL3Go (count + 1) rest)) from rfl, ha]
          rw [Bool.or_false]
          rcases hp : isPre ['\n', '\n', '\n'] ('\n' :: collapseNL3Go (count + 1) rest)
            with _ | _
          · rfl
          · obtain ⟨v, hv⟩ := (isPre_iff _ _).mp hp
            have hvv := (List.cons_eq_cons.mp hv).2
            by_cases h1 : count = 0
            · subst h1
              have := hb rfl
              rw [(isPre_iff _ _).mpr ⟨v, hvv⟩] at this
              exact absurd this (by simp)
            · have h2 : count = 1 := by omega
              subst h2
              have := hcsucc rfl
              rw [hvv] at this
              simp at this
        · intro h1
          subst h1
          rw [show isPre ['\n', '\n'] ('\n' :: collapseNL3Go 2 rest) =
              (true && isPre ['\n'] (collapseNL3Go 2 rest)) from rfl]
          rcases hp : isPre ['\n'] (collapseNL3Go 2 rest) with _ | _
          · simp
          · obtain ⟨v, hv⟩ := (isPre_iff _ _).mp hp
            have := hcsucc rfl
            rw [hv] at this
            simp at this
        · intro h2
          omega
      · rw [collapseNL3Go_nl_ge count rest hcnt]
        exact ih count
    · rw [collapseNL3Go_cons_ne count c rest hc]
      obtain ⟨ha, _, _⟩ := ih 0
      refine ⟨?_, ?_, ?_⟩
      · rw [show hasSub ['\n', '\n', '\n'] (c :: collapseNL3Go 0 rest) =
          (isPre ['\n', '\n', '\n'] (c :: collapseNL3Go 0 rest) ||
            hasSub ['\n', '\n', '\n'] (collapseNL3Go 0 rest)) from rfl, ha, Bool.or_false]
        rcases hp : isPre ['\n', '\n', '\n'] (c :: collapseNL3Go 0 rest) with _ | _
        · rfl
        · obtain ⟨v, hv⟩ := (isPre_iff _ _).mp hp
          exact absurd (List.cons_eq_cons.mp hv).1 hc
      · intro h1
        rcases hp : isPre ['\n', '\n'] (c :: collapseNL3Go 0 rest) with _ | _
        · rfl
        · obtain ⟨v, hv⟩ := (isPre_iff _ _).mp hp
          exact absurd (List.cons_eq_cons.mp hv).1 hc
      · intro h2
        intro hh
        have : c = '\n' := by simpa using hh
        exact hc this

theorem collapseNL3_no_triple (s : List Char) :
    hasSub ['\n', '\n', '\n'] (collapseNL3 s) = false :=
  (collapseNL3Go_no_triple s 0).1

theorem no_newline_in_lines (s : List Char) : ∀ l ∈ splitLF s, '\n' ∉ l := by
  induction s with
  | nil =>
    intro l hl
    have : l = [] := by simpa [splitLF] using hl
    simp [this]
  | cons c rest ih =>
    intro l hl
    by_cases hc : c = '\n'
    · subst hc
      rw [show splitLF ('\n' :: rest) = [] :: splitLF rest from rfl] at hl
      rcases List.mem_cons.mp hl with h1 | h2
      · simp [h1]
      · exact ih l h2
    · rw [splitLF_cons_ne c rest hc] at hl
      rcases List.mem_cons.mp hl with h1 | h2
      · rcases hsp : splitLF rest with _ | ⟨h0, t0⟩
        · exact absurd hsp (splitLF_ne_nil rest)
        · rw [hsp] at h1
          simp only [List.headI] at h1
          have hh0 : h0 ∈ splitLF rest := by rw [hsp]; exact List.mem_cons_self _ _
          intro hmem
          rw [h1] at hmem
          rcases List.mem_cons.mp hmem with hx | hx
          · exact hc hx.symm
          · exact ih h0 hh0 hx
      · rcases hsp : splitLF rest with _ | ⟨h0, t0⟩
        · exact absurd hsp (splitLF_ne_nil rest)
        · rw [hsp] at h2
          simp only [List.tail] at h2
          exact ih l (by rw [hsp]; exact List.mem_cons_of_mem _ h2)

theorem lines_chars (s : List Char) : ∀ l ∈ splitLF s, ∀ c ∈ l, c ∈ s := by
  induction s with
  | nil =>
    intro l hl
    have : l = [] := by simpa [splitLF] using hl
    simp [this]
  | cons d rest ih =>
    intro l hl c hc
    by_cases hd : d = '\n'
    · subst hd
      rw [show splitLF ('\n' :: rest) = [] :: splitLF rest from rfl] at hl
      rcases List.mem_cons.mp hl with h1 | h2
      · rw [h1] at hc
        exact absurd hc (by simp)
      · exact List.mem_cons_of_mem _ (ih l h2 c hc)
    · rw [splitLF_cons_ne d rest hd] at hl
      rcases List.mem_cons.mp hl with h1 | h2
      · rcases hsp : splitLF rest with _ | ⟨h0, t0⟩
        · exact absurd hsp (splitLF_ne_nil rest)
        · rw [hsp] at h1
          simp only [List.headI] at h1
          rw [h1] at hc
          rcases List.mem_cons.mp hc with hx | hx
          · rw [hx]; exact List.mem_cons_self _ _
          · exact List.mem_cons_of_mem _
              (ih h0 (by rw [hsp]; exact List.mem_cons_self _ _) c hx)
      · rcases hsp : splitLF rest with _ | ⟨h0, t0⟩
        · exact absurd hsp (splitLF_ne_nil rest)
        · rw [hsp] at h2
          simp only [List.tail] at h2
          exact List.mem_cons_of_mem _
            (ih l (by rw [hsp]; exact List.mem_cons_of_mem _ h2) c hc)

theorem splitLF_head_dec (s : List Char) :
    ∃ v, s = (splitLF s).headI ++ v ∧ (v = [] ∨ v.head? = some '\n') ∧
      '\n' ∉ (splitLF s).headI := by
  induction s with
  | nil => exact ⟨[], rfl, Or.inl rfl, by simp [splitLF]⟩
  | cons c rest ih =>
    by_cases hc : c = '\n'
    · subst hc
      exact ⟨'\n' :: rest, rfl, Or.inr rfl, by simp [splitLF]⟩
    · obtain ⟨v, hv, hnl, hhead⟩ := ih
      rw [splitLF_cons_ne c rest hc]
      rcases hsp : splitLF rest with _ | ⟨h0, t0⟩
      · exact absurd hsp (splitLF_ne_nil rest)
      · rw [hsp] at hv hhead
        simp only [List.headI] at hv hhead ⊢
        refine ⟨v, ?_, hnl, ?_⟩
        · rw [List.cons_append, ← hv]
        · intro hmem
          rcases List.mem_cons.mp hmem with hx | hx
          · exact hc hx.symm
          · exact hhead hx

theorem splitLF_tail_dec (s : List Char) :
    ∀ l ∈ (splitLF s).tail, ∃ u v, s = u ++ '\n' :: (l ++ v) ∧
      (v = [] ∨ v.head? = some '\n') := by
  induction s with
  | nil => intro l hl; simp [splitLF] at hl
  | cons c rest ih =>
    intro l hl
    by_cases hc : c = '\n'
    · subst hc
      rw [show splitLF ('\n' :: rest) = [] :: splitLF rest from rfl] at hl
      simp only [List.tail] at hl
      rcases hsp : splitLF rest with _ | ⟨h0, t0⟩
      · exact absurd hsp (splitLF_ne_nil rest)
      · rw [hsp] at hl
        rcases List.mem_cons.mp hl with h1 | h2
        · obtain ⟨v, hv, hnl, _⟩ := splitLF_head_dec rest
          rw [hsp] at hv
          simp only [List.headI] at hv
          rw [← h1] at hv
          exact ⟨[], v, by rw [hv]; rfl, hnl⟩
        · obtain ⟨u, v, huv, hnl⟩ := ih l (by rw [hsp]; simpa using h2)
          exact ⟨'\n' :: u, v, by rw [huv]; rfl, hnl⟩
    · rw [splitLF_cons_ne c rest hc] at hl
      simp only [List.tail] at hl
      rcases hsp : splitLF rest with _ | ⟨h0, t0⟩
      · exact absurd hsp (splitLF_ne_nil rest)
      · rw [hsp] at hl
        obtain ⟨u, v, huv, hnl⟩ := ih l (by rw [hsp]; simpa using hl)
        exact ⟨c :: u, v, by rw [huv]; rfl, hnl⟩

theorem splitLF_mem_head (l b : List Char) (hnl : '\n' ∉ l)
    (hb : b = [] ∨ b.head? = some '\n') : l ∈ splitLF (l ++ b) := by
  rcases hb with hb | hb
  · subst hb
    rw [List.append_nil, splitLF_single l hnl]
    exact List.mem_cons_self _ _
  · rcases b with _ | ⟨d, b2⟩
    · exact absurd hb (by simp)
    · have hd : d = '\n' := by simpa using hb
      subst hd
      rw [splitLF_append_newline, splitLF_single l hnl]
      exact List.mem_append.mpr (Or.inl (List.mem_cons_self _ _))

theorem splitLF_mem_tail (a l b : List Char) (hnl : '\n' ∉ l)
    (hb : b = [] ∨ b.head? = some '\n') :
    l ∈ (splitLF (a ++ '\n' :: (l ++ b))).tail := by
  induction a with
  | nil =>
    rw [List.nil_append, show splitLF ('\n' :: (l ++ b)) = [] :: splitLF (l ++ b) from rfl]
    simpa using splitLF_mem_head l b hnl hb
  | cons c a2 ih =>
    by_cases hc : c = '\n'
    · subst hc
      rw [List.cons_append,
        show splitLF ('\n' :: (a2 ++ '\n' :: (l ++ b))) =
          [] :: splitLF (a2 ++ '\n' :: (l ++ b)) from rfl]
      simp only [List.tail]
      have h2 := ih
      exact List.mem_of_mem_tail h2
    · rw [List.cons_append, splitLF_cons_ne c _ hc]
      simp only [List.tail]
      exact ih

theorem splitLF_mem_of_tail (s : List Char) (l : List Char)
    (h : l ∈ (splitLF s).tail) : l ∈ splitLF s :=
  List.mem_of_mem_tail h

theorem splitLF_reverse_mem (s l : List Char) (hl : l ∈ splitLF s) :
    l.reverse ∈ splitLF s.reverse := by
  have hnl : '\n' ∉ l := no_newline_in_lines s l hl
  have hnlr : '\n' ∉ l.reverse := by simpa using hnl
  rcases hsp : splitLF s with _ | ⟨h0, t0⟩
  · exact absurd hsp (splitLF_ne_nil s)
  · rw [hsp] at hl
    rcases List.mem_cons.mp hl with h1 | h2
    · obtain ⟨v, hv, hb, _⟩ := splitLF_head_dec s
      rw [hsp] at hv
      simp only [List.headI] at hv
      rw [← h1] at hv
      rcases hb with hb | hb
      · subst hb
        rw [hv, List.append_nil, splitLF_single l.reverse hnlr]
        exact List.mem_cons_self _ _
      · rcases v with _ | ⟨d, v2⟩
        · exact absurd hb (by simp)
        · have hd : d = '\n' := by simpa using hb
          subst hd
          rw [hv]
          rw [show (l ++ '\n' :: v2).reverse = v2.reverse ++ '\n' :: l.reverse by simp]
          have hmt := splitLF_mem_of_tail _ _
            (splitLF_mem_tail v2.reverse l.reverse [] hnlr (Or.inl rfl))
          rw [List.append_nil] at hmt
          exact hmt
    · obtain ⟨u, v, huv, hb⟩ := splitLF_tail_dec s l (by rw [hsp]; simpa using h2)
      rcases hb with hb | hb
      · subst hb
        rw [huv]
        rw [show (u ++ '\n' :: (l ++ [])).reverse = l.reverse ++ '\n' :: u.reverse by simp]
        exact splitLF_mem_head l.reverse ('\n' :: u.reverse) hnlr (Or.inr rfl)
      · rcases v with _ | ⟨d, v2⟩
        · exact absurd hb (by simp)
        · have hd : d = '\n' := by simpa using hb
          subst hd
          rw [huv]
          rw [show (u ++ '\n' :: (l ++ '\n' :: v2)).reverse =
              v2.reverse ++ '\n' :: (l.reverse ++ '\n' :: u.reverse) by simp]
          exact splitLF_mem_of_tail _ _
            (splitLF_mem_tail v2.reverse l.reverse ('\n' :: u.reverse) hnlr (Or.inr rfl))

/-- Line-feed test. -/
def isNl (c : Char) : Bool := c == '\n'

theorem collapseNL3Go_indep (cnt : Nat) (z : List Char)
    (h : ∀ d, z.head? = some d → d ≠ '\n') : collapseNL3Go cnt z = collapseNL3Go 0 z := by
  rcases z with _ | ⟨d, r⟩
  · rfl
  · have hd : d ≠ '\n' := h d rfl
    rw [collapseNL3Go_cons_ne cnt d r hd, collapseNL3Go_cons_ne 0 d r hd]

theorem collapseNL3Go_two_skip (j : Nat) (z : List Char) :
    collapseNL3Go 2 (List.replicate j '\n' ++ z) = collapseNL3Go 2 z := by
  induction j with
  | zero => rfl
  | succ m ih =>
    rw [List.replicate_succ, List.cons_append, collapseNL3Go_nl_ge 2 _ (by omega), ih]

theorem collapseNL3Go_run (k : Nat) (z : List Char)
    (h : ∀ d, z.head? = some d → d ≠ '\n') :
    collapseNL3Go 0 (List.replicate k '\n' ++ z) =
      List.replicate (min k 2) '\n' ++ collapseNL3Go 0 z := by
  match k with
  | 0 => rfl
  | 1 =>
    have h1 : List.replicate 1 '\n' ++ z = '\n' :: z := rfl
    rw [h1, collapseNL3Go_nl_lt 0 z (by omega), collapseNL3Go_indep 1 z h]
    rfl
  | (m + 2) =>
    have h1 : List.replicate (m + 2) '\n' ++ z =
        '\n' :: '\n' :: (List.replicate m '\n' ++ z) := rfl
    have hmin : List.replicate (min (m + 2) 2) '\n' = ['\n', '\n'] := by
      have hm2 : min (m + 2) 2 = 2 := by omega
      rw [hm2]
      rfl
    rw [h1, collapseNL3Go_nl_lt 0 _ (by omega), collapseNL3Go_nl_lt 1 _ (by omega),
      collapseNL3Go_two_skip m z, collapseNL3Go_indep 2 z h, hmin]
    rfl

theorem splitLF_replicate_nl (m : Nat) (z : List Char) :
    splitLF (List.replicate m '\n' ++ z) = List.replicate m [] ++ splitLF z := by
  induction m with
  | zero => rfl
  | succ j ih =>
    rw [List.replicate_succ, List.cons_append,
      show splitLF ('\n' :: (List.replicate j '\n' ++ z)) =
        [] :: splitLF (List.replicate j '\n' ++ z) from rfl, ih, List.replicate_succ]
    rfl

theorem collapseNL3Go_first_line (r : List Char) :
    (splitLF (collapseNL3Go 0 r)).headI = (splitLF r).headI := by
  induction r with
  | nil => rfl
  | cons c rest ih =>
    by_cases hc : c = '\n'
    · subst hc
      rw [collapseNL3Go_nl_lt 0 rest (by omega)]
      rfl
    · rw [collapseNL3Go_cons_ne 0 c rest hc, splitLF_cons_ne c _ hc, splitLF_cons_ne c rest hc]
      simp only [List.headI]
      show c :: (splitLF (collapseNL3Go 0 rest)).headI = c :: (splitLF rest).headI
      rw [ih]

theorem headI_mem_splitLF (s : List Char) : (splitLF s).headI ∈ splitLF s := by
  rcases hsp : splitLF s with _ | ⟨h0, t0⟩
  · exact absurd hsp (splitLF_ne_nil s)
  · simp

theorem collapseNL3_lines_tail (s : List Char) :
    ∀ l, l ≠ [] → l ∈ (splitLF (collapseNL3Go 0 s)).tail → l ∈ (splitLF s).tail := by
  generalize hn : s.length = n
  induction n using Nat.strong_induction_on generalizing s with
  | _ n ih =>
    intro l hlne hl
    rcases s with _ | ⟨c, rest⟩
    · simp [collapseNL3Go, splitLF] at hl
    · by_cases hc : c = '\n'
      · subst hc
        have hk : ('\n' :: rest).takeWhile isNl =
            List.replicate (('\n' :: rest).takeWhile isNl).length '\n' := by
          have : ∀ b ∈ ('\n' :: rest).takeWhile isNl, b = '\n' := by
            intro b hb
            have := List.mem_takeWhile_imp hb
            simpa [isNl] using this
          exact List.eq_replicate_of_mem this
        set k := (('\n' :: rest).takeWhile isNl).length with hkdef
        set z := ('\n' :: rest).dropWhile isNl with hzdef
        have hsplit : '\n' :: rest = List.replicate k '\n' ++ z := by
          rw [hzdef, hkdef, ← hk]
          exact (List.takeWhile_append_dropWhile _ _).symm
        have hzhead : ∀ d, z.head? = some d → d ≠ '\n' := by
          intro d hd
          have := dropWhile_head_not isNl _ _ hd
          simpa [isNl] using this
        have hkpos : 1 ≤ k := by
          rw [hkdef]
          have : ('\n' :: rest).takeWhile isNl = '\n' :: rest.takeWhile isNl := by
            rw [List.takeWhile_cons, if_pos (by simp [isNl])]
          rw [this]
          simp
        have hzlen : z.length < ('\n' :: rest).length := by
          have := congrArg List.length hsplit
          simp only [List.length_append, List.length_replicate] at this
          simp only [List.length_cons] at this ⊢
          omega
        rw [hsplit] at hl ⊢
        rw [collapseNL3Go_run k z hzhead, splitLF_replicate_nl] at hl
        rw [splitLF_replicate_nl]
        have hmin : 1 ≤ min k 2 := by omega
        have hl2 : l ∈ List.replicate (min k 2 - 1) ([] : List Char) ++
            splitLF (collapseNL3Go 0 z) := by
          rcases hm : min k 2 with _ | m2
          · omega
          · rw [hm] at hl
            rw [List.replicate_succ, List.cons_append] at hl
            simpa using hl
        have hl3 : l ∈ splitLF (collapseNL3Go 0 z) := by
          rcases List.mem_append.mp hl2 with h1 | h2
          · exact absurd (List.eq_of_mem_replicate h1) hlne
          · exact h2
        have hl4 : l ∈ splitLF z := by
          rcases hsp : splitLF (collapseNL3Go 0 z) with _ | ⟨h0, t0⟩
          · exact absurd hsp (splitLF_ne_nil _)
          · rw [hsp] at hl3
            rcases List.mem_cons.mp hl3 with h1 | h2
            · have : (splitLF (collapseNL3Go 0 z)).headI = (splitLF z).headI :=
                collapseNL3Go_first_line z
              rw [hsp] at this
              simp only [List.headI] at this
              rw [h1, this]
              exact headI_mem_splitLF z
            · have htl : l ∈ (splitLF (collapseNL3Go 0 z)).tail := by
                rw [hsp]; simpa using h2
              exact splitLF_mem_of_tail _ _
                (ih z.length (by omega) z rfl l hlne htl)
        obtain ⟨k1, hk1⟩ : ∃ k1, k = k1 + 1 := ⟨k - 1, by omega⟩
        rw [hk1, List.replicate_succ, List.cons_append]
        simp only [List.tail]
        exact List.mem_append.mpr (Or.inr hl4)
      · rw [collapseNL3Go_cons_ne 0 c rest hc, splitLF_cons_ne c _ hc] at hl
        simp only [List.tail] at hl
        rw [splitLF_cons_ne c rest hc]
        simp only [List.tail]
        exact ih rest.length (by simp [← hn]) rest rfl l hlne hl

theorem collapseNL3_lines (s : List Char) (l : List Char) (hlne : l ≠ [])
    (hl : l ∈ splitLF (collapseNL3 s)) : l ∈ splitLF s := by
  rw [collapseNL3] at hl
  rcases hsp : splitLF (collapseNL3Go 0 s) with _ | ⟨h0, t0⟩
  · exact absurd hsp (splitLF_ne_nil _)
  · rw [hsp] at hl
    rcases List.mem_cons.mp hl with h1 | h2
    · have hfl := collapseNL3Go_first_line s
      rw [hsp] at hfl
      simp only [List.headI] at hfl
      rw [h1, hfl]
      exact headI_mem_splitLF s
    · have htl : l ∈ (splitLF (collapseNL3Go 0 s)).tail := by
        rw [hsp]; simpa using h2
      exact splitLF_mem_of_tail _ _ (collapseNL3_lines_tail s l hlne htl)

theorem dropWhile_nl_lines (s : List Char) (l : List Char)
    (hl : l ∈ splitLF (s.dropWhile isNl)) : l ∈ splitLF s := by
  induction s with
  | nil => simpa using hl
  | cons c rest ih =>
    by_cases hc : c = '\n'
    · subst hc
      rw [List.dropWhile_cons, if_pos (by simp [isNl])] at hl
      rw [show splitLF ('\n' :: rest) = [] :: splitLF rest from rfl]
      exact List.mem_cons_of_mem _ (ih hl)
    · rw [List.dropWhile_cons, if_neg (by simp [isNl, hc])] at hl
      exact hl

theorem dropWhile_ws_eq_nl (s : List Char)
    (hpair : ∀ w, isJsWhitespace w = true → w ≠ '\n' → hasSub ['\n', w] s = false)
    (hhead : ∀ c, s.head? = some c → isJsWhitespace c = false ∨ c = '\n') :
    s.dropWhile isJsWhitespace = s.dropWhile isNl := by
  induction s with
  | nil => rfl
  | cons c rest ih =>
    by_cases hc : c = '\n'
    · subst hc
      rw [List.dropWhile_cons, List.dropWhile_cons, if_pos (by decide),
        if_pos (by simp [isNl])]
      refine ih ?_ ?_
      · intro w hw hwn
        exact hasSub_cons_false _ _ _ (hpair w hw hwn)
      · intro d hd
        rcases hws : isJsWhitespace d with _ | _
        · exact Or.inl rfl
        · by_cases hdn : d = '\n'
          · exact Or.inr hdn
          · have := hpair d hws hdn
            rcases rest with _ | ⟨e, r2⟩
            · exact absurd hd (by simp)
            · have hde : e = d := by simpa using hd
              rw [show hasSub ['\n', d] ('\n' :: e :: r2) =
                  (isPre ['\n', d] ('\n' :: e :: r2) || hasSub ['\n', d] (e :: r2))
                  from rfl] at this
              rw [hde] at this
              simp [isPre] at this
    · rcases hhead c rfl with h1 | h1
      · rw [List.dropWhile_cons, List.dropWhile_cons, if_neg (by simp [h1]),
          if_neg (by simp [isNl, hc])]
      · exact absurd h1 hc

theorem stripTrailWs_head (s : List Char) :
    (stripTrailWs s).head? = s.head? ∨ (stripTrailWs s).head? = some '\n' := by
  rcases s with _ | ⟨c, rest⟩
  · exact Or.inl rfl
  · rw [stripTrailWs]
    by_cases h : (c = ' ' ∨ c = '\t') ∧ (stripTrailWs rest).head? = some '\n'
    · rw [if_pos h]
      exact Or.inr h.2
    · rw [if_neg h]
      exact Or.inl rfl

theorem stripTrailWs_chars (s : List Char) : ∀ c ∈ stripTrailWs s, c ∈ s := by
  induction s with
  | nil => simp [stripTrailWs]
  | cons d rest ih =>
    intro c hc
    rw [stripTrailWs] at hc
    by_cases h : (d = ' ' ∨ d = '\t') ∧ (stripTrailWs rest).head? = some '\n'
    · rw [if_pos h] at hc
      exact List.mem_cons_of_mem _ (ih c hc)
    · rw [if_neg h] at hc
      rcases List.mem_cons.mp hc with h1 | h2
      · rw [h1]; exact List.mem_cons_self _ _
      · exact List.mem_cons_of_mem _ (ih c h2)

theorem stripTrailWs_pair (a b : Char) (hb : b ≠ '\n') (s : List Char)
    (h : hasSub [a, b] (stripTrailWs s) = true) : hasSub [a, b] s = true := by
  induction s with
  | nil => exact absurd h (by simp [stripTrailWs, hasSub, isPre])
  | cons c rest ih =>
    rw [stripTrailWs] at h
    by_cases hdel : (c = ' ' ∨ c = '\t') ∧ (stripTrailWs rest).head? = some '\n'
    · rw [if_pos hdel] at h
      exact hasSub_cons_of _ _ _ (ih h)
    · rw [if_neg hdel] at h
      rw [show hasSub [a, b] (c :: stripTrailWs rest) =
          (isPre [a, b] (c :: stripTrailWs rest) || hasSub [a, b] (stripTrailWs rest))
          from rfl] at h
      rcases Bool.or_eq_true _ _ |>.mp h with h1 | h2
      · obtain ⟨v, hv⟩ := (isPre_iff _ _).mp h1
        have hca : c = a := (List.cons_eq_cons.mp hv).1
        have hhead : (stripTrailWs rest).head? = some b := by
          rw [(List.cons_eq_cons.mp hv).2]
          rfl
        have hrh : rest.head? = some b := by
          rcases stripTrailWs_head rest with hh | hh
          · rw [← hh]; exact hhead
          · rw [hh] at hhead
            have hbn : b = '\n' := by simpa using hhead.symm
            exact absurd hbn hb
        rcases rest with _ | ⟨d, r2⟩
        · exact absurd hrh (by simp)
        · have hd : d = b := by simpa using hrh
          refine (hasSub_iff _ _).mpr ⟨[], r2, ?_⟩
          rw [hca, hd]
          rfl
      · exact hasSub_cons_of _ _ _ (ih h2)

theorem normNewlines_head (s : List Char) (b : Char) (hb : b ≠ '\n')
    (h : (normNewlines s).head? = some b) : s.head? = some b := by
  rcases s with _ | ⟨c, rest⟩
  · exact absurd h (by simp [normNewlines])
  · by_cases hc : c = '\r'
    · subst hc
      rcases rest with _ | ⟨d, r2⟩
      · rw [show normNewlines ['\r'] = ['\n'] from rfl] at h
        have hbn : b = '\n' := by simpa using h.symm
        exact absurd hbn hb
      · by_cases hd : d = '\n'
        · subst hd
          rw [show normNewlines ('\r' :: '\n' :: r2) = '\n' :: normNewlines r2 from rfl] at h
          have hbn : b = '\n' := by simpa using h.symm
          exact absurd hbn hb
        · rw [show normNewlines ('\r' :: d :: r2) = '\n' :: normNewlines (d :: r2) by
            simp [normNewlines, hd]] at h
          have hbn : b = '\n' := by simpa using h.symm
          exact absurd hbn hb
    · rw [normNewlines_cons_ne c rest hc] at h
      exact h

theorem normNewlines_chars (s : List Char) : ∀ c ∈ normNewlines s, c ∈ s ∨ c = '\n' := by
  generalize hn : s.length = n
  induction n using Nat.strong_induction_on generalizing s with
  | _ n ih =>
    intro c hc
    rcases s with _ | ⟨d, rest⟩
    · exact absurd hc (by simp [normNewlines])
    · by_cases hd : d = '\r'
      · subst hd
        rcases rest with _ | ⟨e, r2⟩
        · have : c = '\n' := by simpa [normNewlines] using hc
          exact Or.inr this
        · by_cases he : e = '\n'
          · subst he
            rw [show normNewlines ('\r' :: '\n' :: r2) = '\n' :: normNewlines r2 from rfl] at hc
            rcases List.mem_cons.mp hc with h1 | h2
            · exact Or.inr h1
            · rcases ih r2.length (by simp [← hn]; omega) r2 rfl c h2 with h3 | h3
              · exact Or.inl (by simp [h3])
              · exact Or.inr h3
          · rw [show normNewlines ('\r' :: e :: r2) = '\n' :: normNewlines (e :: r2) by
              simp [normNewlines, he]] at hc
            rcases List.mem_cons.mp hc with h1 | h2
            · exact Or.inr h1
            · rcases ih (e :: r2).length (by simp [← hn]) (e :: r2) rfl c h2 with h3 | h3
              · exact Or.inl (List.mem_cons_of_mem _ h3)
              · exact Or.inr h3
      · rw [normNewlines_cons_ne d rest hd] at hc
        rcases List.mem_cons.mp hc with h1 | h2
        · exact Or.inl (by simp [h1])
        · rcases ih rest.length (by simp [← hn]) rest rfl c h2 with h3 | h3
          · exact Or.inl (List.mem_cons_of_mem _ h3)
          · exact Or.inr h3

theorem normNewlines_pair (a b : Char) (ha : a ≠ '\n') (hb : b ≠ '\n') (s : List Char)
    (h : hasSub [a, b] (normNewlines s) = true) : hasSub [a, b] s = true := by
  generalize hn : s.length = n
  induction n using Nat.strong_induction_on generalizing s with
  | _ n ih =>
    rcases s with _ | ⟨c, rest⟩
    · exact absurd h (by simp [normNewlines, hasSub, isPre])
    · by_cases hc : c = '\r'
      · subst hc
        have hstep : ∃ r2 : List Char, normNewlines ('\r' :: rest) = '\n' :: normNewlines r2 ∧
            (r2 = rest ∨ ∃ x, rest = x :: r2) := by
          rcases rest with _ | ⟨e, r2⟩
          · exact ⟨[], rfl, Or.inl rfl⟩
          · by_cases he : e = '\n'
            · subst he
              exact ⟨r2, rfl, Or.inr ⟨'\n', rfl⟩⟩
            · exact ⟨e :: r2, by simp [normNewlines, he], Or.inl rfl⟩
        obtain ⟨r2, hr2, hrel⟩ := hstep
        rw [hr2] at h
        rw [show hasSub [a, b] ('\n' :: normNewlines r2) =
            (isPre [a, b] ('\n' :: normNewlines r2) || hasSub [a, b] (normNewlines r2))
            from rfl] at h
        rcases Bool.or_eq_true _ _ |>.mp h with h1 | h2
        · obtain ⟨v, hv⟩ := (isPre_iff _ _).mp h1
          exact absurd (List.cons_eq_cons.mp hv).1.symm ha
        · rcases hrel with hrel | ⟨x, hrel⟩
          · subst hrel
            exact hasSub_cons_of _ _ _
              (ih r2.length (by simp [← hn]) r2 h2 rfl)
          · rw [hrel]
            refine hasSub_cons_of _ _ _ (hasSub_cons_of _ _ _ ?_)
            refine ih r2.length ?_ r2 h2 rfl
            rw [← hn, hrel]
            simp
            omega
      · rw [normNewlines_cons_ne c rest hc] at h
        rw [show hasSub [a, b] (c :: normNewlines rest) =
            (isPre [a, b] (c :: normNewlines rest) || hasSub [a, b] (normNewlines rest))
            from rfl] at h
        rcases Bool.or_eq_true _ _ |>.mp h with h1 | h2
        · obtain ⟨v, hv⟩ := (isPre_iff _ _).mp h1
          have hca : c = a := (List.cons_eq_cons.mp hv).1
          have hhead : (normNewlines rest).head? = some b := by
            rw [(List.cons_eq_cons.mp hv).2]
            rfl
          have hrh : rest.head? = some b := normNewlines_head rest b hb hhead
          rcases rest with _ | ⟨d, r2⟩
          · exact absurd hrh (by simp)
          · have hd : d = b := by simpa using hrh
            refine (hasSub_iff _ _).mpr ⟨[], r2, ?_⟩
            rw [hca, hd]
            rfl
        · exact hasSub_cons_of _ _ _ (ih rest.length (by simp [← hn]) rest h2 rfl)

theorem normNewlines_no_cr (s : List Char) : '\r' ∉ normNewlines s := by
  generalize hn : s.length = n
  induction n using Nat.strong_induction_on generalizing s with
  | _ n ih =>
    rcases s with _ | ⟨d, rest⟩
    · simp [normNewlines]
    · by_cases hd : d = '\r'
      · subst hd
        rcases rest with _ | ⟨e, r2⟩
        · simp [normNewlines]
        · by_cases he : e = '\n'
          · subst he
            rw [show normNewlines ('\r' :: '\n' :: r2) = '\n' :: normNewlines r2 from rfl]
            intro hc
            rcases List.mem_cons.mp hc with h1 | h2
            · exact absurd h1.symm (by decide)
            · exact ih r2.length (by simp [← hn]; omega) r2 rfl h2
          · rw [show normNewlines ('\r' :: e :: r2) = '\n' :: normNewlines (e :: r2) by
              simp [normNewlines, he]]
            intro hc
            rcases List.mem_cons.mp hc with h1 | h2
            · exact absurd h1.symm (by decide)
            · exact ih (e :: r2).length (by simp [← hn]) (e :: r2) rfl h2
      · rw [normNewlines_cons_ne d rest hd]
        intro hc
        rcases List.mem_cons.mp hc with h1 | h2
        · exact absurd h1.symm hd
        · exact ih rest.length (by simp [← hn]) rest rfl h2

theorem collapseNL3Go_head (s : List Char) : (collapseNL3Go 0 s).head? = s.head? := by
  rcases s with _ | ⟨c, rest⟩
  · rfl
  · by_cases hc : c = '\n'
    · subst hc
      rw [collapseNL3Go_nl_lt 0 rest (by omega)]
      rfl
    · rw [collapseNL3Go_cons_ne 0 c rest hc]
      rfl

theorem hasSub_reverse_imp (a b : Char) (s : List Char)
    (h : hasSub [a, b] s.reverse = true) : hasSub [b, a] s = true := by
  obtain ⟨u, v, huv⟩ := (hasSub_iff _ _).mp h
  have hs : s = v.reverse ++ [b, a] ++ u.reverse := by
    have h2 := congrArg List.reverse huv
    simpa using h2
  exact (hasSub_iff _ _).mpr ⟨v.reverse, u.reverse, hs⟩

theorem hasSub_dropWhile (pat : List Char) (p : Char → Bool) (s : List Char)
    (h : hasSub pat s = false) : hasSub pat (s.dropWhile p) = false := by
  refine hasSub_false_of_infix pat _ s ⟨s.takeWhile p, [], ?_⟩ h
  rw [List.append_nil, List.takeWhile_append_dropWhile]

theorem line_infix (s l : List Char) (hl : l ∈ splitLF s) : ∃ a b, s = a ++ l ++ b := by
  rcases hsp : splitLF s with _ | ⟨h0, t0⟩
  · exact absurd hsp (splitLF_ne_nil s)
  · rw [hsp] at hl
    rcases List.mem_cons.mp hl with h1 | h2
    · obtain ⟨v, hv, _, _⟩ := splitLF_head_dec s
      rw [hsp] at hv
      subst h1
      exact ⟨[], v, by simpa using hv⟩
    · have h3 : l ∈ (splitLF s).tail := by rw [hsp]; exact h2
      obtain ⟨u, v, huv, _⟩ := splitLF_tail_dec s l h3
      exact ⟨u ++ ['\n'], v, by simp [huv]⟩

theorem joinNL_head (L : List (List Char)) (c : Char)
    (h : (joinNL L).head? = some c) : c = '\n' ∨ ∃ l ∈ L, l.head? = some c := by
  induction L with
  | nil => exact absurd h (by simp [joinNL])
  | cons l ls ih =>
    rcases ls with _ | ⟨l2, ls2⟩
    · exact Or.inr ⟨l, by simp, h⟩
    · rw [joinNL_cons_of_ne l (l2 :: ls2) (by simp)] at h
      rcases l with _ | ⟨d, dr⟩
      · have hc : c = '\n' := by simpa using h.symm
        exact Or.inl hc
      · exact Or.inr ⟨d :: dr, by simp, by simpa using h⟩

theorem joinNL_getLast (L : List (List Char)) (c : Char)
    (h : (joinNL L).getLast? = some c) : c = '\n' ∨ ∃ l ∈ L, l.getLast? = some c := by
  induction L with
  | nil => exact absurd h (by simp [joinNL])
  | cons l ls ih =>
    rcases ls with _ | ⟨l2, ls2⟩
    · exact Or.inr ⟨l, by simp, h⟩
    · rw [joinNL_cons_of_ne l (l2 :: ls2) (by simp)] at h
      rw [List.getLast?_append_of_ne_nil _ (by simp)] at h
      rcases hj : joinNL (l2 :: ls2) with _ | ⟨e, er⟩
      · rw [hj] at h
        have hc : c = '\n' := by simpa using h.symm
        exact Or.inl hc
      · rw [hj] at h
        have h2 : (joinNL (l2 :: ls2)).getLast? = some c := by
          rw [hj]
          rw [show ('\n' :: e :: er).getLast? = (e :: er).getLast? by
            rw [List.getLast?_cons_cons]] at h
          exact h
        rcases ih h2 with h3 | ⟨l3, hl3, hl3c⟩
        · exact Or.inl h3
        · exact Or.inr ⟨l3, List.mem_cons_of_mem _ hl3, hl3c⟩

theorem joinNL_pair (a b : Char) (ha : a ≠ '\n') (hb : b ≠ '\n') (L : List (List Char))
    (hnl : ∀ l ∈ L, '\n' ∉ l)
    (h : hasSub [a, b] (joinNL L) = true) : ∃ l ∈ L, hasSub [a, b] l = true := by
  induction L with
  | nil => exact absurd h (by simp [joinNL, hasSub, isPre])
  | cons l ls ih =>
    rcases ls with _ | ⟨l2, ls2⟩
    · exact ⟨l, by simp, h⟩
    · rw [joinNL_cons_of_ne l (l2 :: ls2) (by simp)] at h
      rcases (hasSub_pair_append a b l ('\n' :: joinNL (l2 :: ls2))).mp h with h1 | h2 | ⟨h3, h4⟩
      · exact ⟨l, by simp, h1⟩
      · rw [show hasSub [a, b] ('\n' :: joinNL (l2 :: ls2)) =
            (isPre [a, b] ('\n' :: joinNL (l2 :: ls2)) || hasSub [a, b] (joinNL (l2 :: ls2)))
            from rfl] at h2
        rcases Bool.or_eq_true _ _ |>.mp h2 with h5 | h6
        · obtain ⟨v, hv⟩ := (isPre_iff _ _).mp h5
          exact absurd (List.cons_eq_cons.mp hv).1.symm ha
        · obtain ⟨l3, hl3, hl3s⟩ :=
            ih (fun l' hl' => hnl l' (List.mem_cons_of_mem _ hl')) h6
          exact ⟨l3, List.mem_cons_of_mem _ hl3, hl3s⟩
      · have hbn : b = '\n' := by simpa using h4.symm
        exact absurd hbn hb

theorem joinNL_nl_fst (w : Char) (hw : w ≠ '\n') (L : List (List Char))
    (hnl : ∀ l ∈ L, '\n' ∉ l)
    (h : hasSub ['\n', w] (joinNL L) = true) : ∃ l ∈ L, l.head? = some w := by
  induction L with
  | nil => exact absurd h (by simp [joinNL, hasSub, isPre])
  | cons l ls ih =>
    rcases ls with _ | ⟨l2, ls2⟩
    · exact absurd (mem_of_hasSub _ _ h '\n' (by simp)) (hnl l (by simp))
    · rw [joinNL_cons_of_ne l (l2 :: ls2) (by simp)] at h
      rcases (hasSub_pair_append '\n' w l ('\n' :: joinNL (l2 :: ls2))).mp h
        with h1 | h2 | ⟨h3, h4⟩
      · exact absurd (mem_of_hasSub _ _ h1 '\n' (by simp)) (hnl l (by simp))
      · rw [show hasSub ['\n', w] ('\n' :: joinNL (l2 :: ls2)) =
            (isPre ['\n', w] ('\n' :: joinNL (l2 :: ls2)) ||
              hasSub ['\n', w] (joinNL (l2 :: ls2)))
            from rfl] at h2
        rcases Bool.or_eq_true _ _ |>.mp h2 with h5 | h6
        · obtain ⟨v, hv⟩ := (isPre_iff _ _).mp h5
          have hhd : (joinNL (l2 :: ls2)).head? = some w := by
            rw [(List.cons_eq_cons.mp hv).2]
            rfl
          rcases joinNL_head (l2 :: ls2) w hhd with h7 | ⟨l3, hl3, hl3h⟩
          · exact absurd h7 hw
          · exact ⟨l3, List.mem_cons_of_mem _ hl3, hl3h⟩
        · obtain ⟨l3, hl3, hl3h⟩ :=
            ih (fun l' hl' => hnl l' (List.mem_cons_of_mem _ hl')) h6
          exact ⟨l3, List.mem_cons_of_mem _ hl3, hl3h⟩
      · have hrev : l.reverse.head? = some '\n' := by
          rw [List.head?_reverse]
          exact h3
        have : '\n' ∈ l := List.mem_reverse.mp (head?_eq_some_mem _ _ hrev)
        exact absurd this (hnl l (by simp))

theorem joinNL_nl_snd (w : Char) (hw : w ≠ '\n') (L : List (List Char))
    (hnl : ∀ l ∈ L, '\n' ∉ l)
    (h : hasSub [w, '\n'] (joinNL L) = true) : ∃ l ∈ L, l.getLast? = some w := by
  induction L with
  | nil => exact absurd h (by simp [joinNL, hasSub, isPre])
  | cons l ls ih =>
    rcases ls with _ | ⟨l2, ls2⟩
    · exact absurd (mem_of_hasSub _ _ h '\n' (by simp)) (hnl l (by simp))
    · rw [joinNL_cons_of_ne l (l2 :: ls2) (by simp)] at h
      rcases (hasSub_pair_append w '\n' l ('\n' :: joinNL (l2 :: ls2))).mp h
        with h1 | h2 | ⟨h3, h4⟩
      · exact absurd (mem_of_hasSub _ _ h1 '\n' (by simp)) (hnl l (by simp))
      · rw [show hasSub [w, '\n'] ('\n' :: joinNL (l2 :: ls2)) =
            (isPre [w, '\n'] ('\n' :: joinNL (l2 :: ls2)) ||
              hasSub [w, '\n'] (joinNL (l2 :: ls2)))
            from rfl] at h2
        rcases Bool.or_eq_true _ _ |>.mp h2 with h5 | h6
        · obtain ⟨v, hv⟩ := (isPre_iff _ _).mp h5
          exact absurd (List.cons_eq_cons.mp hv).1.symm hw
        · obtain ⟨l3, hl3, hl3g⟩ :=
            ih (fun l' hl' => hnl l' (List.mem_cons_of_mem _ hl')) h6
          exact ⟨l3, List.mem_cons_of_mem _ hl3, hl3g⟩
      · exact ⟨l, by simp, h3⟩

theorem cleanLineFilter_some (line l : List Char) (h : cleanLineFilter line = some l) :
    l = jsTrim line := by
  rw [cleanLineFilter] at h
  by_cases h1 : jsTrim line = []
  · rw [if_pos h1] at h
    rw [h1]
    exact (Option.some.inj h).symm
  · rw [if_neg h1] at h
    by_cases h2 : (jsTrim line).map Char.toLower = sourcesChars ∨
        (jsTrim line).map Char.toLower = thoughtChars
    · rw [if_pos h2] at h
      exact absurd h (by simp)
    · rw [if_neg h2] at h
      by_cases h3 : isDigits1to3 (jsTrim line) = true
      · rw [if_pos h3] at h
        exact absurd h (by simp)
      · rw [if_neg h3] at h
        by_cases h4 : wholeDomain (jsTrim line) = true
        · rw [if_pos h4] at h
          exact absurd h (by simp)
        · rw [if_neg h4] at h
          exact (Option.some.inj h).symm

theorem cleanLineFilter_stable (line l : List Char) (h : cleanLineFilter line = some l) :
    cleanLineFilter l = some l := by
  have hl : l = jsTrim line := cleanLineFilter_some line l h
  subst hl
  by_cases h1 : jsTrim line = []
  · rw [h1]
    rfl
  · rw [cleanLineFilter] at h
    rw [if_neg h1] at h
    have h2 : ¬((jsTrim line).map Char.toLower = sourcesChars ∨
        (jsTrim line).map Char.toLower = thoughtChars) := by
      intro hcon
      rw [if_pos hcon] at h
      exact absurd h (by simp)
    rw [if_neg h2] at h
    have h3 : ¬(isDigits1to3 (jsTrim line) = true) := by
      intro hcon
      rw [if_pos hcon] at h
      exact absurd h (by simp)
    rw [if_neg h3] at h
    have h4 : ¬(wholeDomain (jsTrim line) = true) := by
      intro hcon
      rw [if_pos hcon] at h
      exact absurd h (by simp)
    rw [cleanLineFilter]
    have hidem := jsTrim_idem line
    rw [hidem, if_neg h1, if_neg h2, if_neg h3, if_neg h4]

theorem filterMap_id_of (L : List (List Char))
    (h : ∀ l ∈ L, cleanLineFilter l = some l) :
    L.filterMap cleanLineFilter = L := by
  induction L with
  | nil => rfl
  | cons l ls ih =>
    rw [List.filterMap_cons, h l (by simp),
      ih (fun l' hl' => h l' (List.mem_cons_of_mem _ hl'))]

theorem kept_facts (s l : List Char)
    (hl : l ∈ (splitLF s).filterMap cleanLineFilter) :
    '\n' ∉ l ∧
      (∀ c, l.head? = some c → isJsWhitespace c = false) ∧
      (∀ c, l.getLast? = some c → isJsWhitespace c = false) ∧
      (∃ a b, s = a ++ l ++ b) ∧
      cleanLineFilter l = some l := by
  obtain ⟨line, hline, hf⟩ := List.mem_filterMap.mp hl
  have hjl : l = jsTrim line := cleanLineFilter_some line l hf
  obtain ⟨a1, b1, hab1⟩ := jsTrim_infix line
  obtain ⟨a2, b2, hab2⟩ := line_infix s line hline
  have hinfix : ∃ a b, s = a ++ l ++ b := by
    refine ⟨a2 ++ a1, b1 ++ b2, ?_⟩
    subst hjl
    rw [hab2]
    conv_lhs => rw [hab1]
    simp
  refine ⟨?_, ?_, ?_, hinfix, cleanLineFilter_stable line l hf⟩
  · intro hmem
    have hln : '\n' ∈ line := by
      rw [hab1]
      rw [hjl] at hmem
      simp [hmem]
    exact no_newline_in_lines s line hline hln
  · intro c hc
    rw [hjl] at hc
    exact jsTrim_head_not_ws line c hc
  · intro c hc
    rw [hjl] at hc
    exact jsTrim_getLast_not_ws line c hc

theorem cleanGlm_second_pass (K : List (List Char))
    (hK1 : ∀ l ∈ K, '\n' ∉ l)
    (hK2 : ∀ l ∈ K, ∀ c, l.head? = some c → isJsWhitespace c = false)
    (hK3 : ∀ l ∈ K, ∀ c, l.getLast? = some c → isJsWhitespace c = false)
    (hK4 : ∀ l ∈ K, cleanLineFilter l = some l)
    (hK5 : ∀ l ∈ K, '.' ∉ l)
    (hK6 : ∀ l ∈ K, '\t' ∉ l)
    (hK7 : ∀ l ∈ K, hasSub [' ', ' '] l = false)
    (hK8 : ∀ l ∈ K, '\r' ∉ l) :
    cleanGlmMarkdown (jsTrim (collapseNL3 (joinNL K))) =
      jsTrim (collapseNL3 (joinNL K)) := by
  by_cases hKnil : K = []
  · subst hKnil
    decide
  · set w := joinNL K with hw
    set z := collapseNL3 w with hz
    set y := jsTrim z with hyv
    have hyinfix : ∃ a b, z = a ++ y ++ b := by
      obtain ⟨a, b, hab⟩ := jsTrim_infix z
      exact ⟨a, b, by rw [hyv]; exact hab⟩
    have hchar : ∀ c ∈ y, c = '\n' ∨ ∃ l ∈ K, c ∈ l := by
      intro c hc
      obtain ⟨a, b, hab⟩ := hyinfix
      have hcz : c ∈ z := by rw [hab]; simp [hc]
      rw [hz, collapseNL3] at hcz
      have hcw : c ∈ w := collapseNL3Go_chars w 0 c hcz
      rw [hw] at hcw
      exact mem_joinNL c K hcw
    have hnocr : '\r' ∉ y := by
      intro hc
      rcases hchar '\r' hc with h | ⟨l, hl, hcl⟩
      · exact absurd h (by decide)
      · exact hK8 l hl hcl
    have hnodot : '.' ∉ y := by
      intro hc
      rcases hchar '.' hc with h | ⟨l, hl, hcl⟩
      · exact absurd h (by decide)
      · exact hK5 l hl hcl
    have hnotab : '\t' ∉ y := by
      intro hc
      rcases hchar '\t' hc with h | ⟨l, hl, hcl⟩
      · exact absurd h (by decide)
      · exact hK6 l hl hcl
    have hnnn : hasSub ['\n', '\n', '\n'] y = false := by
      refine hasSub_false_of_infix _ y z hyinfix ?_
      rw [hz]
      exact collapseNL3_no_triple w
    have hzsp : hasSub [' ', ' '] z = false := by
      rcases hb : hasSub [' ', ' '] z with _ | _
      · rfl
      · rw [hz, collapseNL3] at hb
        have h2 : hasSub [' ', ' '] w = true :=
          collapseNL3Go_pair_fst ' ' ' ' (by decide) w 0 hb
        rw [hw] at h2
        obtain ⟨l, hl, hls⟩ := joinNL_pair ' ' ' ' (by decide) (by decide) K hK1 h2
        rw [hK7 l hl] at hls
        exact absurd hls (by decide)
    have hysp : hasSub [' ', ' '] y = false :=
      hasSub_false_of_infix _ y z hyinfix hzsp
    have hzwnl : ∀ w', isJsWhitespace w' = true → w' ≠ '\n' →
        hasSub [w', '\n'] z = false := by
      intro w' hws hwn
      rcases hb : hasSub [w', '\n'] z with _ | _
      · rfl
      · rw [hz, collapseNL3] at hb
        have h2 : hasSub [w', '\n'] w = true :=
          collapseNL3Go_pair_fst w' '\n' hwn w 0 hb
        rw [hw] at h2
        obtain ⟨l, hl, hlg⟩ := joinNL_nl_snd w' hwn K hK1 h2
        rw [hK3 l hl w' hlg] at hws
        exact absurd hws (by decide)
    have hznlw : ∀ w', isJsWhitespace w' = true → w' ≠ '\n' →
        hasSub ['\n', w'] z = false := by
      intro w' hws hwn
      rcases hb : hasSub ['\n', w'] z with _ | _
      · rfl
      · rw [hz, collapseNL3] at hb
        have h2 : hasSub ['\n', w'] w = true :=
          collapseNL3Go_pair_snd '\n' w' hwn w 0 hb
        rw [hw] at h2
        obtain ⟨l, hl, hlh⟩ := joinNL_nl_fst w' hwn K hK1 h2
        rw [hK2 l hl w' hlh] at hws
        exact absurd hws (by decide)
    have hyspnl : hasSub [' ', '\n'] y = false :=
      hasSub_false_of_infix _ y z hyinfix (hzwnl ' ' (by decide) (by decide))
    have hytabnl : hasSub ['\t', '\n'] y = false := by
      rcases hb : hasSub ['\t', '\n'] y with _ | _
      · rfl
      · exact absurd (mem_of_hasSub _ _ hb '\t' (by simp)) hnotab
    have hE1 : z.dropWhile isJsWhitespace = z.dropWhile isNl := by
      refine dropWhile_ws_eq_nl z (fun w' hws hwn => hznlw w' hws hwn) ?_
      intro c hc
      rw [hz, collapseNL3] at hc
      rw [collapseNL3Go_head w] at hc
      rw [hw] at hc
      rcases joinNL_head K c hc with h | ⟨l, hl, hlh⟩
      · exact Or.inr h
      · exact Or.inl (hK2 l hl c hlh)
    set z1 := z.dropWhile isNl with hz1
    have hE2 : z1.reverse.dropWhile isJsWhitespace = z1.reverse.dropWhile isNl := by
      refine dropWhile_ws_eq_nl z1.reverse ?_ ?_
      · intro w' hws hwn
        rcases hb : hasSub ['\n', w'] z1.reverse with _ | _
        · rfl
        · have h2 : hasSub [w', '\n'] z1 = true := hasSub_reverse_imp '\n' w' z1 hb
          have h3 : hasSub [w', '\n'] z1 = false := by
            rw [hz1]
            exact hasSub_dropWhile _ _ _ (hzwnl w' hws hwn)
          rw [h3] at h2
          exact absurd h2 (by decide)
      · intro c hc
        rw [List.head?_reverse] at hc
        have hz1ne : z1 ≠ [] := by
          intro hnil
          rw [hnil] at hc
          exact absurd hc (by simp)
        rw [hz1] at hc hz1ne
        rw [dropWhile_getLast isNl z hz1ne] at hc
        rw [hz, collapseNL3] at hc
        rcases collapseNL3Go_getLast w 0 with h3 | h3 | h3
        · rw [h3] at hc
          exact absurd hc (by simp)
        · rw [h3] at hc
          rw [hw] at hc
          rcases joinNL_getLast K c hc with h4 | ⟨l, hl, hlg⟩
          · exact Or.inr h4
          · exact Or.inl (hK3 l hl c hlg)
        · rw [h3] at hc
          exact Or.inr (Option.some.inj hc).symm
    have hlines : ∀ l ∈ splitLF y, cleanLineFilter l = some l := by
      intro l' hl'
      have hyform : y = (z1.reverse.dropWhile isNl).reverse := by
        rw [hyv, jsTrim, hE1, hE2]
      rw [hyform] at hl'
      have h1 : l'.reverse ∈ splitLF (z1.reverse.dropWhile isNl) := by
        have h0 := splitLF_reverse_mem _ l' hl'
        rwa [List.reverse_reverse] at h0
      have h2 : l'.reverse ∈ splitLF z1.reverse := dropWhile_nl_lines _ _ h1
      have h3 : l' ∈ splitLF z1 := by
        have h0 := splitLF_reverse_mem _ _ h2
        rwa [List.reverse_reverse, List.reverse_reverse] at h0
      have h4 : l' ∈ splitLF z := by
        rw [hz1] at h3
        exact dropWhile_nl_lines _ _ h3
      by_cases hl'nil : l' = []
      · rw [hl'nil]
        rfl
      · rw [hz] at h4
        have h5 : l' ∈ splitLF w := collapseNL3_lines w l' hl'nil h4
        rw [hw, splitLF_joinNL_of_no_newline K hKnil hK1] at h5
        exact hK4 l' h5
    have hfm : (splitLF y).filterMap cleanLineFilter = splitLF y :=
      filterMap_id_of _ hlines
    rw [cleanGlmMarkdown]
    rw [normNewlines_id y hnocr, stripTrailWs_id y hyspnl hytabnl,
      collapseNL3_id y hnnn, hfm, joinNL_splitLF y, replaceDom_id y hnodot,
      collapseSp_id y hnotab hysp, collapseNL3_id y hnnn, hyv, jsTrim_idem z]

/-- C2 (amended): on input without periods, tabs or adjacent spaces,
`cleanGlmMarkdown` is idempotent.  (The unamended claim is refuted by
`cleanGlmMarkdown_not_idempotent`: collapsing interior whitespace can create
a boilerplate phrase that only the second pass drops.) -/
theorem cleanGlmMarkdown_idem (x : List Char)
    (hdot : '.' ∉ x) (htab : '\t' ∉ x) (hsp : hasSub [' ', ' '] x = false) :
    cleanGlmMarkdown (cleanGlmMarkdown x) = cleanGlmMarkdown x := by
  set n1 := normNewlines x with hn1
  set n2 := stripTrailWs n1 with hn2
  set out1 := collapseNL3 n2 with hout1
  set kept := (splitLF out1).filterMap cleanLineFilter with hkept
  set out2 := joinNL kept with hout2
  have hchar1 : ∀ c ∈ out1, c ∈ x ∨ c = '\n' := by
    intro c hc
    rw [hout1, collapseNL3] at hc
    have h2 : c ∈ n2 := collapseNL3Go_chars n2 0 c hc
    rw [hn2] at h2
    have h3 : c ∈ n1 := stripTrailWs_chars n1 c h2
    rw [hn1] at h3
    exact normNewlines_chars x c h3
  have hnocr1 : '\r' ∉ out1 := by
    intro hc
    rw [hout1, collapseNL3] at hc
    have h2 : '\r' ∈ n2 := collapseNL3Go_chars n2 0 _ hc
    rw [hn2] at h2
    have h3 : '\r' ∈ n1 := stripTrailWs_chars n1 _ h2
    rw [hn1] at h3
    exact normNewlines_no_cr x h3
  have hsp1 : hasSub [' ', ' '] out1 = false := by
    rcases hb : hasSub [' ', ' '] out1 with _ | _
    · rfl
    · rw [hout1, collapseNL3] at hb
      have h2 := collapseNL3Go_pair_fst ' ' ' ' (by decide) n2 0 hb
      rw [hn2] at h2
      have h3 := stripTrailWs_pair ' ' ' ' (by decide) n1 h2
      rw [hn1] at h3
      have h4 := normNewlines_pair ' ' ' ' (by decide) (by decide) x h3
      rw [hsp] at h4
      exact absurd h4 (by decide)
  have hKfacts : ∀ l ∈ kept, '\n' ∉ l ∧
      (∀ c, l.head? = some c → isJsWhitespace c = false) ∧
      (∀ c, l.getLast? = some c → isJsWhitespace c = false) ∧
      (∃ a b, out1 = a ++ l ++ b) ∧
      cleanLineFilter l = some l := by
    intro l hl
    rw [hkept] at hl
    exact kept_facts out1 l hl
  have hKchar : ∀ l ∈ kept, ∀ c ∈ l, c ∈ out1 := by
    intro l hl c hc
    obtain ⟨a, b, hab⟩ := (hKfacts l hl).2.2.2.1
    rw [hab]
    simp [hc]
  have hK5 : ∀ l ∈ kept, '.' ∉ l := by
    intro l hl hc
    rcases hchar1 '.' (hKchar l hl '.' hc) with h | h
    · exact hdot h
    · exact absurd h (by decide)
  have hK6 : ∀ l ∈ kept, '\t' ∉ l := by
    intro l hl hc
    rcases hchar1 '\t' (hKchar l hl '\t' hc) with h | h
    · exact htab h
    · exact absurd h (by decide)
  have hK8 : ∀ l ∈ kept, '\r' ∉ l := by
    intro l hl hc
    exact hnocr1 (hKchar l hl '\r' hc)
  have hK7 : ∀ l ∈ kept, hasSub [' ', ' '] l = false := by
    intro l hl
    exact hasSub_false_of_infix _ l out1 ((hKfacts l hl).2.2.2.1) hsp1
  have hdot2 : '.' ∉ out2 := by
    intro hc
    rw [hout2] at hc
    rcases mem_joinNL '.' kept hc with h | ⟨l, hl, hcl⟩
    · exact absurd h (by decide)
    · exact hK5 l hl hcl
  have htab2 : '\t' ∉ out2 := by
    intro hc
    rw [hout2] at hc
    rcases mem_joinNL '\t' kept hc with h | ⟨l, hl, hcl⟩
    · exact absurd h (by decide)
    · exact hK6 l hl hcl
  have hsp2 : hasSub [' ', ' '] out2 = false := by
    rcases hb : hasSub [' ', ' '] out2 with _ | _
    · rfl
    · rw [hout2] at hb
      obtain ⟨l, hl, hls⟩ := joinNL_pair ' ' ' ' (by decide) (by decide) kept
        (fun l hl => (hKfacts l hl).1) hb
      rw [hK7 l hl] at hls
      exact absurd hls (by decide)
  have hpass1 : cleanGlmMarkdown x = jsTrim (collapseNL3 out2) := by
    rw [cleanGlmMarkdown]
    rw [← hn1, ← hn2, ← hout1, ← hkept, ← hout2]
    rw [replaceDom_id out2 hdot2, collapseSp_id out2 htab2 hsp2]
  rw [hpass1, hout2]
  exact cleanGlm_second_pass kept
    (fun l hl => (hKfacts l hl).1)
    (fun l hl => (hKfacts l hl).2.1)
    (fun l hl => (hKfacts l hl).2.2.1)
    (fun l hl => (hKfacts l hl).2.2.2.2)
    hK5 hK6 hK7 hK8

theorem cleanGlmMarkdown_idem_witness :
    ('.' ∉ ['h', 'i', ' ', 'a', '\n', '\n', '\n', '\n', 'b', '!'] ∧
        '\t' ∉ ['h', 'i', ' ', 'a', '\n', '\n', '\n', '\n', 'b', '!'] ∧
        hasSub [' ', ' '] ['h', 'i', ' ', 'a', '\n', '\n', '\n', '\n', 'b', '!'] = false) ∧
      cleanGlmMarkdown (cleanGlmMarkdown
          ['h', 'i', ' ', 'a', '\n', '\n', '\n', '\n', 'b', '!']) =
        cleanGlmMarkdown ['h', 'i', ' ', 'a', '\n', '\n', '\n', '\n', 'b', '!'] :=
  ⟨⟨by decide, by decide, by decide⟩,
    cleanGlmMarkdown_idem _ (by decide) (by decide) (by decide)⟩

/-- `String.prototype.indexOf(pat, i)` scan step: try positions `i`,
`i + 1`, ... while fuel lasts. -/
def scanIdx (pat s : List Char) : Nat → Nat → Option Nat
  | 0, _ => none
  | fuel + 1, i => if isPre pat (s.drop i) then some i else scanIdx pat s fuel (i + 1)

/-- `s.indexOf(pat, start)` (`none` for `-1`): the least position at or after
`start` where `pat` occurs.  The fuel `s.length + 1 - start` covers every
candidate position up to and including `s.length`. -/
def indexOfFrom (pat s : List Char) (start : Nat) : Option Nat :=
  scanIdx pat s (s.length + 1 - start) start

/-- The needle `'<div dir="ltr" class="'` of the Grok block scanner
(converter-suite.js line 721 and mhtml2md-grok.js line 28). -/
def grokNeedle : List Char :=
  ['<', 'd', 'i', 'v', ' ', 'd', 'i', 'r', '=', '"', 'l', 't', 'r', '"', ' ',
   'c', 'l', 'a', 's', 's', '=', '"']

/-- The opening-tag token `"<div"` counted by the depth scan. -/
def openDivChars : List Char := ['<', 'd', 'i', 'v']

/-- The closing-tag token `"</div>"` counted by the depth scan. -/
def closeDivChars : List Char := ['<', '/', 'd', 'i', 'v', '>']

/-- The attribute terminator `'">'`. -/
def quoteGtChars : List Char := ['"', '>']

/-- The class-attribute marker `"r-imh66m"` selecting message containers. -/
def rImhChars : List Char := ['r', '-', 'i', 'm', 'h', '6', '6', 'm']

/-- The class-attribute marker `"r-1kt6imw"` selecting user turns. -/
def r1ktChars : List Char := ['r', '-', '1', 'k', 't', '6', 'i', 'm', 'w']

/-- The role string `"user"`. -/
def roleUser : List Char := ['u', 's', 'e', 'r']

/-- The role string `"model"`. -/
def roleModel : List Char := ['m', 'o', 'd', 'e', 'l']

/-- The inner balanced-tag loop of `extractGrokBlocks` (converter-suite.js
lines 742-758): from scan position `k` with open `depth`, advance past each
`"<div"` (depth + 1) or `"</div>"` (depth - 1) occurrence, whichever comes
first, until the depth returns to zero; when no more `"</div>"` exists the
position jumps to the end of the string with the depth still open.  Returns
the final `(depth, k)`.  The fuel only bounds the iteration count. -/
def innerScan (s : List Char) : Nat → Nat → Nat → Nat × Nat
  | 0, depth, k => (depth, k)
  | fuel + 1, depth, k =>
      if depth = 0 then (depth, k)
      else
        match indexOfFrom closeDivChars s k with
        | none => (depth, s.length)
        | some nClose =>
            match indexOfFrom openDivChars s k with
            | some nOpen =>
                if nOpen < nClose then innerScan s fuel (depth + 1) (nOpen + 4)
                else innerScan s fuel (depth - 1) (nClose + 6)
            | none => innerScan s fuel (depth - 1) (nClose + 6)

/-- The outer loop of `extractGrokBlocks` (converter-suite.js lines
725-764): find the next needle occurrence, read the class attribute up to
`'">'`, skip containers without the `r-imh66m` marker, otherwise extract the
balanced fragment (dropping the matched `"</div>"` when the depth closed)
and tag it with the `user`/`model` role.  The fuel only bounds the
iteration count; blocks accumulate in reverse. -/
def outerScan (s : List Char) : Nat → Nat → List (List Char × List Char) →
    List (List Char × List Char)
  | 0, _, acc => acc.reverse
  | fuel + 1, pos, acc =>
      match indexOfFrom grokNeedle s pos with
      | none => acc.reverse
      | some i =>
          match indexOfFrom quoteGtChars s i with
          | none => acc.reverse
          | some j =>
              let classAttr := (s.drop (i + grokNeedle.length)).take
                (j - (i + grokNeedle.length))
              if hasSub rImhChars classAttr then
                let dk := innerScan s (s.length + 1) 1 (j + 2)
                let fragment := if dk.1 = 0 then
                    (s.drop (j + 2)).take (dk.2 - 6 - (j + 2))
                  else (s.drop (j + 2)).take (dk.2 - (j + 2))
                let role := if hasSub r1ktChars classAttr then roleUser else roleModel
                outerScan s fuel dk.2 ((role, fragment) :: acc)
              else outerScan s fuel (i + 1) acc

/-- `extractGrokBlocks` (converter-suite.js lines 720-766; identical to
`extractMessageBlocks` of mhtml2md-grok.js lines 27-72).  The outer fuel
`s.length + 2` dominates the iteration count because the scan position
strictly increases. -/
def extractGrokBlocks (s : List Char) : List (List Char × List Char) :=
  outerScan s (s.length + 2) 0 []

theorem isPre_length (pat t : List Char) (h : isPre pat t = true) :
    pat.length ≤ t.length := by
  obtain ⟨v, hv⟩ := (isPre_iff _ _).mp h
  rw [hv]
  simp

theorem scanIdx_none (pat s : List Char) (i₀ : Nat)
    (hall : ∀ j, i₀ ≤ j → isPre pat (s.drop j) = false) :
    ∀ fuel i, i₀ ≤ i → scanIdx pat s fuel i = none := by
  intro fuel
  induction fuel with
  | zero => intro i _; rfl
  | succ f ih =>
    intro i hi
    rw [scanIdx, if_neg (by simp [hall i hi])]
    exact ih (i + 1) (by omega)

theorem indexOfFrom_none (pat s : List Char) (st : Nat)
    (hall : ∀ j, st ≤ j → isPre pat (s.drop j) = false) :
    indexOfFrom pat s st = none :=
  scanIdx_none pat s st hall _ st (le_refl st)

theorem indexOfFrom_step (pat s : List Char) (k : Nat)
    (hfalse : isPre pat (s.drop k) = false) :
    indexOfFrom pat s k = indexOfFrom pat s (k + 1) := by
  by_cases hk : k ≤ s.length
  · rw [indexOfFrom, show s.length + 1 - k = (s.length + 1 - (k + 1)) + 1 by omega,
      scanIdx, if_neg (by simp [hfalse])]
    rfl
  · rw [indexOfFrom, indexOfFrom, show s.length + 1 - k = 0 by omega,
      show s.length + 1 - (k + 1) = 0 by omega]
    rfl

theorem indexOfFrom_found (pat s : List Char) (k : Nat) (rest : List Char)
    (hpat : pat ≠ []) (hdrop : s.drop k = pat ++ rest) :
    indexOfFrom pat s k = some k := by
  have hk : k ≤ s.length := by
    by_contra hgt
    have h0 : s.drop k = [] := List.drop_eq_nil_of_le (by omega)
    rw [h0] at hdrop
    have h2 : pat = [] ∧ rest = [] := by simpa using hdrop.symm
    exact hpat h2.1
  rw [indexOfFrom, show s.length + 1 - k = (s.length - k) + 1 by omega, scanIdx,
    if_pos ((isPre_iff _ _).mpr ⟨rest, hdrop⟩)]

theorem indexOfFrom_skip_nomem (pat : List Char) (p : Char)
    (hpat : pat.head? = some p) (s : List Char) :
    ∀ (seg : List Char) (k : Nat) (rest : List Char),
      s.drop k = seg ++ rest → p ∉ seg →
      indexOfFrom pat s k = indexOfFrom pat s (k + seg.length) := by
  intro seg
  induction seg with
  | nil => intro k rest _ _; rfl
  | cons c seg' ih =>
    intro k rest hdrop hseg
    rcases pat with _ | ⟨p0, pr⟩
    · exact absurd hpat (by simp)
    · have hp0 : p0 = p := by simpa using hpat
      have hfalse : isPre (p0 :: pr) (s.drop k) = false := by
        rw [hdrop]
        have hcp : (p0 == c) = false := by
          have : c ≠ p := fun h => hseg (by simp [h])
          simp [hp0]
          intro h
          exact absurd h.symm this
        rw [show ((c :: seg') ++ rest) = c :: (seg' ++ rest) from rfl]
        rw [show isPre (p0 :: pr) (c :: (seg' ++ rest)) =
          ((p0 == c) && isPre pr (seg' ++ rest)) from rfl, hcp]
        rfl
      rw [indexOfFrom_step _ s k hfalse]
      have hdrop' : s.drop (k + 1) = seg' ++ rest := by
        have h1 : s.drop (k + 1) = (s.drop k).drop 1 := by
          rw [List.drop_drop]
        rw [h1, hdrop]
        rfl
      rw [ih (k + 1) rest hdrop' (fun h => hseg (by simp [h]))]
      have heq : k + 1 + seg'.length = k + (c :: seg').length := by
        simp
        omega
      rw [heq]

theorem scanIdx_some (pat s : List Char) :
    ∀ fuel i₀ i, scanIdx pat s fuel i₀ = some i →
      i₀ ≤ i ∧ isPre pat (s.drop i) = true := by
  intro fuel
  induction fuel with
  | zero => intro i₀ i h; exact absurd h (by simp [scanIdx])
  | succ f ih =>
    intro i₀ i h
    rw [scanIdx] at h
    by_cases hp : isPre pat (s.drop i₀) = true
    · rw [if_pos hp] at h
      have : i₀ = i := by simpa using h
      subst this
      exact ⟨le_refl _, hp⟩
    · rw [if_neg hp] at h
      obtain ⟨h1, h2⟩ := ih (i₀ + 1) i h
      exact ⟨by omega, h2⟩

theorem indexOfFrom_some_bounds (pat s : List Char) (st i : Nat)
    (hpat : pat ≠ []) (h : indexOfFrom pat s st = some i) :
    st ≤ i ∧ i + pat.length ≤ s.length := by
  obtain ⟨h1, h2⟩ := scanIdx_some pat s _ st i h
  obtain ⟨v, hv⟩ := (isPre_iff _ _).mp h2
  have hlen : (s.drop i).length = pat.length + v.length := by rw [hv]; simp
  rw [List.length_drop] at hlen
  have hne : s.drop i ≠ [] := by
    rw [hv]
    intro hnil
    have h2 : pat = [] ∧ v = [] := by simpa using hnil
    exact hpat h2.1
  have hi : i < s.length := by
    by_contra hgt
    exact hne (List.drop_eq_nil_of_le (by omega))
  exact ⟨h1, by omega⟩

theorem innerScan_bounds (s : List Char) :
    ∀ fuel d k, k ≤ s.length →
      k ≤ (innerScan s fuel d k).2 ∧ (innerScan s fuel d k).2 ≤ s.length := by
  intro fuel
  induction fuel with
  | zero => intro d k hk; exact ⟨le_refl _, hk⟩
  | succ f ih =>
    intro d k hk
    rw [innerScan]
    by_cases hd : d = 0
    · rw [if_pos hd]
      exact ⟨le_refl _, hk⟩
    · rw [if_neg hd]
      rcases hcl : indexOfFrom closeDivChars s k with _ | nClose
      · exact ⟨hk, le_refl _⟩
      · obtain ⟨hc1, hc2⟩ := indexOfFrom_some_bounds closeDivChars s k nClose
          (by decide) hcl
        have hc6 : closeDivChars.length = 6 := by decide
        rw [hc6] at hc2
        rcases hop : indexOfFrom openDivChars s k with _ | nOpen
        · dsimp only
          obtain ⟨hr1, hr2⟩ := ih (d - 1) (nClose + 6) (by omega)
          exact ⟨by omega, hr2⟩
        · obtain ⟨ho1, ho2⟩ := indexOfFrom_some_bounds openDivChars s k nOpen
            (by decide) hop
          have ho4 : openDivChars.length = 4 := by decide
          rw [ho4] at ho2
          dsimp only
          by_cases hlt : nOpen < nClose
          · rw [if_pos hlt]
            obtain ⟨hr1, hr2⟩ := ih (d + 1) (nOpen + 4) (by omega)
            exact ⟨by omega, hr2⟩
          · rw [if_neg hlt]
            obtain ⟨hr1, hr2⟩ := ih (d - 1) (nClose + 6) (by omega)
            exact ⟨by omega, hr2⟩

theorem innerScan_fuel_mono (s : List Char) :
    ∀ fuel₁ fuel₂ d k, k ≤ s.length → s.length + 1 ≤ fuel₁ + k →
      s.length + 1 ≤ fuel₂ + k → innerScan s fuel₁ d k = innerScan s fuel₂ d k := by
  intro fuel₁
  induction fuel₁ with
  | zero => intro fuel₂ d k hk h1 _; omega
  | succ f ih =>
    intro fuel₂ d k hk h1 h2
    rcases fuel₂ with _ | f₂
    · omega
    · rw [innerScan, innerScan]
      by_cases hd : d = 0
      · rw [if_pos hd, if_pos hd]
      · rw [if_neg hd, if_neg hd]
        rcases hcl : indexOfFrom closeDivChars s k with _ | nClose
        · rfl
        · obtain ⟨hc1, hc2⟩ := indexOfFrom_some_bounds closeDivChars s k nClose
            (by decide) hcl
          have hc6 : closeDivChars.length = 6 := by decide
          rw [hc6] at hc2
          rcases hop : indexOfFrom openDivChars s k with _ | nOpen
          · exact ih f₂ (d - 1) (nClose + 6) (by omega) (by omega) (by omega)
          · obtain ⟨ho1, ho2⟩ := indexOfFrom_some_bounds openDivChars s k nOpen
              (by decide) hop
            have ho4 : openDivChars.length = 4 := by decide
            rw [ho4] at ho2
            dsimp only
            by_cases hlt : nOpen < nClose
            · rw [if_pos hlt, if_pos hlt]
              exact ih f₂ (d + 1) (nOpen + 4) (by omega) (by omega) (by omega)
            · rw [if_neg hlt, if_neg hlt]
              exact ih f₂ (d - 1) (nClose + 6) (by omega) (by omega) (by omega)

theorem outerScan_fuel_mono (s : List Char) :
    ∀ fuel₁ fuel₂ pos acc, pos ≤ s.length + 1 → s.length + 2 ≤ fuel₁ + pos →
      s.length + 2 ≤ fuel₂ + pos → outerScan s fuel₁ pos acc = outerScan s fuel₂ pos acc := by
  intro fuel₁
  induction fuel₁ with
  | zero => intro fuel₂ pos acc hp h1 _; omega
  | succ f ih =>
    intro fuel₂ pos acc hp h1 h2
    rcases fuel₂ with _ | f₂
    · omega
    · rw [outerScan, outerScan]
      rcases hni : indexOfFrom grokNeedle s pos with _ | i
      · rfl
      · obtain ⟨hi1, hi2⟩ := indexOfFrom_some_bounds grokNeedle s pos i
          (by decide) hni
        have hn22 : grokNeedle.length = 22 := by decide
        rw [hn22] at hi2
        dsimp only
        rcases hqi : indexOfFrom quoteGtChars s i with _ | j
        · rfl
        · obtain ⟨hj1, hj2⟩ := indexOfFrom_some_bounds quoteGtChars s i j
            (by decide) hqi
          have hq2 : quoteGtChars.length = 2 := by decide
          rw [hq2] at hj2
          dsimp only
          by_cases hcls : hasSub rImhChars
              ((s.drop (i + grokNeedle.length)).take (j - (i + grokNeedle.length))) = true
          · rw [if_pos hcls, if_pos hcls]
            obtain ⟨hk1, hk2⟩ :=
              innerScan_bounds s (s.length + 1) 1 (j + 2) (by omega)
            exact ih f₂ _ _ (by omega) (by omega) (by omega)
          · rw [if_neg hcls, if_neg hcls]
            exact ih f₂ (i + 1) acc (by omega) (by omega) (by omega)

/-- C10: the balanced-tag block scanner terminates on every input — the scan
position strictly increases in each outer iteration and never passes the end
of the string, so the fuel `s.length + 2` built into `extractGrokBlocks` is
enough: any larger fuel computes the same finite block list, and likewise the
inner depth loop is stable at any fuel beyond `s.length + 1` whenever its
start position is inside the string. -/
theorem extractGrokBlocks_terminates (s : List Char) (extra : Nat) :
    outerScan s (s.length + 2 + extra) 0 [] = extractGrokBlocks s ∧
      (∀ d k, k ≤ s.length → ∀ e₂,
        innerScan s (s.length + 1 + e₂) d k = innerScan s (s.length + 1) d k) := by
  constructor
  · rw [extractGrokBlocks]
    exact outerScan_fuel_mono s (s.length + 2 + extra) (s.length + 2) 0 []
      (by omega) (by omega) (by omega)
  · intro d k hk e₂
    exact innerScan_fuel_mono s (s.length + 1 + e₂) (s.length + 1) d k hk
      (by omega) (by omega)

theorem extractGrokBlocks_terminates_witness :
    outerScan ['<', 'x'] (2 + 2 + 5) 0 [] = extractGrokBlocks ['<', 'x'] ∧
      innerScan ['<', 'x'] (2 + 1 + 7) 1 1 = innerScan ['<', 'x'] (2 + 1) 1 1 :=
  ⟨(extractGrokBlocks_terminates ['<', 'x'] 5).1,
    (extractGrokBlocks_terminates ['<', 'x'] 5).2 1 1 (by decide) 7⟩

theorem isPre_append_long (pat : List Char) :
    ∀ u X, pat.length ≤ u.length → isPre pat (u ++ X) = isPre pat u := by
  induction pat with
  | nil => intro u X _; rfl
  | cons p pr ih =>
    intro u X h
    rcases u with _ | ⟨c, u'⟩
    · simp at h
    · show ((p == c) && isPre pr (u' ++ X)) = ((p == c) && isPre pr u')
      rw [ih u' X (by simpa using h)]

theorem isPre_false_head1 (p : Char) (pr : List Char) (x : Char) (t : List Char)
    (h : x ≠ p) : isPre (p :: pr) (x :: t) = false := by
  show ((p == x) && isPre pr t) = false
  rw [show (p == x) = false by
    rw [beq_eq_false_iff_ne]
    exact fun hh => h hh.symm]
  rfl

theorem isPre_false_head2 (p1 p2 : Char) (pr : List Char) (x1 x2 : Char)
    (t : List Char) (h : ¬(x1 = p1 ∧ x2 = p2)) :
    isPre (p1 :: p2 :: pr) (x1 :: x2 :: t) = false := by
  by_cases h1 : x1 = p1
  · have h2 : x2 ≠ p2 := fun hh => h ⟨h1, hh⟩
    show ((p1 == x1) && ((p2 == x2) && isPre pr t)) = false
    rw [show (p2 == x2) = false by
      rw [beq_eq_false_iff_ne]
      exact fun hh => h2 hh.symm]
    simp
  · exact isPre_false_head1 p1 (p2 :: pr) x1 (x2 :: t) h1

theorem indexOfFrom_skip_miss (pat s : List Char) :
    ∀ (seg : List Char) (k : Nat) (rest : List Char),
      s.drop k = seg ++ rest →
      (∀ m, m < seg.length → isPre pat (seg.drop m ++ rest) = false) →
      indexOfFrom pat s k = indexOfFrom pat s (k + seg.length) := by
  intro seg
  induction seg with
  | nil => intro k rest _ _; rfl
  | cons c seg' ih =>
    intro k rest hdrop hmiss
    have hfalse : isPre pat (s.drop k) = false := by
      rw [hdrop]
      exact hmiss 0 (by simp)
    rw [indexOfFrom_step _ s k hfalse]
    have hdrop' : s.drop (k + 1) = seg' ++ rest := by
      have h1 : s.drop (k + 1) = (s.drop k).drop 1 := by rw [List.drop_drop]
      rw [h1, hdrop]
      rfl
    rw [ih (k + 1) rest hdrop' (fun m hm => hmiss (m + 1) (by simpa using hm))]
    have heq : k + 1 + seg'.length = k + (c :: seg').length := by
      simp
      omega
    rw [heq]

theorem indexOfFrom_at_end (pat s : List Char) (hpat : pat ≠ []) (k : Nat)
    (hk : s.length ≤ k) : indexOfFrom pat s k = none := by
  refine indexOfFrom_none pat s k ?_
  intro j hj
  rw [List.drop_eq_nil_of_le (by omega)]
  rcases pat with _ | ⟨p, pr⟩
  · exact absurd rfl hpat
  · rfl

theorem innerScan_depth0 (s : List Char) (fuel k : Nat) :
    innerScan s fuel 0 k = (0, k) := by
  rcases fuel with _ | f
  · rfl
  · rw [innerScan, if_pos rfl]

theorem innerScan_step_open (s : List Char) (fuel d k nO nC : Nat)
    (hf : 1 ≤ fuel) (hd : d ≠ 0)
    (hcl : indexOfFrom closeDivChars s k = some nC)
    (hop : indexOfFrom openDivChars s k = some nO)
    (hlt : nO < nC) :
    innerScan s fuel d k = innerScan s (fuel - 1) (d + 1) (nO + 4) := by
  rcases fuel with _ | f
  · omega
  · rw [innerScan, if_neg hd, hcl]
    dsimp only
    rw [hop]
    dsimp only
    rw [if_pos hlt]
    rfl

theorem innerScan_step_close (s : List Char) (fuel d k nO nC : Nat)
    (hf : 1 ≤ fuel) (hd : d ≠ 0)
    (hcl : indexOfFrom closeDivChars s k = some nC)
    (hop : indexOfFrom openDivChars s k = some nO)
    (hge : ¬nO < nC) :
    innerScan s fuel d k = innerScan s (fuel - 1) (d - 1) (nC + 6) := by
  rcases fuel with _ | f
  · omega
  · rw [innerScan, if_neg hd, hcl]
    dsimp only
    rw [hop]
    dsimp only
    rw [if_neg hge]
    rfl

theorem innerScan_step_noopen (s : List Char) (fuel d k nC : Nat)
    (hf : 1 ≤ fuel) (hd : d ≠ 0)
    (hcl : indexOfFrom closeDivChars s k = some nC)
    (hop : indexOfFrom openDivChars s k = none) :
    innerScan s fuel d k = innerScan s (fuel - 1) (d - 1) (nC + 6) := by
  rcases fuel with _ | f
  · omega
  · rw [innerScan, if_neg hd, hcl]
    dsimp only
    rw [hop]
    rfl

theorem outerScan_stop (s : List Char) (fuel pos : Nat)
    (acc : List (List Char × List Char))
    (hnone : indexOfFrom grokNeedle s pos = none) :
    outerScan s fuel pos acc = acc.reverse := by
  rcases fuel with _ | f
  · rfl
  · rw [outerScan, hnone]

theorem outerScan_enter (s : List Char) (fuel pos : Nat)
    (acc : List (List Char × List Char)) (i j : Nat)
    (hf : 1 ≤ fuel)
    (hni : indexOfFrom grokNeedle s pos = some i)
    (hqi : indexOfFrom quoteGtChars s i = some j)
    (hcls : hasSub rImhChars
      ((s.drop (i + grokNeedle.length)).take (j - (i + grokNeedle.length))) = true) :
    outerScan s fuel pos acc =
      outerScan s (fuel - 1) (innerScan s (s.length + 1) 1 (j + 2)).2
        (((if hasSub r1ktChars ((s.drop (i + grokNeedle.length)).take
              (j - (i + grokNeedle.length))) = true then roleUser else roleModel),
          (if (innerScan s (s.length + 1) 1 (j + 2)).1 = 0 then
            (s.drop (j + 2)).take ((innerScan s (s.length + 1) 1 (j + 2)).2 - 6 - (j + 2))
          else
            (s.drop (j + 2)).take ((innerScan s (s.length + 1) 1 (j + 2)).2 - (j + 2))))
          :: acc) := by
  rcases fuel with _ | f
  · omega
  · rw [outerScan, hni]
    dsimp only
    rw [hqi]
    dsimp only
    rw [if_pos hcls]
    rfl

/-- C3: balanced-tag positional scan with one nested `div`.  For any
'<'-free paddings `a`, `b`, `c`, on the document
`<div dir="ltr" class="r-imh66m">` ++ `a<div>b</div>c</div>` the scanner
extracts the single model block `a<div>b</div>c` — the fragment runs to the
closing tag that balances the marked container and keeps the nested
container's own closing tag inside it. -/
theorem extractGrokBlocks_nested (a b c : List Char)
    (ha : '<' ∉ a) (hb : '<' ∉ b) (hc : '<' ∉ c) :
    extractGrokBlocks
        (grokNeedle ++ (rImhChars ++ (quoteGtChars ++ (a ++ (openDivChars ++ (['>'] ++
          (b ++ (closeDivChars ++ (c ++ closeDivChars))))))))) =
      [(roleModel, a ++ (openDivChars ++ (['>'] ++ (b ++ (closeDivChars ++ c)))))] := by
  set s := grokNeedle ++ (rImhChars ++ (quoteGtChars ++ (a ++ (openDivChars ++ (['>'] ++
    (b ++ (closeDivChars ++ (c ++ closeDivChars)))))))) with hs
  have hsl : s.length = a.length + b.length + c.length + 49 := by
    rw [hs]
    simp only [List.length_append]
    rw [show grokNeedle.length = 22 by decide, show rImhChars.length = 8 by decide,
      show quoteGtChars.length = 2 by decide, show openDivChars.length = 4 by decide,
      show closeDivChars.length = 6 by decide,
      show (['>'] : List Char).length = 1 by decide]
    omega
  have hdrop22 : s.drop 22 = rImhChars ++ (quoteGtChars ++ (a ++ (openDivChars ++ (['>'] ++
      (b ++ (closeDivChars ++ (c ++ closeDivChars))))))) := by
    rw [hs, show (22 : Nat) = grokNeedle.length by decide, List.drop_left]
  have hdrop30 : s.drop 30 = quoteGtChars ++ (a ++ (openDivChars ++ (['>'] ++
      (b ++ (closeDivChars ++ (c ++ closeDivChars)))))) := by
    rw [show (30 : Nat) = 22 + 8 from rfl, ← List.drop_drop, hdrop22,
      show (8 : Nat) = rImhChars.length by decide, List.drop_left]
  have hdrop32 : s.drop 32 = a ++ (openDivChars ++ (['>'] ++
      (b ++ (closeDivChars ++ (c ++ closeDivChars))))) := by
    rw [show (32 : Nat) = 30 + 2 from rfl, ← List.drop_drop, hdrop30,
      show (2 : Nat) = quoteGtChars.length by decide, List.drop_left]
  have hdropA : s.drop (32 + a.length) = openDivChars ++ (['>'] ++
      (b ++ (closeDivChars ++ (c ++ closeDivChars)))) := by
    rw [← List.drop_drop, hdrop32, List.drop_left]
  have hdropA1 : s.drop (32 + a.length + 1) = ['d', 'i', 'v', '>'] ++
      (b ++ (closeDivChars ++ (c ++ closeDivChars))) := by
    rw [show 32 + a.length + 1 = (32 + a.length) + 1 from rfl, ← List.drop_drop, hdropA]
    rfl
  have hdropA4 : s.drop (32 + a.length + 4) = ['>'] ++
      (b ++ (closeDivChars ++ (c ++ closeDivChars))) := by
    rw [show 32 + a.length + 4 = (32 + a.length) + 4 from rfl, ← List.drop_drop, hdropA,
      show (4 : Nat) = openDivChars.length by decide, List.drop_left]
  have hdropA5 : s.drop (32 + a.length + 5) = b ++ (closeDivChars ++ (c ++ closeDivChars)) := by
    rw [show 32 + a.length + 5 = (32 + a.length + 4) + 1 by omega, ← List.drop_drop, hdropA4]
    rfl
  have hdropB : s.drop (32 + a.length + 5 + b.length) =
      closeDivChars ++ (c ++ closeDivChars) := by
    rw [show 32 + a.length + 5 + b.length = (32 + a.length + 5) + b.length from rfl,
      ← List.drop_drop, hdropA5, List.drop_left]
  have hdropB1 : s.drop (32 + a.length + 5 + b.length + 1) =
      ['/', 'd', 'i', 'v', '>'] ++ (c ++ closeDivChars) := by
    rw [show 32 + a.length + 5 + b.length + 1 = (32 + a.length + 5 + b.length) + 1 from rfl,
      ← List.drop_drop, hdropB]
    rfl
  have hdropB6 : s.drop (32 + a.length + 5 + b.length + 6) = c ++ closeDivChars := by
    rw [show 32 + a.length + 5 + b.length + 6 = (32 + a.length + 5 + b.length) + 6 from rfl,
      ← List.drop_drop, hdropB, show (6 : Nat) = closeDivChars.length by decide,
      List.drop_left]
  have hdropC : s.drop (32 + a.length + 5 + b.length + 6 + c.length) = closeDivChars := by
    rw [show 32 + a.length + 5 + b.length + 6 + c.length =
        (32 + a.length + 5 + b.length + 6) + c.length from rfl,
      ← List.drop_drop, hdropB6, List.drop_left]
  have hdropC1 : s.drop (32 + a.length + 5 + b.length + 6 + c.length + 1) =
      ['/', 'd', 'i', 'v', '>'] ++ ([] : List Char) := by
    rw [show 32 + a.length + 5 + b.length + 6 + c.length + 1 =
        (32 + a.length + 5 + b.length + 6 + c.length) + 1 from rfl,
      ← List.drop_drop, hdropC]
    rfl
  -- `"</div>".indexOf` computations
  have hclA5 : indexOfFrom closeDivChars s (32 + a.length + 5) =
      some (32 + a.length + 5 + b.length) := by
    have h1 := indexOfFrom_skip_nomem closeDivChars '<' (by decide) s b
      (32 + a.length + 5) _ hdropA5 hb
    rw [h1]
    exact indexOfFrom_found closeDivChars s _ _ (by decide) hdropB
  have hclA4 : indexOfFrom closeDivChars s (32 + a.length + 4) =
      some (32 + a.length + 5 + b.length) := by
    have h1 := indexOfFrom_skip_nomem closeDivChars '<' (by decide) s ['>']
      (32 + a.length + 4) _ hdropA4 (by decide)
    rw [h1]
    exact (congrArg (indexOfFrom closeDivChars s) (by simp)).trans hclA5
  have hcl32 : indexOfFrom closeDivChars s 32 =
      some (32 + a.length + 5 + b.length) := by
    have h1 := indexOfFrom_skip_nomem closeDivChars '<' (by decide) s a 32 _ hdrop32 ha
    rw [h1]
    have h2 : isPre closeDivChars (s.drop (32 + a.length)) = false := by
      rw [hdropA]
      exact isPre_false_head2 '<' '/' ['d', 'i', 'v', '>'] '<' 'd' _ (by decide)
    rw [indexOfFrom_step _ s _ h2]
    have h3 := indexOfFrom_skip_nomem closeDivChars '<' (by decide) s
      ['d', 'i', 'v', '>'] (32 + a.length + 1) _ hdropA1 (by decide)
    rw [h3]
    exact (congrArg (indexOfFrom closeDivChars s)
      (by simp only [List.length_cons, List.length_nil])).trans hclA5
  have hclB6 : indexOfFrom closeDivChars s (32 + a.length + 5 + b.length + 6) =
      some (32 + a.length + 5 + b.length + 6 + c.length) := by
    have h1 := indexOfFrom_skip_nomem closeDivChars '<' (by decide) s c
      (32 + a.length + 5 + b.length + 6) _ hdropB6 hc
    rw [h1]
    exact indexOfFrom_found closeDivChars s _ [] (by decide) (by rw [hdropC]; simp)
  -- `"<div".indexOf` computations
  have hop32 : indexOfFrom openDivChars s 32 = some (32 + a.length) := by
    have h1 := indexOfFrom_skip_nomem openDivChars '<' (by decide) s a 32 _ hdrop32 ha
    rw [h1]
    exact indexOfFrom_found openDivChars s _ _ (by decide) hdropA
  have hopC : indexOfFrom openDivChars s (32 + a.length + 5 + b.length + 6 + c.length) =
      none := by
    have h2 : isPre openDivChars
        (s.drop (32 + a.length + 5 + b.length + 6 + c.length)) = false := by
      rw [hdropC]
      decide
    rw [indexOfFrom_step _ s _ h2]
    have h3 := indexOfFrom_skip_nomem openDivChars '<' (by decide) s
      ['/', 'd', 'i', 'v', '>'] (32 + a.length + 5 + b.length + 6 + c.length + 1) _
      hdropC1 (by decide)
    rw [h3]
    exact indexOfFrom_at_end openDivChars s (by decide) _ (by
      simp only [List.length_cons, List.length_nil]
      omega)
  have hopB6 : indexOfFrom openDivChars s (32 + a.length + 5 + b.length + 6) = none := by
    have h1 := indexOfFrom_skip_nomem openDivChars '<' (by decide) s c
      (32 + a.length + 5 + b.length + 6) _ hdropB6 hc
    rw [h1]
    exact hopC
  have hopA4 : indexOfFrom openDivChars s (32 + a.length + 4) = none := by
    have h1 := indexOfFrom_skip_nomem openDivChars '<' (by decide) s ['>']
      (32 + a.length + 4) _ hdropA4 (by decide)
    rw [h1]
    have h2 := indexOfFrom_skip_nomem openDivChars '<' (by decide) s b
      (32 + a.length + 4 + 1) _ (by
        rw [show 32 + a.length + 4 + 1 = 32 + a.length + 5 by omega]
        exact hdropA5) hb
    rw [show (32 + a.length + 4 + (['>'] : List Char).length) = 32 + a.length + 4 + 1 by
      simp, h2]
    have h3 : isPre openDivChars (s.drop (32 + a.length + 4 + 1 + b.length)) = false := by
      rw [show 32 + a.length + 4 + 1 + b.length = 32 + a.length + 5 + b.length by omega,
        hdropB, isPre_append_long openDivChars closeDivChars _ (by decide)]
      decide
    rw [indexOfFrom_step _ s _ h3]
    have h4 := indexOfFrom_skip_nomem openDivChars '<' (by decide) s
      ['/', 'd', 'i', 'v', '>'] (32 + a.length + 4 + 1 + b.length + 1) _ (by
        rw [show 32 + a.length + 4 + 1 + b.length + 1 =
          32 + a.length + 5 + b.length + 1 by omega]
        exact hdropB1) (by decide)
    rw [h4]
    exact (congrArg (indexOfFrom openDivChars s) (by
      simp only [List.length_cons, List.length_nil])).trans hopB6
  -- the inner balanced scan
  have hinner : innerScan s (s.length + 1) 1 32 = (0, s.length) := by
    rw [innerScan_step_open s (s.length + 1) 1 32 (32 + a.length)
      (32 + a.length + 5 + b.length) (by omega) (by decide) hcl32 hop32 (by omega)]
    rw [show s.length + 1 - 1 = s.length by omega,
      show 32 + a.length + 4 = 32 + a.length + 4 from rfl]
    rw [innerScan_step_noopen s s.length 2 (32 + a.length + 4)
      (32 + a.length + 5 + b.length) (by omega) (by decide) hclA4 hopA4]
    rw [show (32 + a.length + 5 + b.length) + 6 = 32 + a.length + 5 + b.length + 6
      from rfl]
    rw [innerScan_step_noopen s (s.length - 1) (2 - 1) (32 + a.length + 5 + b.length + 6)
      (32 + a.length + 5 + b.length + 6 + c.length) (by omega) (by decide) hclB6 hopB6]
    rw [show (32 + a.length + 5 + b.length + 6 + c.length) + 6 = s.length by omega]
    rw [show ((2 : Nat) - 1) - 1 = 0 by omega]
    exact innerScan_depth0 s _ _
  -- the outer scan
  have hni0 : indexOfFrom grokNeedle s 0 = some 0 := by
    refine indexOfFrom_found grokNeedle s 0
      (rImhChars ++ (quoteGtChars ++ (a ++ (openDivChars ++ (['>'] ++
        (b ++ (closeDivChars ++ (c ++ closeDivChars)))))))) (by decide) ?_
    rw [List.drop_zero, hs]
  have hqi0 : indexOfFrom quoteGtChars s 0 = some 30 := by
    have hdrop0 : s.drop 0 = (grokNeedle ++ rImhChars) ++ (quoteGtChars ++ (a ++
        (openDivChars ++ (['>'] ++ (b ++ (closeDivChars ++ (c ++ closeDivChars))))))) := by
      rw [List.drop_zero, hs]
      simp [List.append_assoc]
    have hconc : ∀ m, m < 29 →
        isPre quoteGtChars ((grokNeedle ++ rImhChars).drop m) = false := by decide
    have hmiss : ∀ m, m < (grokNeedle ++ rImhChars).length →
        isPre quoteGtChars ((grokNeedle ++ rImhChars).drop m ++ (quoteGtChars ++ (a ++
          (openDivChars ++ (['>'] ++ (b ++ (closeDivChars ++ (c ++ closeDivChars)))))))) =
          false := by
      intro m hm
      rw [show (grokNeedle ++ rImhChars).length = 30 by decide] at hm
      by_cases hm2 : m ≤ 28
      · rw [isPre_append_long quoteGtChars _ _ (by
          rw [List.length_drop, show (grokNeedle ++ rImhChars).length = 30 by decide,
            show quoteGtChars.length = 2 by decide]
          omega)]
        exact hconc m (by omega)
      · have hm29 : m = 29 := by omega
        subst hm29
        rw [show (grokNeedle ++ rImhChars).drop 29 = ['m'] by decide]
        exact isPre_false_head1 '"' ['>'] 'm' _ (by decide)
    have h1 := indexOfFrom_skip_miss quoteGtChars s (grokNeedle ++ rImhChars) 0 _
      hdrop0 hmiss
    rw [h1]
    exact (congrArg (indexOfFrom quoteGtChars s)
      (by rw [show (grokNeedle ++ rImhChars).length = 30 by decide])).trans
      (indexOfFrom_found quoteGtChars s 30 _ (by decide) hdrop30)
  have hattr : (s.drop (0 + grokNeedle.length)).take (30 - (0 + grokNeedle.length)) =
      rImhChars := by
    rw [show (0 + grokNeedle.length : Nat) = 22 by decide]
    rw [show (30 - 22 : Nat) = 8 from rfl, hdrop22,
      show (8 : Nat) = rImhChars.length by decide, List.take_left]
  rw [extractGrokBlocks]
  rw [outerScan_enter s (s.length + 2) 0 [] 0 30 (by omega) hni0 hqi0
    (by rw [hattr]; decide)]
  rw [hattr]
  rw [show (30 + 2 : Nat) = 32 from rfl, hinner]
  rw [if_neg (by decide : ¬(hasSub r1ktChars rImhChars = true))]
  rw [if_pos rfl]
  rw [show (0, s.length).2 = s.length from rfl]
  rw [show s.length - 6 - 32 = (a ++ (openDivChars ++ (['>'] ++ (b ++
      (closeDivChars ++ c))))).length by
    simp only [List.length_append]
    rw [show openDivChars.length = 4 by decide, show closeDivChars.length = 6 by decide,
      show (['>'] : List Char).length = 1 by decide]
    omega]
  rw [show s.drop 32 = (a ++ (openDivChars ++ (['>'] ++ (b ++ (closeDivChars ++ c))))) ++
      closeDivChars by rw [hdrop32]; simp [List.append_assoc]]
  rw [List.take_left]
  rw [outerScan_stop s _ s.length _ (indexOfFrom_at_end grokNeedle s (by decide)
    s.length (le_refl _))]
  rfl

theorem extractGrokBlocks_nested_witness :
    ('<' ∉ ['x'] ∧ '<' ∉ ['y'] ∧ '<' ∉ ['z']) ∧
      extractGrokBlocks
          (grokNeedle ++ (rImhChars ++ (quoteGtChars ++ (['x'] ++ (openDivChars ++
            (['>'] ++ (['y'] ++ (closeDivChars ++ (['z'] ++ closeDivChars))))))))) =
        [(roleModel, ['x'] ++ (openDivChars ++ (['>'] ++ (['y'] ++
          (closeDivChars ++ ['z'])))))] :=
  ⟨⟨by decide, by decide, by decide⟩,
    extractGrokBlocks_nested ['x'] ['y'] ['z'] (by decide) (by decide) (by decide)⟩

/-- `new TextDecoder("iso-8859-1").decode(bytes)` (converter-suite.js line
192): Latin-1 maps every byte to the code point of its low eight bits and
never fails. -/
def latin1Decode (bs : List Nat) : List Char := bs.map (fun bv => Char.ofNat (bv % 256))

/-- `latin1ToBytes` (converter-suite.js lines 136-142): each character
contributes its code's low eight bits. -/
def latin1ToBytes (t : List Char) : List Nat := t.map (fun ch => ch.toNat % 256)

/-- `headerText.replace(/\r\n/g, "\n")` (converter-suite.js line 88):
left-to-right non-overlapping replacement of CRLF pairs. -/
def replCRLF : List Char → List Char
  | [] => []
  | '\r' :: '\n' :: rest => '\n' :: replCRLF rest
  | ch :: rest => ch :: replCRLF rest

/-- JavaScript object property write `out[key] = value` over an insertion
ordered association list. -/
def hdrSet (m : List (List Char × List Char)) (k v : List Char) :
    List (List Char × List Char) :=
  if m.any (fun e => e.1 = k) then m.map (fun e => if e.1 = k then (k, v) else e)
  else m ++ [(k, v)]

/-- JavaScript object property read `out[key]`. -/
def hdrGet (m : List (List Char × List Char)) (k : List Char) : Option (List Char) :=
  (m.find? (fun e => e.1 = k)).map (fun e => e.2)

/-- The loop of `parseHeaders` (converter-suite.js lines 90-106): blank lines
are skipped, a line starting with a space or tab continues the previous
header (when one exists), otherwise the text before the first `:` (trimmed,
lower-cased) becomes the current key and the rest its value; lines without a
`:` are ignored. -/
def parseHeadersGo : List (List Char) → Option (List Char) →
    List (List Char × List Char) → List (List Char × List Char)
  | [], _, out => out
  | line :: rest, key, out =>
      if jsTrim line = [] then parseHeadersGo rest key out
      else if (line.head? = some ' ' ∨ line.head? = some '\t') ∧ key ≠ none then
        parseHeadersGo rest key (hdrSet out (key.getD [])
          ((hdrGet out (key.getD [])).getD [] ++ ' ' :: jsTrim line))
      else
        match indexOfFrom [':'] line 0 with
        | none => parseHeadersGo rest key out
        | some idx =>
            parseHeadersGo rest (some ((jsTrim (line.take idx)).map Char.toLower))
              (hdrSet out ((jsTrim (line.take idx)).map Char.toLower)
                (jsTrim (line.drop (idx + 1))))

/-- `parseHeaders` (converter-suite.js lines 87-107). -/
def parseHeaders (t : List Char) : List (List Char × List Char) :=
  parseHeadersGo (splitLF (replCRLF t)) none []

/-- Case-insensitive prefix test: the pattern is already lower-case. -/
def isPreCI : List Char → List Char → Bool
  | [], _ => true
  | _ :: _, [] => false
  | p :: ps, ch :: cs => (ch.toLower == p) && isPreCI ps cs

/-- The value alternative `("([^"]+)"|([^;\s]+))` of the `getParam` regex at
the current position: the quoted branch needs a non-empty run of non-quote
characters closed by `"`, else the bare branch takes a non-empty run of
characters that are neither whitespace nor `;` (possibly starting at the
failed opening quote). -/
def paramValTail (r3 : List Char) : Option (List Char) :=
  match r3 with
  | '"' :: r4 =>
      let inner := r4.takeWhile (fun ch => ch ≠ '"')
      if inner ≠ [] ∧ (r4.drop inner.length).head? = some '"' then some inner
      else
        let bare := r3.takeWhile (fun ch => ¬isJsWhitespace ch ∧ ch ≠ ';')
        if bare ≠ [] then some bare else none
  | _ =>
      let bare := r3.takeWhile (fun ch => ¬isJsWhitespace ch ∧ ch ≠ ';')
      if bare ≠ [] then some bare else none

/-- After the key token: `\s*=\s*` then the value alternative. -/
def paramTail (rest : List Char) : Option (List Char) :=
  match rest.dropWhile isJsWhitespace with
  | '=' :: r2 => paramValTail (r2.dropWhile isJsWhitespace)
  | _ => none

/-- Leftmost match of the `getParam` regex: at each position try the
case-insensitive key followed by `\s*=\s*` and the value alternative; on
failure advance one position. -/
def findParam (key : List Char) : List Char → Option (List Char)
  | [] => none
  | ch :: rest =>
      if isPreCI key (ch :: rest) then
        match paramTail ((ch :: rest).drop key.length) with
        | some v => some v
        | none => findParam key rest
      else findParam key rest

/-- `getParam` (converter-suite.js lines 109-119): `null` for an empty
header value or no match, else the matched group trimmed. -/
def getParam (hv key : List Char) : Option (List Char) :=
  if hv = [] then none else (findParam key hv).map jsTrim

/-- `sec.replace(/^\r?\n/, "")` (converter-suite.js line 212). -/
def stripLeadNL : List Char → List Char
  | '\r' :: '\n' :: rest => rest
  | '\n' :: rest => rest
  | s => s

/-- `pBody.replace(/\r?\n$/, "")` (converter-suite.js line 224). -/
def stripTrailNL1 (s : List Char) : List Char :=
  match s.reverse with
  | '\n' :: '\r' :: r => r.reverse
  | '\n' :: r => r.reverse
  | _ => s

/-- `String.prototype.split` on a non-empty separator string: cut at each
occurrence, scanning left to right.  The fuel only bounds the cut count. -/
def splitOnSubGo (marker : List Char) : Nat → List Char → List (List Char)
  | 0, s => [s]
  | fuel + 1, s =>
      match indexOfFrom marker s 0 with
      | none => [s]
      | some i => s.take i :: splitOnSubGo marker fuel (s.drop (i + marker.length))

/-- `bodyText.split(marker)` (converter-suite.js line 208). -/
def splitOnSub (marker s : List Char) : List (List Char) :=
  splitOnSubGo marker (s.length + 1) s

/-- Base64 value of one alphabet character, `none` outside the alphabet. -/
def b64Val (ch : Char) : Option Nat :=
  if 'A' ≤ ch ∧ ch ≤ 'Z' then some (ch.toNat - 65)
  else if 'a' ≤ ch ∧ ch ≤ 'z' then some (ch.toNat - 97 + 26)
  else if '0' ≤ ch ∧ ch ≤ '9' then some (ch.toNat - 48 + 52)
  else if ch = '+' then some 62
  else if ch = '/' then some 63
  else none

/-- Forgiving-base64 padding removal: when the length is a multiple of four,
up to two trailing `=` are dropped. -/
def stripB64Pad (s : List Char) : List Char :=
  if s.length % 4 = 0 then
    match s.reverse with
    | '=' :: '=' :: r => r.reverse
    | '=' :: r => r.reverse
    | _ => s
  else s

/-- Forgiving-base64 bit accumulator: six bits per character, one output
byte whenever eight bits are available, leftover bits discarded at the end;
any character outside the alphabet fails. -/
def atobGo : List Char → Nat → Nat → Option (List Nat)
  | [], _, _ => some []
  | ch :: rest, acc, nbits =>
      match b64Val ch with
      | none => none
      | some v =>
          if 8 ≤ nbits + 6 then
            match atobGo rest ((acc * 64 + v) % 2 ^ (nbits + 6 - 8)) (nbits + 6 - 8) with
            | none => none
            | some bytes => some ((acc * 64 + v) / 2 ^ (nbits + 6 - 8) :: bytes)
          else atobGo rest (acc * 64 + v) (nbits + 6)

/-- `atob` as specified by HTML forgiving-base64 decode on an input already
free of whitespace: strip padding, reject a remainder of one character,
reject characters outside the alphabet, decode six bits at a time. -/
def atobChars (s : List Char) : Option (List Nat) :=
  if (stripB64Pad s).length % 4 = 1 then none
  else atobGo (stripB64Pad s) 0 0

/-- The characters of `content-type`. -/
def ctKeyChars : List Char :=
  ['c', 'o', 'n', 't', 'e', 'n', 't', '-', 't', 'y', 'p', 'e']

/-- The characters of `content-transfer-encoding`. -/
def cteKeyChars : List Char :=
  ['c', 'o', 'n', 't', 'e', 'n', 't', '-', 't', 'r', 'a', 'n', 's', 'f', 'e', 'r',
   '-', 'e', 'n', 'c', 'o', 'd', 'i', 'n', 'g']

/-- The characters of `boundary`. -/
def boundaryKeyChars : List Char := ['b', 'o', 'u', 'n', 'd', 'a', 'r', 'y']

/-- The characters of `charset`. -/
def charsetKeyChars : List Char := ['c', 'h', 'a', 'r', 's', 'e', 't']

/-- The characters of `base64`. -/
def base64Chars : List Char := ['b', 'a', 's', 'e', '6', '4']

/-- The characters of `quoted-printable`. -/
def qpEncChars : List Char :=
  ['q', 'u', 'o', 't', 'e', 'd', '-', 'p', 'r', 'i', 'n', 't', 'a', 'b', 'l', 'e']

/-- The separator `"\r\n\r\n"`. -/
def rnrnChars : List Char := ['\r', '\n', '\r', '\n']

/-- The separator `"\n\n"`. -/
def nnChars : List Char := ['\n', '\n']

/-- The message of `Invalid MHTML: no header separator.`. -/
def sepErrChars : List Char :=
  ['I', 'n', 'v', 'a', 'l', 'i', 'd', ' ', 'M', 'H', 'T', 'M', 'L', ':', ' ',
   'n', 'o', ' ', 'h', 'e', 'a', 'd', 'e', 'r', ' ',
   's', 'e', 'p', 'a', 'r', 'a', 't', 'o', 'r', '.']

/-- The message of `Invalid MHTML: multipart boundary not found.`. -/
def bndErrChars : List Char :=
  ['I', 'n', 'v', 'a', 'l', 'i', 'd', ' ', 'M', 'H', 'T', 'M', 'L', ':', ' ',
   'm', 'u', 'l', 't', 'i', 'p', 'a', 'r', 't', ' ',
   'b', 'o', 'u', 'n', 'd', 'a', 'r', 'y', ' ',
   'n', 'o', 't', ' ', 'f', 'o', 'u', 'n', 'd', '.']

/-- The name of the error `atob` throws on malformed base64. -/
def atobErrChars : List Char :=
  ['I', 'n', 'v', 'a', 'l', 'i', 'd', 'C', 'h', 'a', 'r', 'a', 'c', 't', 'e', 'r',
   'E', 'r', 'r', 'o', 'r']

/-- One parsed MIME part (converter-suite.js lines 238-243). -/
structure Part8 where
  headers : List (List Char × List Char)
  contentType : List Char
  charset : Option (List Char)
  bytes : List Nat
deriving DecidableEq

/-- The skip/split head of one section iteration (converter-suite.js lines
212-223): strip one leading newline, skip empty or `--`-prefixed sections
and sections without their own blank-line separator; otherwise return the
parsed part headers and the body text with one trailing newline removed. -/
def sectionPrep (sec0 : List Char) :
    Option (List (List Char × List Char) × List Char) :=
  let sec := stripLeadNL sec0
  if sec = [] ∨ isPre ['-', '-'] sec = true then none
  else
    let psep := if (indexOfFrom rnrnChars sec 0).isSome then rnrnChars else nnChars
    match indexOfFrom psep sec 0 with
    | none => none
    | some idx =>
        some (parseHeaders (sec.take idx), stripTrailNL1 (sec.drop (idx + psep.length)))

/-- The body decode of one section (converter-suite.js lines 226-234):
base64 may fail (an `atob` throw), quoted-printable and the Latin-1 default
are total. -/
def sectionDecode (hdrs : List (List Char × List Char)) (body : List Char) :
    Option (List Nat) :=
  let cte := ((hdrGet hdrs cteKeyChars).getD []).map Char.toLower
  if hasSub base64Chars cte = true then
    atobChars (body.filter (fun ch => ¬isJsWhitespace ch))
  else if hasSub qpEncChars cte = true then some (qpDecodeToBytes body)
  else some (latin1ToBytes body)

/-- The part record pushed for one section (converter-suite.js lines
236-243). -/
def mkPart8 (hdrs : List (List Char × List Char)) (bs : List Nat) : Part8 :=
  { headers := hdrs
    contentType :=
      (jsTrim ((if (hdrGet hdrs ctKeyChars).getD [] = [] then octetStream
        else (hdrGet hdrs ctKeyChars).getD []).takeWhile (fun ch => ch ≠ ';'))).map
        Char.toLower
    charset := getParam ((hdrGet hdrs ctKeyChars).getD []) charsetKeyChars
    bytes := bs }

/-- One iteration of the section loop: `ok none` when the section is
skipped, `error` when its base64 body is rejected by `atob`. -/
def parseSection (sec0 : List Char) : Except (List Char) (Option Part8) :=
  match sectionPrep sec0 with
  | none => Except.ok none
  | some (hdrs, body) =>
      match sectionDecode hdrs body with
      | none => Except.error atobErrChars
      | some bs => Except.ok (some (mkPart8 hdrs bs))

/-- The section loop of `parseMhtmlParts` (converter-suite.js lines
211-244): first thrown error aborts, otherwise the kept parts in order. -/
def collectParts : List (List Char) → Except (List Char) (List Part8)
  | [] => Except.ok []
  | sec :: rest =>
      match parseSection sec with
      | Except.error e => Except.error e
      | Except.ok none => collectParts rest
      | Except.ok (some p) =>
          match collectParts rest with
          | Except.error e => Except.error e
          | Except.ok ps => Except.ok (p :: ps)

/-- `sep` of `parseMhtmlParts` (converter-suite.js line 193): CRLFCRLF when
it occurs anywhere, else LFLF. -/
def mhtmlSep (t : List Char) : List Char :=
  if (indexOfFrom rnrnChars t 0).isSome then rnrnChars else nnChars

/-- `headEnd` (converter-suite.js line 194). -/
def mhtmlHeadEnd (t : List Char) : Option Nat := indexOfFrom (mhtmlSep t) t 0

/-- The root boundary parameter (converter-suite.js lines 199-201). -/
def mhtmlBoundary (t : List Char) (he : Nat) : Option (List Char) :=
  getParam ((hdrGet (parseHeaders (t.take he)) ctKeyChars).getD []) boundaryKeyChars

/-- The boundary-delimited sections after the first cut (converter-suite.js
lines 206-208). -/
def mhtmlSections (t : List Char) (he : Nat) (bv : List Char) : List (List Char) :=
  (splitOnSub ('-' :: '-' :: bv) (t.drop (he + (mhtmlSep t).length))).tail

/-- `parseMhtmlParts` (converter-suite.js lines 191-246) as an `Except`:
`error` models a thrown exception. -/
def parseMhtmlParts (bs : List Nat) : Except (List Char) (List Part8) :=
  let t := latin1Decode bs
  match mhtmlHeadEnd t with
  | none => Except.error sepErrChars
  | some he =>
      match mhtmlBoundary t he with
      | none => Except.error bndErrChars
      | some bv =>
          if bv = [] then Except.error bndErrChars
          else collectParts (mhtmlSections t he bv)

theorem parseSection_error (sec : List Char) :
    (∃ e, parseSection sec = Except.error e) ↔
      ∃ hdrs body, sectionPrep sec = some (hdrs, body) ∧
        sectionDecode hdrs body = none := by
  constructor
  · rintro ⟨e, he⟩
    rw [parseSection] at he
    rcases hp : sectionPrep sec with _ | ⟨hdrs, body⟩
    · rw [hp] at he
      exact Except.noConfusion he
    · rw [hp] at he
      dsimp only at he
      rcases hd : sectionDecode hdrs body with _ | bs
      · exact ⟨hdrs, body, rfl, hd⟩
      · rw [hd] at he
        exact Except.noConfusion he
  · rintro ⟨hdrs, body, hp, hd⟩
    refine ⟨atobErrChars, ?_⟩
    rw [parseSection, hp]
    dsimp only
    rw [hd]

theorem collectParts_error_iff (L : List (List Char)) :
    (∃ e, collectParts L = Except.error e) ↔
      ∃ sec ∈ L, ∃ hdrs body, sectionPrep sec = some (hdrs, body) ∧
        sectionDecode hdrs body = none := by
  induction L with
  | nil =>
    constructor
    · rintro ⟨e, he⟩
      exact Except.noConfusion he
    · rintro ⟨sec, hmem, _⟩
      exact absurd hmem (by simp)
  | cons sec rest ih =>
    constructor
    · rintro ⟨e, he⟩
      rw [collectParts] at he
      rcases hps : parseSection sec with e' | op
      · exact ⟨sec, by simp, (parseSection_error sec).mp ⟨e', hps⟩⟩
      · rw [hps] at he
        rcases op with _ | p
        · dsimp only at he
          obtain ⟨sec', hmem, hx⟩ := ih.mp ⟨e, he⟩
          exact ⟨sec', by simp [hmem], hx⟩
        · dsimp only at he
          rcases hcr : collectParts rest with e'' | ps
          · obtain ⟨sec', hmem, hx⟩ := ih.mp ⟨e'', hcr⟩
            exact ⟨sec', by simp [hmem], hx⟩
          · rw [hcr] at he
            exact Except.noConfusion he
    · rintro ⟨sec', hmem, hdrs, body, hp, hd⟩
      rcases List.mem_cons.mp hmem with h1 | h2
      · subst h1
        obtain ⟨e, he⟩ := (parseSection_error sec').mpr ⟨hdrs, body, hp, hd⟩
        refine ⟨e, ?_⟩
        rw [collectParts, he]
      · obtain ⟨e, he⟩ := ih.mpr ⟨sec', h2, hdrs, body, hp, hd⟩
        rw [collectParts]
        rcases hps : parseSection sec with e' | op
        · exact ⟨e', rfl⟩
        · rcases op with _ | p
          · dsimp only
            exact ⟨e, he⟩
          · dsimp only
            rw [he]
            exact ⟨e, rfl⟩

/-- C8 counterexample input: a document with a blank-line separator and a
well-formed boundary whose single part is declared base64 but has the body
`!!!`. -/
def c8exStr : String :=
  "Content-Type: multipart/related; boundary=B\n\n--B\nContent-Transfer-Encoding: base64\n\n!!!\n--B--"

/-- The bytes of the C8 counterexample input. -/
def c8ex : List Nat := c8exStr.toList.map Char.toNat

/-- C8 counterexample: the input has a header separator (at offset 43) and a
non-empty boundary parameter, yet `parseMhtmlParts` still throws — `atob`
rejects the invalid base64 body `!!!`.  The claim's two failure conditions
are therefore not exhaustive. -/
theorem parseMhtmlParts_base64_throw :
    mhtmlHeadEnd (latin1Decode c8ex) = some 43 ∧
      mhtmlBoundary (latin1Decode c8ex) 43 = some ['B'] ∧
      parseMhtmlParts c8ex = Except.error atobErrChars :=
  ⟨by decide, by decide, rfl⟩

/-- C8 (amended): `parseMhtmlParts` throws exactly when the Latin-1 decoded
input has no blank-line header/body separator, or the root Content-Type has
no (or an all-whitespace quoted) boundary parameter, or some non-skipped
section declares a base64 transfer encoding whose whitespace-stripped body
is rejected by forgiving-base64 decoding; for all other inputs it returns a
part list without throwing. -/
theorem parseMhtmlParts_error_iff (bs : List Nat) :
    (∃ e, parseMhtmlParts bs = Except.error e) ↔
      (mhtmlHeadEnd (latin1Decode bs) = none ∨
        (∃ he, mhtmlHeadEnd (latin1Decode bs) = some he ∧
          (mhtmlBoundary (latin1Decode bs) he = none ∨
            mhtmlBoundary (latin1Decode bs) he = some [])) ∨
        (∃ he bv, mhtmlHeadEnd (latin1Decode bs) = some he ∧
          mhtmlBoundary (latin1Decode bs) he = some bv ∧ bv ≠ [] ∧
          ∃ sec ∈ mhtmlSections (latin1Decode bs) he bv,
            ∃ hdrs body, sectionPrep sec = some (hdrs, body) ∧
              sectionDecode hdrs body = none)) := by
  rcases hhe : mhtmlHeadEnd (latin1Decode bs) with _ | he
  · constructor
    · intro _
      exact Or.inl rfl
    · intro _
      refine ⟨sepErrChars, ?_⟩
      rw [parseMhtmlParts, hhe]
  · rcases hbv : mhtmlBoundary (latin1Decode bs) he with _ | bv
    · constructor
      · intro _
        exact Or.inr (Or.inl ⟨he, rfl, Or.inl hbv⟩)
      · intro _
        refine ⟨bndErrChars, ?_⟩
        rw [parseMhtmlParts, hhe]
        dsimp only
        rw [hbv]
    · by_cases hbe : bv = []
      · subst hbe
        constructor
        · intro _
          exact Or.inr (Or.inl ⟨he, rfl, Or.inr hbv⟩)
        · intro _
          refine ⟨bndErrChars, ?_⟩
          rw [parseMhtmlParts, hhe]
          dsimp only
          rw [hbv]
          dsimp only
          rw [if_pos rfl]
      · have hparse : parseMhtmlParts bs =
            collectParts (mhtmlSections (latin1Decode bs) he bv) := by
          rw [parseMhtmlParts, hhe]
          dsimp only
          rw [hbv]
          dsimp only
          rw [if_neg hbe]
        rw [hparse, collectParts_error_iff]
        constructor
        · intro hx
          exact Or.inr (Or.inr ⟨he, bv, rfl, hbv, hbe, hx⟩)
        · rintro (h1 | ⟨he', hhe', h2⟩ | ⟨he', bv', hhe', hbv', hbe', hx⟩)
          · exact absurd h1 (by simp)
          · have h3 : he' = he := by simpa using hhe'.symm
            subst h3
            rcases h2 with h2 | h2 <;> rw [hbv] at h2
            · exact absurd h2 (by simp)
            · exact absurd (Option.some.inj h2) hbe
          · have h3 : he' = he := by simpa using hhe'.symm
            subst h3
            rw [hbv] at hbv'
            have h4 : bv = bv' := Option.some.inj hbv'
            subst h4
            exact hx

end Mhtml
